import Mathlib

/-!
Bruvo distance in poppr (`src/poppr_distance.c`).

A verification development for the C core of the Bruvo distance of poppr:
the permutation generator (`permute`, `permuto`), the selector (`mindist`),
the fast path `bruvo_dist` and the missing-data resolver `test_bruvo_dist`.

Modelling conventions.
* C `int` values are unbounded (`Nat` for sizes and indices, `Int` for alleles),
  except in `int32`, `fact_int` and `permutations_int`, which compute the table
  size of `permuto` in 32-bit `int` arithmetic: the two agree up to ploidy 11.
* C `double` values are exact rationals (`ℚ`).
* The process-wide cursor `perm_count` is an explicit component of the state.
* The index arrays `full_ind` and `zero_ind` of `test_bruvo_dist` are one block
  of cells, `zero_ind` directly behind `full_ind`: the counter `full_count` is
  not reset between the two genotypes, and a write past the end of `full_ind`
  lands in `zero_ind[0]`.
-/

namespace Poppr

/-! ## The permutation generator -/

/-- Loop of `fact`: `for (u = x; u > 1; u--) f *= u;`, counter `u`, accumulator `f`. -/
def factLoop : Nat → Nat → Nat
  | 0, f => f
  | u + 1, f => if u + 1 > 1 then factLoop u (f * (u + 1)) else f

/-- C function `fact`: `f = 1`, then the loop, then `return f`, on unbounded
integers. The `int` of the source holds this value for `x ≤ 12`; `fact_int` is
the same loop at 32 bits. -/
def fact (x : Nat) : Nat := factLoop x 1

/-- The value kept by a 32-bit `int`: reduction into `[-2^31, 2^31)`. -/
def int32 (x : Int) : Int := (x + 2 ^ 31) % 2 ^ 32 - 2 ^ 31

/-- Loop of `fact` in 32-bit `int` arithmetic: `f *= u` keeps `int32 (f * u)`. -/
def factLoop_int : Nat → Int → Int
  | 0, f => f
  | u + 1, f => if u + 1 > 1 then factLoop_int u (int32 (f * ((u + 1 : Nat) : Int))) else f

/-- C function `fact` in 32-bit `int` arithmetic. -/
def fact_int (x : Nat) : Int := factLoop_int x 1

/-- The table size of `permuto`, `permutations = fact(per) * per`, in 32-bit
`int` arithmetic: the number of cells that `allocVector` is asked for. -/
def permutations_int (per : Nat) : Int := int32 (fact_int per * (per : Int))

/-- C function `swap` applied to the cells `a + i` and `a + j` of one array:
`temp = a[i]; a[i] = a[j]; a[j] = temp`. -/
def swap (a : List Nat) (i j : Nat) : List Nat :=
  let temp := a.getD i 0
  let a1 := a.set i (a.getD j 0)
  a1.set j temp

/-- The memory `permute` works on: the array `a` being rearranged, the output
buffer `c`, and the global cursor `perm_count`. -/
structure PermState where
  a : List Nat
  c : List Nat
  perm_count : Nat

/-- Base case loop of `permute`: `for (j = 0; j <= n; j++) c[--ind] = *(a + j);`.
The state is the buffer together with the running index `ind`. -/
def writeBlock (a : List Nat) (n : Nat) (c : List Nat) (ind : Nat) : List Nat × Nat :=
  (List.range (n + 1)).foldl
    (fun cs j => (cs.1.set (cs.2 - 1) (a.getD j 0), cs.2 - 1)) (c, ind)

/-- Body of `permute(a, i, n, c)`. The first argument bounds the recursion depth;
`permute` passes `n + 1 - i`, the number of levels between `i` and `n`, and for
`i > n` (depth `0`) the C loop `for (j = i; j <= n; j++)` has no iteration. -/
def permuteAux : Nat → Nat → Nat → PermState → PermState
  | 0, _, _, s => s
  | d + 1, i, n, s =>
    if i = n then
      let perm_count := s.perm_count + (n + 1)
      { s with c := (writeBlock s.a n s.c perm_count).1, perm_count := perm_count }
    else
      (List.range' i (n + 1 - i)).foldl
        (fun s j =>
          let s1 := { s with a := swap s.a i j }
          let s2 := permuteAux d (i + 1) n s1
          { s2 with a := swap s2.a i j })
        s

/-- C function `permute(a, i, n, c)`, run from the cursor value `perm_count`. -/
def permute (a : List Nat) (i n : Nat) (c : List Nat) (perm_count : Nat) : PermState :=
  permuteAux (n + 1 - i) i n { a := a, c := c, perm_count := perm_count }

/-- C entry point `permuto`: resets the cursor, fills `allele_array` with
`0 .. per-1`, allocates `fact(per)*per` cells and runs `permute(allele_array, 0, per-1, _)`.
For `per = 0` the C call has `n = -1`, so neither branch of `permute` writes.
The size is taken on unbounded integers: this is the table of the source
whenever its `int` size `permutations_int per` does not wrap, that is for
`per ≤ 11`. -/
def permuto (per : Nat) : List Nat :=
  let allele_array := List.range per
  let permutations := fact per * per
  let Rval := List.replicate permutations 0
  if per = 0 then Rval else (permute allele_array 0 (per - 1) Rval 0).c

/-! ## The allele distance matrix -/

/-- One entry of the distance matrix: `da = 1 - pow(2, -abs(x - y))`. -/
def da (x y : Int) : ℚ := 1 - (2 : ℚ) ^ (-|x - y|)

/-- Assignment `dist[i][j] = v` on a two-dimensional array. -/
def store2 (dist : Nat → Nat → ℚ) (i j : Nat) (v : ℚ) : Nat → Nat → ℚ :=
  fun i' j' => if i' = i ∧ j' = j then v else dist i' j'

/-- The construction loop shared by `bruvo_dist` and `test_bruvo_dist`:
`for (j < p) for (i < p) dist[i][j] = 1 - pow(2, -abs(genos[0][i] - genos[1][j]))`,
where `genos[i][j]` is cell `i*p + j` of the flat genotype table. -/
def buildDist (genos : List Int) (p : Nat) : Nat → Nat → ℚ :=
  (List.range p).foldl
    (fun dist j =>
      (List.range p).foldl
        (fun dist i => store2 dist i j (da (genos.getD (0 * p + i) 0) (genos.getD (1 * p + j) 0)))
        dist)
    (fun _ _ => 0)

/-- The cast `distp = (double *) &dist` of a `double dist[p][p]`: row-major cells. -/
def flatten (dist : Nat → Nat → ℚ) (p : Nat) : Nat → ℚ :=
  fun k => dist (k / p) (k % p)

/-! ## Selecting the minimum over the permutation table -/

/-- Loop state of the selectors: cells of `perm` consumed so far, the running
sum `res` and the running minimum `minn`. -/
structure SelState where
  counter : Nat
  res : ℚ
  minn : ℚ

/-- One outer iteration of the selection loop in `bruvo_dist`: the inner loop
reads `dist[*perm++][j]` for `j < p`, then `if (res < minn) minn = res`. -/
def bruvoBlock (dist : Nat → Nat → ℚ) (p : Nat) (perm : List Nat) (s : SelState) : SelState :=
  let s1 := (List.range p).foldl
    (fun s j =>
      { s with
        counter := s.counter + 1
        res := if j = 0 then dist (perm.getD s.counter 0) j
               else s.res + dist (perm.getD s.counter 0) j })
    s
  if s1.res < s1.minn then { s1 with minn := s1.res } else s1

/-- One outer iteration of `mindist`: the inner loop reads the flat cell
`dist[*(perm + counter++) + p*j]` for `j < p`, then `if (res < minn) minn = res`. -/
def mindistBlock (dist : Nat → ℚ) (p : Nat) (perm : List Nat) (s : SelState) : SelState :=
  let s1 := (List.range p).foldl
    (fun s j =>
      { s with
        counter := s.counter + 1
        res := if j = 0 then dist (perm.getD s.counter 0 + p * j)
               else s.res + dist (perm.getD s.counter 0 + p * j) })
    s
  if s1.res < s1.minn then { s1 with minn := s1.res } else s1

/-- Number of iterations of `for (i = 0; i < w; i += p)` for `p > 0`. -/
def outerIters (w p : Nat) : Nat := (w + p - 1) / p

/-- C function `mindist(perms, alleles, perm, dist)`; `res = 0`, `minn = 100`. -/
def mindist (perms alleles : Nat) (perm : List Nat) (dist : Nat → ℚ) : ℚ :=
  ((List.range (outerIters perms alleles)).foldl
    (fun s _ => mindistBlock dist alleles perm s)
    { counter := 0, res := 0, minn := 100 }).minn

/-- C function `bruvo_dist(in, nall, perm, woo)`. The first loop returns
`minn = 100` at the first zero among the `2*p` input cells; otherwise `genos`
is a copy of `in`. -/
def bruvo_dist (inp : List Int) (nall : Nat) (perm : List Nat) (woo : Nat) : ℚ :=
  let p := nall
  let w := woo
  let minn : ℚ := 100
  if (List.range (2 * p)).any (fun counter => inp.getD counter 0 == 0) then minn
  else
    let dist := buildDist inp p
    let minn := ((List.range (outerIters w p)).foldl
      (fun s _ => bruvoBlock dist p perm s)
      { counter := 0, res := 0, minn := minn }).minn
    minn / p

/-! ## The missing-data resolver -/

/-- Memory of the first loop of `test_bruvo_dist`: the counters `zerocatch[0]`,
`zerocatch[1]` and `full_count`, and the cells of the two index arrays. For
ploidy `p`, `full_ind[i][c]` is cell `i*p + c` and `zero_ind[i][c]` is cell
`2*p + i*p + c`. -/
structure ScanState where
  zerocatch : Nat → Nat
  full_count : Nat
  cells : Nat → Nat

/-- The memory before the first loop: `zerocatch[0] = zerocatch[1] = 0`,
`full_count = 0`. -/
def scanInit : ScanState :=
  { zerocatch := fun _ => 0, full_count := 0, cells := fun _ => 0 }

/-- First loop of `test_bruvo_dist` for genotype `i`, from the memory `s`: a
zero allele is counted and its position stored in `zero_ind[i][zerocatch[i] - 1]`
(`none` stands for the early `return minn` at the `p`-th zero), any other
position is stored by `full_ind[i][full_count++] = j`. -/
def scanGeno (inp : List Int) (p i : Nat) (s : ScanState) : Option ScanState :=
  (List.range p).foldl
    (fun st j =>
      st.bind fun s =>
        if inp.getD (i * p + j) 0 = 0 then
          if s.zerocatch i = p - 1 then none
          else some
            { s with
              zerocatch := fun k => if k = i then s.zerocatch i + 1 else s.zerocatch k
              cells := fun x =>
                if x = 2 * p + i * p + (s.zerocatch i + 1 - 1) then j else s.cells x }
        else some
          { s with
            cells := fun x => if x = i * p + s.full_count then j else s.cells x
            full_count := s.full_count + 1 })
    (some s)

/-- Rebuild loop of the both-sides branch for one genotype: a zero is skipped
while `zero_counter > 0`, every other allele is appended to `new_geno`. -/
def dropZeros (genos : List Int) (p i zero_counter : Nat) (new_geno : List Int) : List Int :=
  ((List.range p).foldl
    (fun st j =>
      if genos.getD (i * p + j) 0 = 0 ∧ st.1 > 0 then (st.1 - 1, st.2)
      else (st.1, st.2 ++ [genos.getD (i * p + j) 0]))
    (zero_counter, new_geno)).2

/-- Loop `for (j < p) dist[ind][j] = 1`. -/
def rowOnes (dist : Nat → Nat → ℚ) (p ind : Nat) : Nat → Nat → ℚ :=
  (List.range p).foldl (fun dist j => store2 dist ind j 1) dist

/-- Loop `for (j < p) dist[j][ind] = 1`. -/
def colOnes (dist : Nat → Nat → ℚ) (p ind : Nat) : Nat → Nat → ℚ :=
  (List.range p).foldl (fun dist j => store2 dist j ind 1) dist

/-- Loop `for (j < p) dist[ind][j] = dist[i][j]`. -/
def rowCopy (dist : Nat → Nat → ℚ) (p ind i : Nat) : Nat → Nat → ℚ :=
  (List.range p).foldl (fun dist j => store2 dist ind j (dist i j)) dist

/-- Loop `for (j < p) dist[j][ind] = dist[j][i]`. -/
def colCopy (dist : Nat → Nat → ℚ) (p ind i : Nat) : Nat → Nat → ℚ :=
  (List.range p).foldl (fun dist j => store2 dist j ind (dist j i)) dist

/-- Infinite model: `for (z < zerocatch[miss_ind])` force row (genotype 0
deficient) or column `zero_ind[miss_ind][z]` to `1`. -/
def infiniteModel (dist : Nat → Nat → ℚ) (p z0 : Nat) (zeros : List Nat) (zc : Nat) :
    Nat → Nat → ℚ :=
  (List.range zc).foldl
    (fun dist z =>
      let ind := zeros.getD z 0
      if z0 > 0 then rowOnes dist p ind else colOnes dist p ind)
    dist

/-- Genome addition model: the donor loop over `i < p`, skipping `i == ind`;
returns `genome_add_sum`. The matrix is overwritten in place. -/
def genomeAdd (dist : Nat → Nat → ℚ) (w p : Nat) (perm : List Nat) (z0 ind : Nat) : ℚ :=
  ((List.range p).foldl
    (fun st i =>
      if i = ind then st
      else
        let dist := if z0 > 0 then rowCopy st.1 p ind i else colCopy st.1 p ind i
        (dist, st.2 + mindist w p perm (flatten dist p)))
    (dist, (0 : ℚ))).2

/-- C function `test_bruvo_dist(in, nall, perm, woo, loss, add)`. The first
argument bounds the nesting of recursive calls; `none` means the bound was hit. -/
def test_bruvo_dist_fuel :
    Nat → List Int → Nat → List Nat → Nat → Int → Int → Option ℚ
  | 0, _, _, _, _, _, _ => none
  | fuel + 1, inp, nall, perm, woo, loss, add =>
    let p := nall
    let w := woo
    let loss_indicator := loss
    let add_indicator := add
    let minn : ℚ := 100
    match scanGeno inp p 0 scanInit with
    | none => some minn
    | some s0 =>
    match scanGeno inp p 1 s0 with
    | none => some minn
    | some s =>
    let genos := inp
    let zerocatch : Nat → Nat := s.zerocatch
    let zero_ind : Nat → List Nat :=
      fun k => (List.range p).map fun z => s.cells (2 * p + k * p + z)
    let zerodiff := ((zerocatch 0 : Int) - (zerocatch 1 : Int)).natAbs
    if zerocatch 0 > 0 ∧ zerocatch 1 > 0 then
      let larger := if zerodiff = 0 then 0 else if zerocatch 0 < zerocatch 1 then 1 else 0
      let smaller := if zerodiff = 0 then 1 else if zerocatch 0 < zerocatch 1 then 0 else 1
      let reduction :=
        if zerodiff = 0 then p - zerocatch 0 else p - (zerocatch larger - zerodiff)
      let w := fact reduction * reduction
      let perm_array := permuto reduction
      let new_geno := dropZeros genos p 1 (zerocatch smaller)
        (dropZeros genos p 0 (zerocatch smaller) [])
      test_bruvo_dist_fuel fuel new_geno reduction perm_array w loss_indicator add_indicator
    else
      let dist := buildDist genos p
      if zerocatch 0 > 0 ∨ zerocatch 1 > 0 then
        let miss_ind := if zerocatch 0 > 0 then 0 else 1
        let full_ind := if zerocatch 0 > 0 then 1 else 0
        let ind := (zero_ind miss_ind).getD 0 0
        if loss_indicator ≠ 1 ∧ add_indicator ≠ 1 then
          let dist := infiniteModel dist p (zerocatch 0) (zero_ind miss_ind) (zerocatch miss_ind)
          some (mindist w p perm (flatten dist p) / p)
        else
          let genome_add_sum : ℚ :=
            if add_indicator = 1 then genomeAdd dist w p perm (zerocatch 0) ind else 0
          let genome_loss_sum : Option ℚ :=
            if loss_indicator = 1 then
              ((List.range p).foldl
                (fun st i =>
                  st.bind fun gs =>
                    let genos := gs.1.set (miss_ind * p + ind) (gs.1.getD (full_ind * p + i) 0)
                    (test_bruvo_dist_fuel fuel genos p perm w loss_indicator add_indicator).map
                      fun r => (genos, gs.2 + r * p))
                (some (genos, (0 : ℚ)))).map Prod.snd
            else some 0
          genome_loss_sum.map fun genome_loss_sum =>
            let genome_loss_sum : ℚ := genome_loss_sum / (p : ℚ)
            let genome_add_sum : ℚ := genome_add_sum / (((p : Int) - 1 : Int) : ℚ)
            let comparison_factor : Int := loss_indicator + add_indicator
            (genome_add_sum + genome_loss_sum) / (((p : Int) * comparison_factor : Int) : ℚ)
      else
        some (mindist w p perm (flatten dist p) / p)

/-- The resolver with the nesting bound `2 * nall + 1`; a call that returns
does so within `nall` nested calls, and `none` means that it does not return. -/
def test_bruvo_dist (inp : List Int) (nall : Nat) (perm : List Nat) (woo : Nat)
    (loss add : Int) : Option ℚ :=
  test_bruvo_dist_fuel (2 * nall + 1) inp nall perm woo loss add

/-- R entry point `single_bruvo`: `P = length(permutations)` is passed as `woo`. -/
def single_bruvo (b_mat : List Int) (permutations : List Nat) (alleles : Nat)
    (loss add : Int) : Option ℚ :=
  test_bruvo_dist b_mat alleles permutations permutations.length loss add

/-! ## Specification-side definitions -/

/-- The arrangements of the part `s` of the working array that lies at and after
position `i`, in the order in which `permute` reaches its base case; the first
argument is the depth `n + 1 - i`, the length of `s`. -/
def arrangements : Nat → List Nat → List (List Nat)
  | 0, _ => []
  | d + 1, s =>
    if d = 0 then [s]
    else (List.range (d + 1)).flatMap fun k =>
      (arrangements d (swap s 0 k).tail).map fun t => (swap s 0 k).headD 0 :: t

/-- The cells written by `permute` at depth `d` when the working array is
`pre ++ s`: every arrangement, reversed, one block after the other. -/
def blocksFrom (pre : List Nat) (d : Nat) (s : List Nat) : List Nat :=
  ((arrangements d s).map fun t => (pre ++ t).reverse).flatten

/-- The consecutive blocks of length `p` of a flat table. -/
def blocksOf (p : Nat) (table : List Nat) : List (List Nat) :=
  (List.range (table.length / p)).map fun b => (table.drop (b * p)).take p

/-- The running minimum of the selectors: start at `100`, take each smaller value. -/
def capMin (vals : List ℚ) : ℚ :=
  vals.foldl (fun m r => if r < m then r else m) 100

/-- What the running minimum is, for the set `S` of block sums. -/
def IsCapMin (S : Set ℚ) (x : ℚ) : Prop :=
  x ≤ 100 ∧ (∀ v ∈ S, x ≤ v) ∧ (x = 100 ∨ x ∈ S)

/-- The block sum read by the selectors at block `b`. -/
def blockVal (cell : Nat → Nat → ℚ) (p b : Nat) : ℚ :=
  ∑ j in Finset.range p, cell (b * p + j) j

/-- The sum the selector forms for one block, for a cell function of the table
entry and `j`. -/
def blockCost (f : Nat → Nat → ℚ) (p : Nat) (blk : List Nat) : ℚ :=
  ∑ j in Finset.range p, f (blk.getD j 0) j

/-- The set of the sums `Σ_k M (σ k) k` over all bijections `σ` of `[0, p)`. -/
def permCosts (M : Nat → Nat → ℚ) (p : Nat) : Set ℚ :=
  Set.range fun σ : Equiv.Perm (Fin p) => ∑ k : Fin p, M (σ k) k

/-- The matrix of the pair `(A, B)`: `costMatrix A B i j` is the entry for allele
`i` of `A` and allele `j` of `B`. -/
def costMatrix (A B : List Int) : Nat → Nat → ℚ :=
  fun i j => da (A.getD i 0) (B.getD j 0)

/-- Positions `j < k` of the zero cells of a genotype given by its cell function. -/
def zerosOf (c : Nat → Int) (k : Nat) : List Nat :=
  (List.range k).filter fun j => c j = 0

/-- Positions `j < k` of the non-zero cells of a genotype given by its cell function. -/
def fullOf (c : Nat → Int) (k : Nat) : List Nat :=
  (List.range k).filter fun j => c j ≠ 0

/-- Positions of the zero alleles of a genotype. -/
def zeroIdx (g : List Int) : List Nat :=
  (List.range g.length).filter fun j => g.getD j 0 = 0

/-- A genotype without its first `n` zero alleles, the other alleles in order. -/
def removeZeros : Nat → List Int → List Int
  | _, [] => []
  | n, x :: xs => if x = 0 ∧ n > 0 then removeZeros (n - 1) xs else x :: removeZeros n xs

/-- Every entry inside the `p × p` matrix lies in `[0, 1]`. -/
def Bounded (M : Nat → Nat → ℚ) (p : Nat) : Prop :=
  ∀ i j, i < p → j < p → 0 ≤ M i j ∧ M i j ≤ 1

/-- The first `z0` cells of `zero_ind[0]` after the first loop, for a genotype 0
with `z0` zeros against a fully observed genotype 1: cell `z` holds `z + z0`
when `z + z0 < p` (written through `full_ind`), else the position of zero
number `z` of genotype 0. -/
def strayIdx (A : List Int) (p : Nat) : List Nat :=
  (List.range (A.count 0)).map fun z =>
    if z + A.count 0 < p then z + A.count 0 else (zeroIdx A).getD z 0

/-- Cost of an injective assignment `f` of the observed alleles of the deficient
genotype `D` (all positions but `m`) to alleles of the full genotype `Fu`. -/
def assignCost (D Fu : List Int) (p : Nat) (m : Fin p)
    (f : {k : Fin p // k ≠ m} ↪ Fin p) : ℚ :=
  ∑ k : {k : Fin p // k ≠ m}, da (D.getD k.1.1 0) (Fu.getD (f k).1 0)

/-- The cheapest injective assignment. -/
def bestAssign (D Fu : List Int) (p : Nat) (m : Fin p)
    [Fintype ({k : Fin p // k ≠ m} ↪ Fin p)] : ℚ :=
  Finset.univ.inf' ⟨Function.Embedding.subtype _, Finset.mem_univ _⟩ (assignCost D Fu p m)

/-- A bound on the nesting of recursive calls of the resolver on the pair
`(A, B)`: none when a genotype is entirely zero, otherwise one call for the
both-sides reduction and one genome-loss call per zero that one side has more
than the other. -/
def depthBound (A B : List Int) : Nat :=
  if A.count 0 = A.length ∨ B.count 0 = B.length then 0
  else (if 0 < A.count 0 ∧ 0 < B.count 0 then 1 else 0)
    + (max (A.count 0) (B.count 0) - min (A.count 0) (B.count 0))

/-- C entry point `permuto` as a step on the process-wide cursor: the first
argument is the value of `perm_count` when the call starts; the result is the
table `Rval` and the value of `perm_count` when the call returns. -/
def permuto_state (_perm_count : Nat) (per : Nat) : List Nat × Nat :=
  let perm_count := 0
  let allele_array := List.range per
  let permutations := fact per * per
  let Rval := List.replicate permutations 0
  if per = 0 then (Rval, perm_count)
  else
    let s := permute allele_array 0 (per - 1) Rval perm_count
    (s.c, s.perm_count)

/-- The reduced ploidy `reduction` of the both-sides branch of `test_bruvo_dist`
in C `int` arithmetic, from `p` and the two zero counts: `zerodiff = abs(z0 - z1)`;
`p - zerocatch[0]` when `zerodiff == 0`, else `p - (zerocatch[larger] - zerodiff)`
with `larger = 1` exactly when `zerocatch[0] < zerocatch[1]`. -/
def reduction (p zerocatch0 zerocatch1 : Int) : Int :=
  let zerocatch : Nat → Int := fun k => if k = 0 then zerocatch0 else zerocatch1
  let zerodiff := |zerocatch 0 - zerocatch 1|
  if zerodiff = 0 then p - zerocatch 0
  else
    let larger := if zerocatch 0 < zerocatch 1 then 1 else 0
    p - (zerocatch larger - zerodiff)

/-! ## Correctness of the permutation generator -/

theorem factLoop_eq (u f : Nat) : factLoop u f = f * u.factorial := by
  induction u generalizing f with
  | zero => simp [factLoop]
  | succ u ih =>
    rw [factLoop]
    split
    · rw [ih, Nat.factorial_succ, Nat.mul_assoc]
    · have : u = 0 := by omega
      subst this
      simp

theorem fact_eq (x : Nat) : fact x = x.factorial := by
  simp [fact, factLoop_eq]

/-! ### `swap` on the head of a list -/

theorem swap_self_zero (s : List Nat) : swap s 0 0 = s := by
  cases s with
  | nil => simp [swap]
  | cons x xs => simp [swap]

theorem swap_zero_succ (x : Nat) (xs : List Nat) (m : Nat) (hm : m < xs.length) :
    swap (x :: xs) 0 (m + 1) = xs.getD m 0 :: xs.set m x := by
  simp [swap, hm]

theorem getD_cons_set_perm (x : Nat) (xs : List Nat) (m : Nat) (hm : m < xs.length) :
    (xs.getD m 0 :: xs.set m x).Perm (x :: xs) := by
  induction xs generalizing m with
  | nil => simp at hm
  | cons y t ih =>
    cases m with
    | zero => simpa using List.Perm.swap x y t
    | succ m =>
      have hm2 : m < t.length := by simpa using hm
      have h1 := ih m hm2
      simp only [List.getD_cons_succ, List.set_cons_succ]
      exact ((List.Perm.swap y (t.getD m 0) (t.set m x)).trans (h1.cons y)).trans
        (List.Perm.swap x y t)

theorem swap_zero_perm (s : List Nat) (k : Nat) (hk : k < s.length) :
    (swap s 0 k).Perm s := by
  cases s with
  | nil => simp at hk
  | cons x xs =>
    cases k with
    | zero => rw [swap_self_zero]
    | succ m =>
      have hm : m < xs.length := by simpa using hk
      rw [swap_zero_succ x xs m hm]
      exact getD_cons_set_perm x xs m hm

theorem swap_zero_head (s : List Nat) (k : Nat) (hk : k < s.length) :
    (swap s 0 k).headD 0 = s.getD k 0 := by
  cases s with
  | nil => simp at hk
  | cons x xs =>
    cases k with
    | zero => simp [swap_self_zero]
    | succ m =>
      have hm : m < xs.length := by simpa using hk
      rw [swap_zero_succ x xs m hm]
      simp

theorem swap_zero_cons (s : List Nat) (k : Nat) (hk : k < s.length) :
    swap s 0 k = (swap s 0 k).headD 0 :: (swap s 0 k).tail := by
  have hp := (swap_zero_perm s k hk).length_eq
  cases h : swap s 0 k with
  | nil => rw [h] at hp; simp at hp; omega
  | cons y t => simp

theorem set_getD_self (l : List Nat) (m : Nat) : l.set m (l.getD m 0) = l := by
  induction l generalizing m with
  | nil => simp
  | cons y t ih =>
    cases m with
    | zero => simp
    | succ m => simpa using ih m

theorem swap_zero_swap (s : List Nat) (k : Nat) (hk : k < s.length) :
    swap (swap s 0 k) 0 k = s := by
  cases s with
  | nil => simp at hk
  | cons x xs =>
    cases k with
    | zero => simp [swap_self_zero]
    | succ m =>
      have hm : m < xs.length := by simpa using hk
      rw [swap_zero_succ x xs m hm, swap_zero_succ _ _ m (by simpa using hm)]
      have h2 := set_getD_self xs m
      simp [hm] at h2 ⊢
      exact h2

theorem swap_append (pre s : List Nat) (k : Nat) :
    swap (pre ++ s) pre.length (pre.length + k) = pre ++ swap s 0 k := by
  simp [swap, List.getD_eq_getElem?_getD, List.getElem?_append_right, List.set_append_right]

/-! ### The base case writes the arrangement backwards -/

theorem set_take_append (c R : List Nat) (m v : Nat) (hm : m < c.length) :
    (c.take (m + 1) ++ R).set m v = c.take m ++ v :: R := by
  induction c generalizing m with
  | nil => simp at hm
  | cons y t ih =>
    cases m with
    | zero => simp
    | succ m =>
      have hm2 : m < t.length := by simpa using hm
      simpa using ih m hm2

theorem writeBlock_fold (a c : List Nat) (top k : Nat) (hk : k ≤ a.length) (hkt : k ≤ top)
    (htop : top ≤ c.length) :
    (List.range k).foldl
      (fun cs j => (cs.1.set (cs.2 - 1) (a.getD j 0), cs.2 - 1)) (c, top)
    = (c.take (top - k) ++ (a.take k).reverse ++ c.drop top, top - k) := by
  induction k with
  | zero => simp
  | succ k ih =>
    rw [List.range_succ, List.foldl_append, ih (by omega) (by omega)]
    have hlt : k < a.length := by omega
    obtain ⟨m, e1⟩ : ∃ m, top - k = m + 1 := ⟨top - k - 1, by omega⟩
    have e2 : top - (k + 1) = m := by omega
    have e3 : (a.take (k + 1)).reverse = a.getD k 0 :: (a.take k).reverse := by
      rw [List.take_succ]
      simp [hlt]
    simp only [List.foldl_cons, List.foldl_nil, List.append_assoc]
    rw [e3, e2, e1]
    congr 1
    rw [Nat.add_sub_cancel, set_take_append c _ m _ (by omega)]
    simp

theorem writeBlock_eq (a c : List Nat) (n pc : Nat) (ha : a.length = n + 1)
    (hc : pc + (n + 1) ≤ c.length) :
    writeBlock a n c (pc + (n + 1)) = (c.take pc ++ a.reverse ++ c.drop (pc + (n + 1)), pc) := by
  unfold writeBlock
  rw [writeBlock_fold a c (pc + (n + 1)) (n + 1) (by omega) (by omega) hc]
  have : a.take (n + 1) = a := by rw [← ha]; exact List.take_length a
  simp [this]

/-! ### The arrangements visited by the backtracking -/

theorem arrangements_length_mem (d : Nat) (s : List Nat) (hs : s.length = d) :
    ∀ t ∈ arrangements d s, t.length = d := by
  induction d generalizing s with
  | zero => simp [arrangements]
  | succ d ih =>
    intro t ht
    rw [arrangements] at ht
    split at ht
    · simp at ht; subst ht; exact hs
    · simp only [List.mem_flatMap, List.mem_range, List.mem_map] at ht
      obtain ⟨k, hk, t2, ht2, rfl⟩ := ht
      have hl : (swap s 0 k).tail.length = d := by
        have := (swap_zero_perm s k (by omega)).length_eq
        simp [this, hs]
      simp [ih _ hl t2 ht2]

theorem length_flatMap_const {α β : Type} (l : List α) (f : α → List β) (c : Nat)
    (h : ∀ x ∈ l, (f x).length = c) : (l.flatMap f).length = l.length * c := by
  induction l with
  | nil => simp
  | cons x l ih =>
    simp only [List.flatMap_cons, List.length_append, List.length_cons]
    rw [h x (by simp), ih (fun y hy => h y (by simp [hy]))]
    ring

theorem arrangements_length (d : Nat) (s : List Nat) (hd : 1 ≤ d) :
    (arrangements d s).length = d.factorial := by
  induction d generalizing s with
  | zero => omega
  | succ d ih =>
    rw [arrangements]
    split
    · rename_i h0; subst h0; simp
    · rename_i h0
      rw [length_flatMap_const _ _ d.factorial]
      · simp [Nat.factorial_succ]
      · intro k _
        simp [ih _ (by omega)]

/-! ### The buffer after a run of `permute` -/

theorem splice_length (c F : List Nat) (pc : Nat) (h : pc + F.length ≤ c.length) :
    (c.take pc ++ F ++ c.drop (pc + F.length)).length = c.length := by
  simp
  omega

theorem splice_splice (c F G : List Nat) (pc : Nat) (h : pc + F.length + G.length ≤ c.length) :
    (c.take pc ++ F ++ c.drop (pc + F.length)).take (pc + F.length) ++ G ++
      (c.take pc ++ F ++ c.drop (pc + F.length)).drop (pc + F.length + G.length)
    = c.take pc ++ (F ++ G) ++ c.drop (pc + (F ++ G).length) := by
  have hl : (c.take pc ++ F).length = pc + F.length := by simp; omega
  rw [List.take_left' hl]
  have e : pc + F.length + G.length = (c.take pc ++ F).length + G.length := by rw [hl]
  rw [e, ← List.drop_drop, List.drop_left, List.drop_drop]
  simp [Nat.add_assoc]

theorem flatten_map_flatMap {α β γ : Type} (ks : List α) (f : α → List β) (g : β → List γ) :
    ((ks.flatMap f).map g).flatten = (ks.map fun k => ((f k).map g).flatten).flatten := by
  induction ks with
  | nil => simp
  | cons k ks ih => simp [List.flatMap_cons, ih]

theorem blocksFrom_succ (pre : List Nat) (d : Nat) (s : List Nat) (hd : d ≠ 0) :
    blocksFrom pre (d + 1) s =
      ((List.range (d + 1)).map fun k =>
        blocksFrom (pre ++ [(swap s 0 k).headD 0]) d (swap s 0 k).tail).flatten := by
  unfold blocksFrom
  rw [arrangements, if_neg hd, flatten_map_flatMap]
  congr 1
  apply List.map_congr_left
  intro k _
  simp [List.map_map, Function.comp_def]

theorem permuteAux_eq (d : Nat) : ∀ (i n : Nat) (pre s c : List Nat) (pc : Nat),
    pre.length = i → s.length = d → d + i = n + 1 → 1 ≤ d →
    pc + (blocksFrom pre d s).length ≤ c.length →
    permuteAux d i n { a := pre ++ s, c := c, perm_count := pc } =
      { a := pre ++ s
        c := c.take pc ++ blocksFrom pre d s ++ c.drop (pc + (blocksFrom pre d s).length)
        perm_count := pc + (blocksFrom pre d s).length } := by
  induction d with
  | zero => intro i n pre s c pc _ _ _ h; omega
  | succ d ih =>
    intro i n pre s c pc hpre hs hdi _ hc
    by_cases hd : d = 0
    · subst hd
      have hin : i = n := by omega
      have hb : blocksFrom pre 1 s = (pre ++ s).reverse := by simp [blocksFrom, arrangements]
      have hlen : (pre ++ s).length = n + 1 := by simp [hpre, hs]; omega
      rw [hb] at hc ⊢
      have hlr : (pre ++ s).reverse.length = n + 1 := by rw [List.length_reverse, hlen]
      rw [hlr] at hc ⊢
      simp only [permuteAux, hin, if_true]
      rw [writeBlock_eq _ _ _ _ hlen hc]
    · have hin : i ≠ n := by omega
      have hcnt : n + 1 - i = d + 1 := by omega
      simp only [permuteAux, hin, if_false, hcnt]
      rw [blocksFrom_succ pre d s hd] at hc ⊢
      -- invariant of the loop over `j`
      have key : ∀ m, m ≤ d + 1 →
          pc + (((List.range m).map fun k =>
            blocksFrom (pre ++ [(swap s 0 k).headD 0]) d (swap s 0 k).tail).flatten).length
            ≤ c.length →
          (List.range' i m).foldl
            (fun s j =>
              let s1 := { s with a := swap s.a i j }
              let s2 := permuteAux d (i + 1) n s1
              { s2 with a := swap s2.a i j })
            { a := pre ++ s, c := c, perm_count := pc } =
          { a := pre ++ s
            c := c.take pc ++ ((List.range m).map fun k =>
                blocksFrom (pre ++ [(swap s 0 k).headD 0]) d (swap s 0 k).tail).flatten ++
              c.drop (pc + (((List.range m).map fun k =>
                blocksFrom (pre ++ [(swap s 0 k).headD 0]) d (swap s 0 k).tail).flatten).length)
            perm_count := pc + (((List.range m).map fun k =>
                blocksFrom (pre ++ [(swap s 0 k).headD 0]) d (swap s 0 k).tail).flatten).length } := by
        intro m
        induction m with
        | zero => intro _ _; simp
        | succ m ihm =>
          intro hm hcm
          have hms : m < s.length := by omega
          rw [List.range_succ, List.map_append, List.flatten_append] at hcm ⊢
          simp only [List.map_cons, List.map_nil, List.flatten_cons, List.flatten_nil,
            List.append_nil, List.length_append] at hcm ⊢
          rw [List.range'_1_concat, List.foldl_append, ihm (by omega) (by omega)]
          simp only [List.foldl_cons, List.foldl_nil]
          generalize hF : ((List.range m).map fun k =>
            blocksFrom (pre ++ [(swap s 0 k).headD 0]) d (swap s 0 k).tail).flatten = F at hcm ⊢
          generalize hG : blocksFrom (pre ++ [(swap s 0 m).headD 0]) d (swap s 0 m).tail = G
            at hcm ⊢
          have hsw : swap (pre ++ s) i (i + m) =
              (pre ++ [(swap s 0 m).headD 0]) ++ (swap s 0 m).tail := by
            rw [← hpre, swap_append, List.append_assoc]
            congr 1
            exact swap_zero_cons s m hms
          have htl : (swap s 0 m).tail.length = d := by
            have := (swap_zero_perm s m hms).length_eq
            simp [this, hs]
          have hstep := ih (i + 1) n (pre ++ [(swap s 0 m).headD 0]) (swap s 0 m).tail
            (c.take pc ++ F ++ c.drop (pc + F.length)) (pc + F.length)
            (by simp [hpre]) htl (by omega) (by omega)
            (by rw [hG, splice_length c F pc (by omega)]; omega)
          rw [hG] at hstep
          simp only [hsw, hstep]
          have hback : swap (pre ++ [(swap s 0 m).headD 0] ++ (swap s 0 m).tail) i (i + m)
              = pre ++ s := by
            rw [List.append_assoc, List.singleton_append, ← swap_zero_cons s m hms, ← hpre,
              swap_append, swap_zero_swap s m hms]
          rw [hback, splice_splice c F G pc (by omega)]
          simp [Nat.add_assoc]
      exact key (d + 1) (le_refl _) hc

theorem permuto_eq (p : Nat) (hp : 1 ≤ p) :
    permuto p = blocksFrom [] p (List.range p) := by
  have hlen : ∀ t ∈ (arrangements p (List.range p)).map fun t => ([] ++ t).reverse,
      t.length = p := by
    intro t ht
    simp only [List.mem_map] at ht
    obtain ⟨u, hu, rfl⟩ := ht
    simpa using arrangements_length_mem p (List.range p) (by simp) u hu
  have hbl : (blocksFrom [] p (List.range p)).length = p.factorial * p := by
    unfold blocksFrom
    rw [← List.flatMap_id, length_flatMap_const _ _ p (by simpa using hlen)]
    simp [arrangements_length p _ hp]
  have h := permuteAux_eq p 0 (p - 1) [] (List.range p)
    (List.replicate (fact p * p) 0) 0 rfl (by simp) (by omega) hp
    (by rw [hbl, fact_eq]; simp)
  unfold permuto permute
  have e : p - 1 + 1 - 0 = p := by omega
  simp only [e, if_neg (show p ≠ 0 by omega)]
  simp only [List.nil_append] at h
  rw [h, hbl, fact_eq]
  simp

/-! ### Every arrangement is visited exactly once -/

theorem arrangements_perm (d : Nat) (s : List Nat) (hs : s.length = d) :
    ∀ t ∈ arrangements d s, t.Perm s := by
  induction d generalizing s with
  | zero => simp [arrangements]
  | succ d ih =>
    intro t ht
    rw [arrangements] at ht
    split at ht
    · simp at ht; subst ht; exact List.Perm.refl _
    · simp only [List.mem_flatMap, List.mem_range, List.mem_map] at ht
      obtain ⟨k, hk, t2, ht2, rfl⟩ := ht
      have hks : k < s.length := by omega
      have hp := swap_zero_perm s k hks
      have hl : (swap s 0 k).tail.length = d := by simp [hp.length_eq, hs]
      have h2 := ih _ hl t2 ht2
      have h3 : ((swap s 0 k).headD 0 :: t2).Perm (swap s 0 k) := by
        rw [swap_zero_cons s k hks]
        simpa using h2
      exact h3.trans hp

theorem arrangements_head (d : Nat) (s : List Nat) (k : Nat)
    (t : List Nat) (ht : t ∈ (arrangements d (swap s 0 k).tail).map
      fun t => (swap s 0 k).headD 0 :: t) (hk : k < s.length) :
    t.headD 0 = s.getD k 0 := by
  simp only [List.mem_map] at ht
  obtain ⟨u, _, rfl⟩ := ht
  have := swap_zero_head s k hk
  simpa using this

theorem arrangements_nodup (d : Nat) (s : List Nat) (hs : s.length = d) (hn : s.Nodup) :
    (arrangements d s).Nodup := by
  induction d generalizing s with
  | zero => simp [arrangements]
  | succ d ih =>
    rw [arrangements]
    split
    · simp
    · rw [List.nodup_flatMap]
      constructor
      · intro k hk
        have hks : k < s.length := by simp at hk; omega
        have hp := swap_zero_perm s k hks
        have hl : (swap s 0 k).tail.length = d := by simp [hp.length_eq, hs]
        have hn2 : (swap s 0 k).tail.Nodup :=
          ((hp.nodup_iff).2 hn).sublist (List.tail_sublist _)
        refine List.Nodup.map ?_ (ih _ hl hn2)
        intro x y hxy
        simpa using hxy
      · refine List.Pairwise.imp_of_mem ?_ (List.nodup_range (d + 1))
        intro k1 k2 hk1 hk2 hne
        have h1 : k1 < s.length := by simp at hk1; omega
        have h2 : k2 < s.length := by simp at hk2; omega
        simp only [Function.onFun]
        intro t ht1 ht2
        have e1 := arrangements_head d s k1 t ht1 h1
        have e2 := arrangements_head d s k2 t ht2 h2
        rw [e1] at e2
        simp only [List.getD_eq_getElem?_getD, List.getElem?_eq_getElem h1,
          List.getElem?_eq_getElem h2, Option.getD_some] at e2
        exact hne ((hn.getElem_inj_iff).1 e2)

theorem arrangements_complete (d : Nat) (s : List Nat) (hs : s.length = d) (hd : 1 ≤ d)
    (t : List Nat) (ht : t.Perm s) : t ∈ arrangements d s := by
  induction d generalizing s t with
  | zero => omega
  | succ d ih =>
    rw [arrangements]
    split
    · rename_i h0
      subst h0
      obtain ⟨x, rfl⟩ := List.length_eq_one.1 hs
      rw [List.perm_singleton.1 ht]
      simp
    · rename_i h0
      cases t with
      | nil =>
        have := ht.length_eq
        simp [hs] at this
      | cons y t2 =>
        have hy : y ∈ s := ht.subset (by simp)
        obtain ⟨k, hk, hky⟩ := List.mem_iff_getElem.1 hy
        have hp := swap_zero_perm s k hk
        have hhd : (swap s 0 k).headD 0 = y := by
          rw [swap_zero_head s k hk, ← hky]
          simp [List.getD_eq_getElem?_getD, List.getElem?_eq_getElem hk]
        have hl : (swap s 0 k).tail.length = d := by simp [hp.length_eq, hs]
        have hc := swap_zero_cons s k hk
        rw [hhd] at hc
        have h2 : t2.Perm (swap s 0 k).tail := by
          have : (y :: t2).Perm (y :: (swap s 0 k).tail) := by
            rw [← hc]; exact ht.trans hp.symm
          exact this.cons_inv
        simp only [List.mem_flatMap, List.mem_range, List.mem_map]
        refine ⟨k, by omega, t2, ih _ hl (by omega) t2 h2, ?_⟩
        rw [hhd]

/-! ### The blocks of a table -/

theorem drop_flatten_const (p : Nat) (L : List (List Nat)) (hL : ∀ t ∈ L, t.length = p)
    (b : Nat) : L.flatten.drop (b * p) = (L.drop b).flatten := by
  induction b generalizing L with
  | zero => simp
  | succ b ih =>
    cases L with
    | nil => simp
    | cons x L =>
      have hx : x.length = p := hL x (by simp)
      have e : (b + 1) * p = x.length + b * p := by rw [hx]; ring
      rw [List.flatten_cons, e, ← List.drop_drop, List.drop_left, List.drop_succ_cons]
      exact ih L (fun t ht => hL t (by simp [ht]))

theorem blocksOf_flatten (p : Nat) (hp : 0 < p) (L : List (List Nat))
    (hL : ∀ t ∈ L, t.length = p) : blocksOf p L.flatten = L := by
  have hlen : L.flatten.length = L.length * p := by
    rw [← List.flatMap_id, length_flatMap_const _ _ p (by simpa using hL)]
  apply List.ext_getElem
  · simp [blocksOf, hlen, Nat.mul_div_cancel _ hp]
  · intro b h1 h2
    simp only [blocksOf, List.getElem_map, List.getElem_range]
    rw [drop_flatten_const p L hL b]
    have hd : L.drop b = L[b] :: L.drop (b + 1) := List.drop_eq_getElem_cons h2
    rw [hd, List.flatten_cons]
    exact List.take_left' (hL _ (List.getElem_mem h2))

theorem blocksOf_permuto (p : Nat) (hp : 1 ≤ p) :
    blocksOf p (permuto p) = (arrangements p (List.range p)).map List.reverse := by
  rw [permuto_eq p hp]
  unfold blocksFrom
  simp only [List.nil_append]
  apply blocksOf_flatten p hp
  intro t ht
  simp only [List.mem_map] at ht
  obtain ⟨u, hu, rfl⟩ := ht
  simpa using arrangements_length_mem p (List.range p) (by simp) u hu

theorem permuto_length (p : Nat) (hp : 1 ≤ p) : (permuto p).length = p * p.factorial := by
  rw [permuto_eq p hp]
  unfold blocksFrom
  rw [← List.flatMap_id, length_flatMap_const _ _ p]
  · simp [arrangements_length p _ hp, Nat.mul_comm]
  · intro t ht
    simp only [List.mem_map] at ht
    obtain ⟨u, hu, rfl⟩ := ht
    simpa using arrangements_length_mem p (List.range p) (by simp) u hu

theorem mem_blocksOf_permuto (p : Nat) (hp : 1 ≤ p) (b : List Nat) :
    b ∈ blocksOf p (permuto p) ↔ b.Perm (List.range p) := by
  rw [blocksOf_permuto p hp]
  constructor
  · intro h
    simp only [List.mem_map] at h
    obtain ⟨u, hu, rfl⟩ := h
    exact (List.reverse_perm u).trans (arrangements_perm p _ (by simp) u hu)
  · intro h
    simp only [List.mem_map]
    exact ⟨b.reverse, arrangements_complete p _ (by simp) hp _
      ((List.reverse_perm b).trans h), by simp⟩

theorem nodup_blocksOf_permuto (p : Nat) (hp : 1 ≤ p) : (blocksOf p (permuto p)).Nodup := by
  rw [blocksOf_permuto p hp]
  exact List.Nodup.map List.reverse_injective
    (arrangements_nodup p _ (by simp) (List.nodup_range p))

/-! ## The selection loops -/

theorem IsCapMin.unique {S : Set ℚ} {x y : ℚ} (hx : IsCapMin S x) (hy : IsCapMin S y) :
    x = y := by
  obtain ⟨hx1, hx2, hx3⟩ := hx
  obtain ⟨hy1, hy2, hy3⟩ := hy
  apply le_antisymm
  · rcases hy3 with h | h
    · rw [h]; exact hx1
    · exact hx2 y h
  · rcases hx3 with h | h
    · rw [h]; exact hy1
    · exact hy2 x h

theorem foldl_min_spec (vals : List ℚ) (m0 : ℚ) :
    let x := vals.foldl (fun m r => if r < m then r else m) m0
    x ≤ m0 ∧ (∀ v ∈ vals, x ≤ v) ∧ (x = m0 ∨ x ∈ vals) := by
  induction vals generalizing m0 with
  | nil => simp
  | cons r vals ih =>
    simp only [List.foldl_cons]
    obtain ⟨h1, h2, h3⟩ := ih (if r < m0 then r else m0)
    have hle : (if r < m0 then r else m0) ≤ m0 := by split <;> [exact le_of_lt ‹_›; exact le_refl _]
    have hle2 : (if r < m0 then r else m0) ≤ r := by
      split
      · exact le_refl _
      · exact not_lt.1 ‹_›
    refine ⟨le_trans h1 hle, ?_, ?_⟩
    · intro v hv
      rcases List.mem_cons.1 hv with rfl | hv
      · exact le_trans h1 hle2
      · exact h2 v hv
    · rcases h3 with h | h
      · rw [h]
        split
        · right; simp
        · left; rfl
      · right; exact List.mem_cons_of_mem _ h

theorem capMin_isCapMin (vals : List ℚ) : IsCapMin {v | v ∈ vals} (capMin vals) := by
  have := foldl_min_spec vals 100
  exact this

theorem capMin_append_singleton (vals : List ℚ) (r : ℚ) :
    capMin (vals ++ [r]) = if r < capMin vals then r else capMin vals := by
  simp [capMin, List.foldl_append]

/-- The inner loop of both selectors, for a cell function of the counter and `j`. -/
theorem inner_fold (cell : Nat → Nat → ℚ) (s : SelState) (k : Nat) :
    (List.range (k + 1)).foldl
      (fun s j =>
        { s with
          counter := s.counter + 1
          res := if j = 0 then cell s.counter j else s.res + cell s.counter j })
      s
    = { counter := s.counter + (k + 1)
        res := ∑ j in Finset.range (k + 1), cell (s.counter + j) j
        minn := s.minn } := by
  induction k with
  | zero => simp [List.range_succ]
  | succ k ih =>
    rw [List.range_succ, List.foldl_append, ih]
    simp [Finset.sum_range_succ (fun j => cell (s.counter + j) j) (k + 1), Nat.add_assoc]

theorem outer_fold (cell : Nat → Nat → ℚ) (p : Nat) (hp : 1 ≤ p) (m : Nat) :
    ∃ r, (List.range m).foldl
      (fun (s : SelState) _ =>
        let s1 : SelState := (List.range p).foldl
          (fun (s : SelState) j =>
            { s with
              counter := s.counter + 1
              res := if j = 0 then cell s.counter j else s.res + cell s.counter j })
          s
        if s1.res < s1.minn then { s1 with minn := s1.res } else s1)
      { counter := 0, res := 0, minn := 100 }
    = { counter := m * p, res := r, minn := capMin ((List.range m).map (blockVal cell p)) } := by
  have hin : ∀ s : SelState, (List.range p).foldl
      (fun (s : SelState) j =>
        { s with
          counter := s.counter + 1
          res := if j = 0 then cell s.counter j else s.res + cell s.counter j })
      s
      = { counter := s.counter + p
          res := ∑ j in Finset.range p, cell (s.counter + j) j
          minn := s.minn } := by
    intro s
    obtain ⟨k, rfl⟩ : ∃ k, p = k + 1 := ⟨p - 1, by omega⟩
    exact inner_fold cell s k
  induction m with
  | zero => exact ⟨0, by simp [capMin]⟩
  | succ m ih =>
    obtain ⟨r, hr⟩ := ih
    refine ⟨blockVal cell p m, ?_⟩
    rw [List.range_succ, List.foldl_append, hr]
    simp only [List.foldl_cons, List.foldl_nil, hin, List.map_append, List.map_cons,
      List.map_nil, capMin_append_singleton]
    have e : m * p + p = (m + 1) * p := by ring
    simp only [blockVal, e]
    split <;> rfl

theorem outerIters_mul (m p : Nat) (hp : 1 ≤ p) : outerIters (m * p) p = m := by
  unfold outerIters
  have e : m * p + p - 1 = (p - 1) + m * p := by omega
  rw [e, Nat.add_mul_div_right _ _ (by omega), Nat.div_eq_of_lt (by omega)]
  simp

theorem getD_blocksOf (p : Nat) (T : List Nat) (b j : Nat) (hb : b < T.length / p)
    (hj : j < p) :
    ((blocksOf p T).getD b []).getD j 0 = T.getD (b * p + j) 0 := by
  have hb2 : b < (blocksOf p T).length := by simp [blocksOf, hb]
  simp only [List.getD_eq_getElem?_getD, List.getElem?_eq_getElem hb2, Option.getD_some]
  simp only [blocksOf, List.getElem_map, List.getElem_range]
  rw [List.getElem?_take_of_lt hj, List.getElem?_drop]

theorem blockVal_eq_blockCost (f : Nat → Nat → ℚ) (p : Nat) (T : List Nat) (b : Nat)
    (hb : b < T.length / p) :
    blockVal (fun c j => f (T.getD c 0) j) p b = blockCost f p ((blocksOf p T).getD b []) := by
  unfold blockVal blockCost
  apply Finset.sum_congr rfl
  intro j hj
  rw [getD_blocksOf p T b j hb (Finset.mem_range.1 hj)]

theorem map_blockVal_eq (f : Nat → Nat → ℚ) (p : Nat) (T : List Nat) :
    (List.range (T.length / p)).map (blockVal (fun c j => f (T.getD c 0) j) p)
      = (blocksOf p T).map (blockCost f p) := by
  apply List.ext_getElem
  · simp [blocksOf]
  · intro b h1 h2
    have hb : b < T.length / p := by simpa using h1
    have hb2 : b < (blocksOf p T).length := by simpa using h2
    simp only [List.getElem_map, List.getElem_range]
    rw [blockVal_eq_blockCost f p T b hb]
    simp [List.getD_eq_getElem?_getD, List.getElem?_eq_getElem hb2]

/-- The selection loop of `bruvo_dist` over a table of whole blocks. -/
theorem bruvo_select_eq (dist : Nat → Nat → ℚ) (p : Nat) (hp : 1 ≤ p) (T : List Nat) (m : Nat)
    (hT : T.length = m * p) :
    ((List.range (outerIters T.length p)).foldl
      (fun s _ => bruvoBlock dist p T s)
      { counter := 0, res := 0, minn := 100 }).minn
    = capMin ((blocksOf p T).map (blockCost dist p)) := by
  rw [hT, outerIters_mul m p hp]
  obtain ⟨r, hr⟩ := outer_fold (fun c j => dist (T.getD c 0) j) p hp m
  unfold bruvoBlock
  rw [hr]
  have hm : T.length / p = m := by rw [hT]; exact Nat.mul_div_cancel m (by omega)
  rw [← map_blockVal_eq dist p T, hm]

/-- The loop of `mindist` over a table of whole blocks. -/
theorem mindist_eq (distp : Nat → ℚ) (p : Nat) (hp : 1 ≤ p) (T : List Nat) (m : Nat)
    (hT : T.length = m * p) :
    mindist T.length p T distp
    = capMin ((blocksOf p T).map (blockCost (fun v j => distp (v + p * j)) p)) := by
  unfold mindist
  rw [hT, outerIters_mul m p hp]
  obtain ⟨r, hr⟩ := outer_fold (fun c j => distp (T.getD c 0 + p * j)) p hp m
  unfold mindistBlock
  rw [hr]
  have hm : T.length / p = m := by rw [hT]; exact Nat.mul_div_cancel m (by omega)
  rw [← map_blockVal_eq (fun v j => distp (v + p * j)) p T, hm]

/-! ## Blocks of the table and bijections of `[0, p)` -/

theorem perm_range_of_nodup (p : Nat) (b : List Nat) (hn : b.Nodup) (hlt : ∀ x ∈ b, x < p)
    (hl : b.length = p) : b.Perm (List.range p) := by
  have hsub : b ⊆ List.range p := fun x hx => List.mem_range.2 (hlt x hx)
  exact (List.subperm_of_subset hn hsub).perm_of_length_le (by simp [hl])

theorem exists_equiv_of_perm (p : Nat) (b : List Nat) (hb : b.Perm (List.range p)) :
    ∃ σ : Equiv.Perm (Fin p), ∀ k : Fin p, b.getD k 0 = (σ k : Nat) := by
  have hl : b.length = p := by simpa using hb.length_eq
  have hn : b.Nodup := (hb.nodup_iff).2 (List.nodup_range p)
  have hlt : ∀ k : Fin p, b.getD k 0 < p := by
    intro k
    have hk : (k : Nat) < b.length := by rw [hl]; exact k.2
    have : b.getD k 0 ∈ b := by
      simp only [List.getD_eq_getElem?_getD, List.getElem?_eq_getElem hk, Option.getD_some]
      exact List.getElem_mem hk
    exact List.mem_range.1 (hb.subset this)
  let g : Fin p → Fin p := fun k => ⟨b.getD k 0, hlt k⟩
  have hinj : Function.Injective g := by
    intro k1 k2 h
    have h1 : (k1 : Nat) < b.length := by rw [hl]; exact k1.2
    have h2 : (k2 : Nat) < b.length := by rw [hl]; exact k2.2
    have e : b.getD k1 0 = b.getD k2 0 := congrArg Fin.val h
    simp only [List.getD_eq_getElem?_getD, List.getElem?_eq_getElem h1,
      List.getElem?_eq_getElem h2, Option.getD_some] at e
    exact Fin.ext ((hn.getElem_inj_iff).1 e)
  refine ⟨Equiv.ofBijective g (Finite.injective_iff_bijective.1 hinj), ?_⟩
  intro k
  rfl

theorem ofFn_equiv_perm (p : Nat) (σ : Equiv.Perm (Fin p)) :
    (List.ofFn fun k : Fin p => (σ k : Nat)).Perm (List.range p) := by
  apply perm_range_of_nodup
  · rw [List.nodup_ofFn]
    intro a b h
    exact σ.injective (Fin.ext h)
  · intro x hx
    rw [List.mem_ofFn] at hx
    obtain ⟨k, rfl⟩ := hx
    exact (σ k).2
  · simp

theorem getD_ofFn_equiv (p : Nat) (σ : Equiv.Perm (Fin p)) (k : Fin p) :
    (List.ofFn fun k : Fin p => (σ k : Nat)).getD k 0 = (σ k : Nat) := by
  have hk : (k : Nat) < (List.ofFn fun k : Fin p => (σ k : Nat)).length := by simp
  simp [List.getD_eq_getElem?_getD, List.getElem?_eq_getElem hk]

theorem blockCost_eq_sum (f : Nat → Nat → ℚ) (p : Nat) (b : List Nat)
    (σ : Equiv.Perm (Fin p)) (h : ∀ k : Fin p, b.getD k 0 = (σ k : Nat)) :
    blockCost f p b = ∑ k : Fin p, f (σ k) k := by
  unfold blockCost
  rw [← Fin.sum_univ_eq_sum_range (fun j => f (b.getD j 0) j) p]
  apply Finset.sum_congr rfl
  intro k _
  rw [h k]

theorem blockCosts_permuto (f : Nat → Nat → ℚ) (p : Nat) (hp : 1 ≤ p) :
    {v | v ∈ (blocksOf p (permuto p)).map (blockCost f p)} = permCosts f p := by
  ext v
  simp only [Set.mem_setOf_eq, List.mem_map, permCosts, Set.mem_range]
  constructor
  · rintro ⟨b, hb, rfl⟩
    obtain ⟨σ, hσ⟩ := exists_equiv_of_perm p b ((mem_blocksOf_permuto p hp b).1 hb)
    exact ⟨σ, (blockCost_eq_sum f p b σ hσ).symm⟩
  · rintro ⟨σ, rfl⟩
    refine ⟨List.ofFn fun k : Fin p => (σ k : Nat),
      (mem_blocksOf_permuto p hp _).2 (ofFn_equiv_perm p σ), ?_⟩
    exact blockCost_eq_sum f p _ σ (getD_ofFn_equiv p σ)

theorem permCosts_congr (M N : Nat → Nat → ℚ) (p : Nat)
    (h : ∀ i j, i < p → j < p → M i j = N i j) : permCosts M p = permCosts N p := by
  have e : (fun σ : Equiv.Perm (Fin p) => ∑ k : Fin p, M (σ k) k)
      = fun σ : Equiv.Perm (Fin p) => ∑ k : Fin p, N (σ k) k := by
    funext σ
    apply Finset.sum_congr rfl
    intro k _
    exact h _ _ (σ k).2 k.2
  unfold permCosts
  rw [e]

theorem permCosts_transpose (M : Nat → Nat → ℚ) (p : Nat) :
    permCosts (fun i j => M j i) p = permCosts M p := by
  unfold permCosts
  ext v
  simp only [Set.mem_range]
  constructor
  · rintro ⟨σ, rfl⟩
    refine ⟨σ⁻¹, ?_⟩
    rw [← Equiv.sum_comp σ (fun k => M ((σ⁻¹ k : Fin p) : Nat) k)]
    simp
  · rintro ⟨σ, rfl⟩
    refine ⟨σ⁻¹, ?_⟩
    rw [← Equiv.sum_comp σ (fun k => M k ((σ⁻¹ k : Fin p) : Nat))]
    simp

theorem permuto_length_mul (p : Nat) (hp : 1 ≤ p) :
    (permuto p).length = p.factorial * p := by
  rw [permuto_length p hp, Nat.mul_comm]

/-- The selection loop of `bruvo_dist` on the generated table. -/
theorem bruvo_select_isCapMin (dist : Nat → Nat → ℚ) (p : Nat) (hp : 1 ≤ p) :
    IsCapMin (permCosts dist p)
      ((List.range (outerIters (permuto p).length p)).foldl
        (fun s _ => bruvoBlock dist p (permuto p) s)
        { counter := 0, res := 0, minn := 100 }).minn := by
  rw [bruvo_select_eq dist p hp (permuto p) p.factorial (permuto_length_mul p hp),
    ← blockCosts_permuto dist p hp]
  exact capMin_isCapMin _

theorem flatten_cell (M : Nat → Nat → ℚ) (p v j : Nat) (hv : v < p) :
    flatten M p (v + p * j) = M j v := by
  unfold flatten
  rw [Nat.add_mul_div_left _ _ (by omega), Nat.add_mul_mod_self_left, Nat.div_eq_of_lt hv,
    Nat.mod_eq_of_lt hv, Nat.zero_add]

/-- The function `mindist` on the generated table and a flattened matrix. -/
theorem mindist_isCapMin (M : Nat → Nat → ℚ) (p : Nat) (hp : 1 ≤ p) :
    IsCapMin (permCosts M p) (mindist (permuto p).length p (permuto p) (flatten M p)) := by
  rw [mindist_eq (flatten M p) p hp (permuto p) p.factorial (permuto_length_mul p hp)]
  have h := capMin_isCapMin
    ((blocksOf p (permuto p)).map (blockCost (fun v j => flatten M p (v + p * j)) p))
  rw [blockCosts_permuto _ p hp] at h
  rw [← permCosts_transpose M p]
  rw [permCosts_congr (fun i j => M j i) (fun v j => flatten M p (v + p * j)) p
    (fun i j hi _ => (flatten_cell M p i j hi).symm)]
  exact h

/-! ## Entries of the distance matrix -/

theorem da_eq (x y : Int) : da x y = 1 - 1 / (2 : ℚ) ^ (x - y).natAbs := by
  unfold da
  rw [zpow_neg, ← Int.natCast_natAbs, zpow_natCast, one_div]

theorem da_comm (x y : Int) : da x y = da y x := by
  unfold da
  rw [abs_sub_comm]

theorem da_self (x : Int) : da x x = 0 := by
  simp [da]

theorem da_nonneg (x y : Int) : 0 ≤ da x y := by
  rw [da_eq, sub_nonneg, div_le_one (by positivity)]
  exact one_le_pow₀ (by norm_num)

theorem da_lt_one (x y : Int) : da x y < 1 := by
  rw [da_eq]
  have : (0 : ℚ) < 1 / 2 ^ (x - y).natAbs := by positivity
  linarith

theorem da_eq_zero_iff (x y : Int) : da x y = 0 ↔ x = y := by
  constructor
  · intro h
    rw [da_eq, sub_eq_zero, eq_comm, div_eq_one_iff_eq (by positivity)] at h
    have h2 : (x - y).natAbs = 0 := by
      by_contra hne
      have : (1 : ℚ) < 2 ^ (x - y).natAbs := one_lt_pow₀ (by norm_num) hne
      linarith
    have := Int.natAbs_eq_zero.1 h2
    omega
  · rintro rfl
    exact da_self x

theorem da_lt_da (a b a' b' : Int) (h : |a - b| < |a' - b'|) : da a b < da a' b' := by
  rw [da_eq, da_eq]
  have h2 : (a - b).natAbs < (a' - b').natAbs := by
    rw [← Int.natCast_natAbs, ← Int.natCast_natAbs] at h
    exact_mod_cast h
  have h3 : (2 : ℚ) ^ (a - b).natAbs < 2 ^ (a' - b').natAbs :=
    pow_lt_pow_right₀ (by norm_num) h2
  have h4 : 1 / (2 : ℚ) ^ (a' - b').natAbs < 1 / 2 ^ (a - b).natAbs :=
    one_div_lt_one_div_of_lt (by positivity) h3
  linarith

/-! ## The construction loops -/

theorem fold_store_col (g : Nat → ℚ) (j : Nat) (d0 : Nat → Nat → ℚ) (k : Nat) :
    (List.range k).foldl (fun dist i => store2 dist i j (g i)) d0
      = fun i' j' => if i' < k ∧ j' = j then g i' else d0 i' j' := by
  induction k with
  | zero => simp
  | succ k ih =>
    rw [List.range_succ, List.foldl_append, ih]
    funext i' j'
    simp only [List.foldl_cons, List.foldl_nil, store2]
    by_cases h1 : i' = k
    · subst h1; by_cases h2 : j' = j <;> simp [h2]
    · have : (i' < k + 1) ↔ (i' < k) := by omega
      simp [h1, this]

theorem fold_store_row (g : Nat → ℚ) (i : Nat) (d0 : Nat → Nat → ℚ) (k : Nat) :
    (List.range k).foldl (fun dist j => store2 dist i j (g j)) d0
      = fun i' j' => if i' = i ∧ j' < k then g j' else d0 i' j' := by
  induction k with
  | zero => simp
  | succ k ih =>
    rw [List.range_succ, List.foldl_append, ih]
    funext i' j'
    simp only [List.foldl_cons, List.foldl_nil, store2]
    by_cases h1 : j' = k
    · subst h1; by_cases h2 : i' = i <;> simp [h2]
    · have : (j' < k + 1) ↔ (j' < k) := by omega
      simp [h1, this]

theorem buildDist_eq (genos : List Int) (p : Nat) :
    buildDist genos p = fun i j =>
      if i < p ∧ j < p then da (genos.getD i 0) (genos.getD (p + j) 0) else 0 := by
  unfold buildDist
  have key : ∀ k, (List.range k).foldl
      (fun dist j =>
        (List.range p).foldl
          (fun dist i =>
            store2 dist i j (da (genos.getD (0 * p + i) 0) (genos.getD (1 * p + j) 0)))
          dist)
      (fun _ _ => 0)
      = fun i j => if i < p ∧ j < k then da (genos.getD i 0) (genos.getD (p + j) 0) else 0 := by
    intro k
    induction k with
    | zero => simp
    | succ k ih =>
      rw [List.range_succ, List.foldl_append, ih]
      simp only [List.foldl_cons, List.foldl_nil]
      rw [fold_store_col]
      funext i j
      by_cases h1 : j = k
      · subst h1; simp
      · have : (j < k + 1) ↔ (j < k) := by omega
        simp [h1, this]
  exact key p

theorem permCosts_buildDist (A B : List Int) (p : Nat) (hA : A.length = p) :
    permCosts (buildDist (A ++ B) p) p = permCosts (costMatrix A B) p := by
  apply permCosts_congr
  intro i j hi hj
  rw [buildDist_eq]
  simp only [hi, hj, and_self, if_true, costMatrix]
  have hi2 : i < A.length := by omega
  simp [List.getD_eq_getElem?_getD, List.getElem?_append_left hi2,
    List.getElem?_append_right, hA]

/-! ## The fast path `bruvo_dist` -/

theorem no_zero_cell (A B : List Int) (p : Nat) (hA : A.length = p) (hB : B.length = p)
    (hA0 : ∀ x ∈ A, x ≠ 0) (hB0 : ∀ x ∈ B, x ≠ 0) :
    (List.range (2 * p)).any (fun counter => (A ++ B).getD counter 0 == 0) = false := by
  rw [Bool.eq_false_iff]
  intro h
  simp only [List.any_eq_true, List.mem_range, beq_iff_eq] at h
  obtain ⟨c, hc, h0⟩ := h
  have hc2 : c < (A ++ B).length := by simp [hA, hB]; omega
  simp only [List.getD_eq_getElem?_getD, List.getElem?_eq_getElem hc2, Option.getD_some] at h0
  have hm : (A ++ B)[c] ∈ A ++ B := List.getElem_mem hc2
  rw [h0] at hm
  rcases List.mem_append.1 hm with h | h
  · exact hA0 0 h rfl
  · exact hB0 0 h rfl

/-- The value of `bruvo_dist` on a fully observed pair: the running minimum over
the sums of all bijections, divided by `p`. -/
theorem bruvo_dist_eq (A B : List Int) (p : Nat) (hp : 1 ≤ p) (hA : A.length = p)
    (hB : B.length = p) (hA0 : ∀ x ∈ A, x ≠ 0) (hB0 : ∀ x ∈ B, x ≠ 0) :
    ∃ x, IsCapMin (permCosts (costMatrix A B) p) x ∧
      bruvo_dist (A ++ B) p (permuto p) (permuto p).length = x / p := by
  refine ⟨((List.range (outerIters (permuto p).length p)).foldl
      (fun s _ => bruvoBlock (buildDist (A ++ B) p) p (permuto p) s)
      { counter := 0, res := 0, minn := 100 }).minn, ?_, ?_⟩
  · rw [← permCosts_buildDist A B p hA]
    exact bruvo_select_isCapMin (buildDist (A ++ B) p) p hp
  · unfold bruvo_dist
    simp only [no_zero_cell A B p hA hB hA0 hB0]
    rfl

theorem permCosts_swap (A B : List Int) (p : Nat) :
    permCosts (costMatrix B A) p = permCosts (costMatrix A B) p := by
  rw [← permCosts_transpose (costMatrix A B) p]
  apply permCosts_congr
  intro i j _ _
  simp [costMatrix, da_comm]

theorem permCosts_nonneg (A B : List Int) (p : Nat) : ∀ v ∈ permCosts (costMatrix A B) p, 0 ≤ v := by
  rintro v ⟨σ, rfl⟩
  exact Finset.sum_nonneg fun k _ => da_nonneg _ _

theorem permCosts_lt (A B : List Int) (p : Nat) (hp : 1 ≤ p) :
    ∀ v ∈ permCosts (costMatrix A B) p, v < p := by
  rintro v ⟨σ, rfl⟩
  have hne : (Finset.univ : Finset (Fin p)).Nonempty := ⟨⟨0, by omega⟩, Finset.mem_univ _⟩
  have h : ∑ k : Fin p, costMatrix A B (σ k) k < ∑ _k : Fin p, (1 : ℚ) :=
    Finset.sum_lt_sum_of_nonempty hne fun k _ => da_lt_one _ _
  simpa using h

theorem isCapMin_inf (p : Nat) (F : Equiv.Perm (Fin p) → ℚ) :
    IsCapMin (Set.range F) (min 100 (Finset.univ.inf' Finset.univ_nonempty F)) := by
  refine ⟨min_le_left _ _, ?_, ?_⟩
  · rintro v ⟨σ, rfl⟩
    exact le_trans (min_le_right _ _) (Finset.inf'_le F (Finset.mem_univ σ))
  · rcases le_total (100 : ℚ) (Finset.univ.inf' Finset.univ_nonempty F) with h | h
    · left; exact min_eq_left h
    · right
      rw [min_eq_right h]
      obtain ⟨σ, _, hσ⟩ := Finset.exists_mem_eq_inf' Finset.univ_nonempty F
      exact ⟨σ, hσ.symm⟩

/-! ## The scanning loop of the resolver -/

theorem zerosOf_succ (c : Nat → Int) (k : Nat) :
    zerosOf c (k + 1) = if c k = 0 then zerosOf c k ++ [k] else zerosOf c k := by
  unfold zerosOf
  rw [List.range_succ, List.filter_append]
  by_cases h : c k = 0 <;> simp [h]

theorem zerosOf_length_le (c : Nat → Int) (k : Nat) : (zerosOf c k).length ≤ k := by
  unfold zerosOf
  exact le_trans (List.length_filter_le _ _) (by simp)

theorem fullOf_succ (c : Nat → Int) (k : Nat) :
    fullOf c (k + 1) = if c k = 0 then fullOf c k else fullOf c k ++ [k] := by
  unfold fullOf
  rw [List.range_succ, List.filter_append]
  by_cases h : c k = 0 <;> simp [h]

theorem zerosOf_add_fullOf (c : Nat → Int) (k : Nat) :
    (zerosOf c k).length + (fullOf c k).length = k := by
  induction k with
  | zero => simp [zerosOf, fullOf]
  | succ k ih =>
    rw [zerosOf_succ, fullOf_succ]
    by_cases h : c k = 0
    · simp only [h, if_true, List.length_append, List.length_cons, List.length_nil]; omega
    · simp only [h, if_false, List.length_append, List.length_cons, List.length_nil]; omega

theorem getD_append_singleton (l : List Nat) (k r : Nat) :
    (l ++ [k]).getD r 0 = if r = l.length then k else l.getD r 0 := by
  by_cases h : r < l.length
  · rw [if_neg (by omega)]
    simp [List.getD_eq_getElem?_getD, List.getElem?_append_left h]
  · by_cases h2 : r = l.length
    · subst h2
      simp [List.getD_eq_getElem?_getD]
    · rw [if_neg h2, List.getD_eq_default _ _ (by simp; omega),
        List.getD_eq_default _ _ (by omega)]

/-- The first loop of `test_bruvo_dist` over the first `k` positions of genotype
`i`, started with `zerocatch[i] = 0` and room for the positions in `full_ind`:
the early return is taken at the `p`-th zero; otherwise the zero positions fill
`zero_ind[i]` from its first cell and the other positions fill the cells
`i*p + full_count, ...` of `full_ind`. -/
theorem scan_fold (c : Nat → Int) (p i k : Nat) (s : ScanState) (hk : k ≤ p)
    (hz : s.zerocatch i = 0) (hfc : s.full_count + k ≤ 2 * p) :
    (List.range k).foldl
      (fun st j =>
        st.bind fun s : ScanState =>
          if c j = 0 then
            if s.zerocatch i = p - 1 then none
            else some
              { s with
                zerocatch := fun x => if x = i then s.zerocatch i + 1 else s.zerocatch x
                cells := fun x =>
                  if x = 2 * p + i * p + (s.zerocatch i + 1 - 1) then j else s.cells x }
          else some
            { s with
              cells := fun x => if x = i * p + s.full_count then j else s.cells x
              full_count := s.full_count + 1 })
      (some s)
    = if (zerosOf c k).length = p ∧ 0 < p then none
      else some
        { zerocatch := fun x => if x = i then (zerosOf c k).length else s.zerocatch x
          full_count := s.full_count + (fullOf c k).length
          cells := fun x =>
            if 2 * p + i * p ≤ x ∧ x < 2 * p + i * p + (zerosOf c k).length then
              (zerosOf c k).getD (x - (2 * p + i * p)) 0
            else if i * p + s.full_count ≤ x
                ∧ x < i * p + s.full_count + (fullOf c k).length then
              (fullOf c k).getD (x - (i * p + s.full_count)) 0
            else s.cells x } := by
  induction k with
  | zero =>
    have : ¬ (0 = p ∧ 0 < p) := by omega
    simp only [zerosOf, fullOf, List.range_zero, List.filter_nil, List.length_nil, this,
      if_false, List.foldl_nil, Option.some.injEq]
    cases s with
    | mk zc fc cl =>
      simp only [ScanState.mk.injEq]
      refine ⟨?_, rfl, ?_⟩
      · funext x
        by_cases hx : x = i
        · subst hx; simpa using hz
        · simp [hx]
      · funext x
        have h1 : ¬ (2 * p + i * p ≤ x ∧ x < 2 * p + i * p + 0) := by omega
        have h2 : ¬ (i * p + fc ≤ x ∧ x < i * p + fc + 0) := by omega
        simp only [h1, h2, if_false]
  | succ k ih =>
    rw [List.range_succ, List.foldl_append, ih (by omega) (by omega)]
    have hle := zerosOf_length_le c k
    have hsum := zerosOf_add_fullOf c k
    have h1 : ¬ ((zerosOf c k).length = p ∧ 0 < p) := by omega
    rw [if_neg h1, zerosOf_succ, fullOf_succ]
    simp only [List.foldl_cons, List.foldl_nil, Option.some_bind]
    by_cases hc : c k = 0
    · simp only [hc, if_true, List.length_append, List.length_cons, List.length_nil]
      by_cases h2 : (zerosOf c k).length = p - 1
      · have h3 : (zerosOf c k).length + (0 + 1) = p ∧ 0 < p := by omega
        rw [if_pos h3, if_pos h2]
      · have h3 : ¬ ((zerosOf c k).length + (0 + 1) = p ∧ 0 < p) := by omega
        rw [if_neg h3, if_neg h2]
        simp only [Option.some.injEq, ScanState.mk.injEq]
        refine ⟨?_, trivial, ?_⟩
        · funext x
          by_cases hx : x = i
          · simp [hx]
          · simp [hx]
        · funext x
          rw [getD_append_singleton]
          by_cases hx : x = 2 * p + i * p + ((zerosOf c k).length + 1 - 1)
          · have hx1 : 2 * p + i * p ≤ x ∧ x < 2 * p + i * p + ((zerosOf c k).length + (0 + 1)) := by
              omega
            have hx2 : x - (2 * p + i * p) = (zerosOf c k).length := by omega
            rw [if_pos hx, if_pos hx1, if_pos hx2]
          · rw [if_neg hx]
            by_cases hx1 : 2 * p + i * p ≤ x ∧ x < 2 * p + i * p + (zerosOf c k).length
            · have hx3 : 2 * p + i * p ≤ x
                  ∧ x < 2 * p + i * p + ((zerosOf c k).length + (0 + 1)) := by omega
              have hx2 : ¬ x - (2 * p + i * p) = (zerosOf c k).length := by omega
              rw [if_pos hx1, if_pos hx3, if_neg hx2]
            · have hx3 : ¬ (2 * p + i * p ≤ x
                  ∧ x < 2 * p + i * p + ((zerosOf c k).length + (0 + 1))) := by omega
              rw [if_neg hx1, if_neg hx3]
    · simp only [hc, if_false, List.length_append, List.length_cons, List.length_nil]
      rw [if_neg h1]
      simp only [Option.some.injEq, ScanState.mk.injEq]
      refine ⟨trivial, by omega, ?_⟩
      funext x
      rw [getD_append_singleton]
      have hz1 : ¬ (2 * p + i * p ≤ i * p + (s.full_count + (fullOf c k).length)) := by omega
      by_cases hx : x = i * p + (s.full_count + (fullOf c k).length)
      · have hx1 : ¬ (2 * p + i * p ≤ x ∧ x < 2 * p + i * p + (zerosOf c k).length) := by omega
        have hx2 : i * p + s.full_count ≤ x
            ∧ x < i * p + s.full_count + ((fullOf c k).length + (0 + 1)) := by omega
        have hx3 : x - (i * p + s.full_count) = (fullOf c k).length := by omega
        rw [if_pos hx, if_neg hx1, if_pos hx2, if_pos hx3]
      · rw [if_neg hx]
        by_cases hx1 : 2 * p + i * p ≤ x ∧ x < 2 * p + i * p + (zerosOf c k).length
        · rw [if_pos hx1, if_pos hx1]
        · rw [if_neg hx1, if_neg hx1]
          by_cases hx2 : i * p + s.full_count ≤ x
              ∧ x < i * p + s.full_count + (fullOf c k).length
          · have hx4 : i * p + s.full_count ≤ x
                ∧ x < i * p + s.full_count + ((fullOf c k).length + (0 + 1)) := by omega
            have hx3 : ¬ x - (i * p + s.full_count) = (fullOf c k).length := by omega
            rw [if_pos hx2, if_pos hx4, if_neg hx3]
          · have hx4 : ¬ (i * p + s.full_count ≤ x
                ∧ x < i * p + s.full_count + ((fullOf c k).length + (0 + 1))) := by omega
            rw [if_neg hx2, if_neg hx4]

theorem scanGeno_eq (inp : List Int) (p i : Nat) (s : ScanState)
    (hz : s.zerocatch i = 0) (hfc : s.full_count ≤ p) :
    scanGeno inp p i s =
      if (zerosOf (fun j => inp.getD (i * p + j) 0) p).length = p ∧ 0 < p then none
      else some
        { zerocatch := fun x =>
            if x = i then (zerosOf (fun j => inp.getD (i * p + j) 0) p).length
            else s.zerocatch x
          full_count := s.full_count + (fullOf (fun j => inp.getD (i * p + j) 0) p).length
          cells := fun x =>
            if 2 * p + i * p ≤ x
                ∧ x < 2 * p + i * p + (zerosOf (fun j => inp.getD (i * p + j) 0) p).length then
              (zerosOf (fun j => inp.getD (i * p + j) 0) p).getD (x - (2 * p + i * p)) 0
            else if i * p + s.full_count ≤ x
                ∧ x < i * p + s.full_count
                  + (fullOf (fun j => inp.getD (i * p + j) 0) p).length then
              (fullOf (fun j => inp.getD (i * p + j) 0) p).getD (x - (i * p + s.full_count)) 0
            else s.cells x } :=
  scan_fold (fun j => inp.getD (i * p + j) 0) p i p s (le_refl p) hz (by omega)

theorem zerosOf_congr (c c' : Nat → Int) (k : Nat) (h : ∀ j < k, c j = c' j) :
    zerosOf c k = zerosOf c' k := by
  unfold zerosOf
  apply List.filter_congr
  intro j hj
  rw [h j (List.mem_range.1 hj)]

theorem zerosOf_left (A B : List Int) (p : Nat) (hA : A.length = p) :
    zerosOf (fun j => (A ++ B).getD (0 * p + j) 0) p = zeroIdx A := by
  unfold zeroIdx
  rw [hA]
  apply zerosOf_congr
  intro j hj
  have : j < A.length := by omega
  simp [List.getD_eq_getElem?_getD, List.getElem?_append_left this]

theorem zerosOf_right (A B : List Int) (p : Nat) (hA : A.length = p) (hB : B.length = p) :
    zerosOf (fun j => (A ++ B).getD (1 * p + j) 0) p = zeroIdx B := by
  unfold zeroIdx
  rw [hB]
  apply zerosOf_congr
  intro j _
  simp [List.getD_eq_getElem?_getD, List.getElem?_append_right, hA]

theorem map_getD_range (g : List Int) :
    (List.range g.length).map (fun j => g.getD j 0) = g := by
  apply List.ext_getElem
  · simp
  · intro n h1 h2
    simp [List.getD_eq_getElem?_getD, List.getElem?_eq_getElem h2]

theorem zeroIdx_length (g : List Int) : (zeroIdx g).length = g.count 0 := by
  unfold zeroIdx
  rw [← List.countP_eq_length_filter]
  conv_rhs => rw [← map_getD_range g]
  rw [List.count, List.countP_map]
  congr 1

theorem count_zero_eq_length_iff (g : List Int) :
    g.count 0 = g.length ↔ ∀ x ∈ g, x = 0 := by
  rw [List.count_eq_length]
  constructor
  · intro h x hx; exact (h x hx).symm
  · intro h x hx; exact (h x hx).symm

theorem count_zero_eq_zero_iff (g : List Int) :
    g.count 0 = 0 ↔ ∀ x ∈ g, x ≠ 0 := by
  rw [List.count_eq_zero]
  constructor
  · intro h x hx e; exact h (e ▸ hx)
  · intro h h0; exact h 0 h0 rfl

theorem zeroIdx_head (g : List Int) (h : 0 < g.count 0) :
    (zeroIdx g).getD 0 0 < g.length ∧ g.getD ((zeroIdx g).getD 0 0) 0 = 0 := by
  have hl : 0 < (zeroIdx g).length := by rw [zeroIdx_length]; exact h
  have hm : (zeroIdx g).getD 0 0 ∈ zeroIdx g := by
    simp only [List.getD_eq_getElem?_getD, List.getElem?_eq_getElem hl, Option.getD_some]
    exact List.getElem_mem hl
  generalize (zeroIdx g).getD 0 0 = x at hm ⊢
  unfold zeroIdx at hm
  rw [List.mem_filter, List.mem_range] at hm
  exact ⟨hm.1, by simpa using hm.2⟩

theorem fullOf_left (A B : List Int) (p : Nat) (hA : A.length = p) :
    (fullOf (fun j => (A ++ B).getD (0 * p + j) 0) p).length = p - A.count 0 := by
  have h := zerosOf_add_fullOf (fun j => (A ++ B).getD (0 * p + j) 0) p
  rw [zerosOf_left A B p hA, zeroIdx_length] at h
  omega

theorem fullOf_all (c : Nat → Int) (k : Nat) (h : ∀ j, j < k → c j ≠ 0) :
    fullOf c k = List.range k := by
  unfold fullOf
  exact List.filter_eq_self.2 (fun j hj => by simpa using h j (List.mem_range.1 hj))

theorem fullOf_right_all (A B : List Int) (p : Nat) (hA : A.length = p) (hB : B.length = p)
    (hB0 : B.count 0 = 0) :
    fullOf (fun j => (A ++ B).getD (1 * p + j) 0) p = List.range p := by
  apply fullOf_all
  intro j hj
  have hmem : B.getD j 0 ∈ B := by
    have hj2 : j < B.length := by omega
    simp only [List.getD_eq_getElem?_getD, List.getElem?_eq_getElem hj2, Option.getD_some]
    exact List.getElem_mem hj2
  have hne := (count_zero_eq_zero_iff B).1 hB0 _ hmem
  simpa [List.getD_eq_getElem?_getD, List.getElem?_append_right, hA] using hne

theorem getD_range (p z : Nat) (hz : z < p) : (List.range p).getD z 0 = z := by
  simp [List.getD_eq_getElem?_getD, List.getElem?_range hz]

/-- A genotype entirely zero, scanned first: the early return is taken. -/
theorem scan_total_left (A B : List Int) (p : Nat) (hp : 0 < p) (hA : A.length = p)
    (hA0 : A.count 0 = p) : scanGeno (A ++ B) p 0 scanInit = none := by
  rw [scanGeno_eq _ _ _ _ rfl (Nat.zero_le p), zerosOf_left A B p hA, zeroIdx_length,
    if_pos ⟨hA0, hp⟩]

/-- The memory after the scan of genotype 0 of the pair `A ++ B`. -/
theorem scan_first (A B : List Int) (p : Nat) (hA : A.length = p) (hA0 : A.count 0 < p) :
    ∃ s0, scanGeno (A ++ B) p 0 scanInit = some s0 ∧
      s0.zerocatch 0 = A.count 0 ∧ s0.zerocatch 1 = 0 ∧ s0.full_count = p - A.count 0 ∧
      (∀ z, z < A.count 0 → s0.cells (2 * p + 0 * p + z) = (zeroIdx A).getD z 0) := by
  have hF := fullOf_left A B p hA
  have e0 := scanGeno_eq (A ++ B) p 0 scanInit rfl (Nat.zero_le p)
  rw [zerosOf_left A B p hA, zeroIdx_length, if_neg (by omega)] at e0
  refine ⟨_, e0, by simp, by simp [scanInit], ?_, ?_⟩
  · show scanInit.full_count + _ = _
    rw [hF]
    simp [scanInit]
  · intro z hz
    have h3 : 2 * p + 0 * p ≤ 2 * p + 0 * p + z
        ∧ 2 * p + 0 * p + z < 2 * p + 0 * p + A.count 0 := by omega
    simp only [h3, and_self, if_true]
    congr 1
    omega

/-- Genotype 1 entirely zero: the early return is taken in its scan. -/
theorem scan_total_right (A B : List Int) (p : Nat) (hp : 0 < p) (hA : A.length = p)
    (hB : B.length = p) (hA0 : A.count 0 < p) (hB0 : B.count 0 = p) :
    ∃ s0, scanGeno (A ++ B) p 0 scanInit = some s0 ∧ scanGeno (A ++ B) p 1 s0 = none := by
  obtain ⟨s0, h0, _, hz1, hfc, _⟩ := scan_first A B p hA hA0
  refine ⟨s0, h0, ?_⟩
  rw [scanGeno_eq _ _ _ _ hz1 (by omega), zerosOf_right A B p hA hB, zeroIdx_length,
    if_pos ⟨hB0, hp⟩]

/-- The memory left by the first loop on the pair `A ++ B` when neither genotype
is entirely zero: the two zero counts, the row `zero_ind[1]`, and, when
genotype 1 is fully observed, the row `zero_ind[0]`, whose first `p - z0` cells
were overwritten through `full_ind` with the positions `z0, z0 + 1, ...`. -/
theorem scan_pair (A B : List Int) (p : Nat) (hA : A.length = p) (hB : B.length = p)
    (hA0 : A.count 0 < p) (hB0 : B.count 0 < p) :
    ∃ s0 s, scanGeno (A ++ B) p 0 scanInit = some s0 ∧ scanGeno (A ++ B) p 1 s0 = some s ∧
      s.zerocatch 0 = A.count 0 ∧ s.zerocatch 1 = B.count 0 ∧
      (∀ z, z < B.count 0 → s.cells (2 * p + 1 * p + z) = (zeroIdx B).getD z 0) ∧
      (B.count 0 = 0 → ∀ z, z < A.count 0 →
        s.cells (2 * p + 0 * p + z)
          = if z + A.count 0 < p then z + A.count 0 else (zeroIdx A).getD z 0) := by
  obtain ⟨s0, h0, hz0, hz1, hfc, hc0⟩ := scan_first A B p hA hA0
  have e1 := scanGeno_eq (A ++ B) p 1 s0 hz1 (by omega)
  rw [zerosOf_right A B p hA hB, zeroIdx_length, if_neg (by omega)] at e1
  refine ⟨s0, _, h0, e1, ?_, ?_, ?_, ?_⟩
  · simpa using hz0
  · simp
  · intro z hz
    have h1 : 2 * p + 1 * p ≤ 2 * p + 1 * p + z
        ∧ 2 * p + 1 * p + z < 2 * p + 1 * p + B.count 0 := by omega
    simp only [h1, and_self, if_true]
    congr 1
    omega
  · intro hBz z hz
    have hFB := fullOf_right_all A B p hA hB hBz
    simp only [hFB, hBz, hfc, List.length_range]
    have h1 : ¬ (2 * p + 1 * p ≤ 2 * p + 0 * p + z
        ∧ 2 * p + 0 * p + z < 2 * p + 1 * p + 0) := by omega
    rw [if_neg h1]
    by_cases hlt : z + A.count 0 < p
    · have h2 : 1 * p + (p - A.count 0) ≤ 2 * p + 0 * p + z
          ∧ 2 * p + 0 * p + z < 1 * p + (p - A.count 0) + p := by omega
      rw [if_pos h2, if_pos hlt, getD_range p _ (by omega)]
      omega
    · have h2 : ¬ (1 * p + (p - A.count 0) ≤ 2 * p + 0 * p + z
          ∧ 2 * p + 0 * p + z < 1 * p + (p - A.count 0) + p) := by omega
      rw [if_neg h2, if_neg hlt]
      exact hc0 z hz

/-! ## The rebuild loop of the both-sides branch -/

theorem removeZeros_fold (g : List Int) (n : Nat) (acc : List Int) :
    (g.foldl
      (fun (st : Nat × List Int) x =>
        if x = 0 ∧ st.1 > 0 then (st.1 - 1, st.2) else (st.1, st.2 ++ [x]))
      (n, acc)).2 = acc ++ removeZeros n g := by
  induction g generalizing n acc with
  | nil => simp [removeZeros]
  | cons x xs ih =>
    simp only [List.foldl_cons, removeZeros]
    by_cases h : x = 0 ∧ n > 0
    · rw [if_pos h, if_pos h, ih]
    · rw [if_neg h, if_neg h, ih]
      simp

theorem dropZeros_eq (genos : List Int) (p i zc : Nat) (acc : List Int) :
    dropZeros genos p i zc acc =
      acc ++ removeZeros zc ((List.range p).map fun j => genos.getD (i * p + j) 0) := by
  unfold dropZeros
  rw [← removeZeros_fold, List.foldl_map]

theorem geno_left (A B : List Int) (p : Nat) (hA : A.length = p) :
    ((List.range p).map fun j => (A ++ B).getD (0 * p + j) 0) = A := by
  conv_rhs => rw [← map_getD_range A]
  rw [hA]
  apply List.map_congr_left
  intro j hj
  have : j < A.length := by rw [hA]; exact List.mem_range.1 hj
  simp [List.getD_eq_getElem?_getD, List.getElem?_append_left this]

theorem geno_right (A B : List Int) (p : Nat) (hA : A.length = p) (hB : B.length = p) :
    ((List.range p).map fun j => (A ++ B).getD (1 * p + j) 0) = B := by
  conv_rhs => rw [← map_getD_range B]
  rw [hB]
  apply List.map_congr_left
  intro j _
  simp [List.getD_eq_getElem?_getD, List.getElem?_append_right, hA]

theorem removeZeros_length (n : Nat) (g : List Int) (h : n ≤ g.count 0) :
    (removeZeros n g).length = g.length - n := by
  induction g generalizing n with
  | nil => simp [removeZeros]
  | cons x xs ih =>
    rw [removeZeros]
    by_cases hx : x = 0
    · subst hx
      rw [List.count_cons_self] at h
      by_cases hn : n > 0
      · rw [if_pos ⟨rfl, hn⟩, ih (n - 1) (by omega)]
        simp; omega
      · have hn0 : n = 0 := by omega
        subst hn0
        rw [if_neg (by omega)]
        simp [ih 0 (by omega)]
    · have hc : List.count 0 (x :: xs) = List.count 0 xs :=
        List.count_cons_of_ne (fun e => hx e.symm) xs
      rw [hc] at h
      have hle : n ≤ xs.length := le_trans h (List.count_le_length 0 xs)
      rw [if_neg (fun hh => hx hh.1)]
      simp [ih n h]; omega

theorem removeZeros_count (n : Nat) (g : List Int) :
    (removeZeros n g).count 0 = g.count 0 - n := by
  induction g generalizing n with
  | nil => simp [removeZeros]
  | cons x xs ih =>
    rw [removeZeros]
    by_cases hx : x = 0
    · subst hx
      by_cases hn : n > 0
      · rw [if_pos ⟨rfl, hn⟩, ih (n - 1), List.count_cons_self]
        omega
      · have hn0 : n = 0 := by omega
        subst hn0
        rw [if_neg (by omega), List.count_cons_self, List.count_cons_self, ih 0]
        omega
    · have hne : (0 : Int) ≠ x := fun e => hx e.symm
      rw [if_neg (fun hh => hx hh.1), List.count_cons_of_ne hne, List.count_cons_of_ne hne, ih n]

theorem removeZeros_mem (n : Nat) (g : List Int) (x : Int) (hx : x ∈ g) (h0 : x ≠ 0) :
    x ∈ removeZeros n g := by
  induction g generalizing n with
  | nil => simp at hx
  | cons y ys ih =>
    rw [removeZeros]
    rcases List.mem_cons.1 hx with rfl | hx
    · rw [if_neg (fun hh => h0 hh.1)]
      simp
    · split
      · exact ih (n - 1) hx
      · exact List.mem_cons_of_mem _ (ih n hx)

theorem removeZeros_all (g : List Int) (n : Nat) (h : g.count 0 ≤ n) :
    removeZeros n g = g.filter fun x => x ≠ 0 := by
  induction g generalizing n with
  | nil => simp [removeZeros]
  | cons x xs ih =>
    rw [removeZeros]
    by_cases hx : x = 0
    · subst hx
      rw [List.count_cons_self] at h
      rw [if_pos ⟨rfl, by omega⟩, ih (n - 1) (by omega)]
      simp
    · have hne : (0 : Int) ≠ x := fun e => hx e.symm
      rw [List.count_cons_of_ne hne] at h
      rw [if_neg (fun hh => hx hh.1), ih n h]
      simp [hx]

/-! ## The branches of the resolver -/

/-- Total-missing: the scan returns at the last zero of a genotype of zeros. -/
theorem tbd_total (fuel : Nat) (A B : List Int) (p : Nat) (hp : 1 ≤ p) (hA : A.length = p)
    (hB : B.length = p) (h : (∀ x ∈ A, x = 0) ∨ (∀ x ∈ B, x = 0))
    (perm : List Nat) (w : Nat) (loss add : Int) :
    test_bruvo_dist_fuel (fuel + 1) (A ++ B) p perm w loss add = some 100 := by
  rw [test_bruvo_dist_fuel]
  by_cases hA0 : A.count 0 = p
  · rw [scan_total_left A B p hp hA hA0]
  · have hB0 : B.count 0 = p := by
      rcases h with h | h
      · exact absurd (hA ▸ (count_zero_eq_length_iff A).2 h) hA0
      · exact hB ▸ (count_zero_eq_length_iff B).2 h
    have hle : A.count 0 ≤ A.length := List.count_le_length 0 A
    obtain ⟨s0, h0, h1⟩ := scan_total_right A B p hp hA hB (by omega) hB0
    rw [h0]
    simp only []
    rw [h1]

/-- Both-sides-missing: one recursive call on the pair with the first
`min z0 z1` zeros of each genotype removed, at ploidy `p - min z0 z1`. -/
theorem tbd_both (fuel : Nat) (A B : List Int) (p : Nat) (hA : A.length = p)
    (hB : B.length = p) (hA0 : A.count 0 < p) (hB0 : B.count 0 < p)
    (hA1 : 0 < A.count 0) (hB1 : 0 < B.count 0)
    (perm : List Nat) (w : Nat) (loss add : Int) :
    test_bruvo_dist_fuel (fuel + 1) (A ++ B) p perm w loss add =
      test_bruvo_dist_fuel fuel
        (removeZeros (min (A.count 0) (B.count 0)) A ++
          removeZeros (min (A.count 0) (B.count 0)) B)
        (p - min (A.count 0) (B.count 0))
        (permuto (p - min (A.count 0) (B.count 0)))
        (fact (p - min (A.count 0) (B.count 0)) * (p - min (A.count 0) (B.count 0)))
        loss add := by
  obtain ⟨s0, s, h0, h1, hz0, hz1, _, _⟩ := scan_pair A B p hA hB hA0 hB0
  rw [test_bruvo_dist_fuel, h0]
  simp only []
  rw [h1]
  simp only [hz0, hz1]
  rw [if_pos ⟨hA1, hB1⟩]
  rw [dropZeros_eq, dropZeros_eq, geno_left A B p hA, geno_right A B p hA hB]
  rcases Nat.lt_trichotomy (A.count 0) (B.count 0) with hlt | heq | hgt
  · have hd : ((A.count 0 : Int) - (B.count 0 : Int)).natAbs = B.count 0 - A.count 0 := by omega
    have hd0 : B.count 0 - A.count 0 ≠ 0 := by omega
    have hm : min (A.count 0) (B.count 0) = A.count 0 := by omega
    have hr : p - (B.count 0 - (B.count 0 - A.count 0)) = p - A.count 0 := by omega
    simp only [hd, hd0, if_false, hlt, if_true, one_ne_zero, hm, hr, List.nil_append, hz0, hz1]
  · rw [heq]
    simp [hz0, hz1, heq]
  · have hd : ((A.count 0 : Int) - (B.count 0 : Int)).natAbs = A.count 0 - B.count 0 := by omega
    have hd0 : A.count 0 - B.count 0 ≠ 0 := by omega
    have hnlt : ¬ A.count 0 < B.count 0 := by omega
    have hm : min (A.count 0) (B.count 0) = B.count 0 := by omega
    have hr : p - (A.count 0 - (A.count 0 - B.count 0)) = p - B.count 0 := by omega
    simp only [hd, hd0, if_false, hnlt, if_true, one_ne_zero, hm, hr, List.nil_append, hz0, hz1]

/-- No-missing: `mindist` on the matrix of the pair, divided by `p`. -/
theorem tbd_none (fuel : Nat) (A B : List Int) (p : Nat) (hp : 1 ≤ p) (hA : A.length = p)
    (hB : B.length = p) (hA0 : A.count 0 = 0) (hB0 : B.count 0 = 0)
    (perm : List Nat) (w : Nat) (loss add : Int) :
    test_bruvo_dist_fuel (fuel + 1) (A ++ B) p perm w loss add =
      some (mindist w p perm (flatten (buildDist (A ++ B) p) p) / p) := by
  obtain ⟨s0, s, h0, h1, hz0, hz1, _, _⟩ := scan_pair A B p hA hB (by omega) (by omega)
  rw [test_bruvo_dist_fuel, h0]
  simp only []
  rw [h1]
  simp only [hz0, hz1, hA0, hB0]
  simp

/-! ## Row and column overwrites -/

theorem rowOnes_eq (M : Nat → Nat → ℚ) (p ind : Nat) :
    rowOnes M p ind = fun i j => if i = ind ∧ j < p then 1 else M i j :=
  fold_store_row (fun _ => 1) ind M p

theorem colOnes_eq (M : Nat → Nat → ℚ) (p ind : Nat) :
    colOnes M p ind = fun i j => if i < p ∧ j = ind then 1 else M i j :=
  fold_store_col (fun _ => 1) ind M p

theorem rowCopy_eq (M : Nat → Nat → ℚ) (p ind i : Nat) (hne : i ≠ ind) :
    rowCopy M p ind i = fun i' j' => if i' = ind ∧ j' < p then M i j' else M i' j' := by
  unfold rowCopy
  have key : ∀ k, (List.range k).foldl (fun dist j => store2 dist ind j (dist i j)) M
      = fun i' j' => if i' = ind ∧ j' < k then M i j' else M i' j' := by
    intro k
    induction k with
    | zero => simp
    | succ k ih =>
      rw [List.range_succ, List.foldl_append, ih]
      funext i' j'
      simp only [List.foldl_cons, List.foldl_nil, store2, hne, false_and, if_false]
      by_cases h1 : j' = k
      · subst h1; by_cases h2 : i' = ind <;> simp [h2]
      · have : (j' < k + 1) ↔ (j' < k) := by omega
        simp [h1, this]
  exact key p

theorem colCopy_eq (M : Nat → Nat → ℚ) (p ind i : Nat) (hne : i ≠ ind) :
    colCopy M p ind i = fun i' j' => if i' < p ∧ j' = ind then M i' i else M i' j' := by
  unfold colCopy
  have key : ∀ k, (List.range k).foldl (fun dist j => store2 dist j ind (dist j i)) M
      = fun i' j' => if i' < k ∧ j' = ind then M i' i else M i' j' := by
    intro k
    induction k with
    | zero => simp
    | succ k ih =>
      rw [List.range_succ, List.foldl_append, ih]
      funext i' j'
      simp only [List.foldl_cons, List.foldl_nil, store2, hne, and_false, if_false]
      by_cases h1 : i' = k
      · subst h1; by_cases h2 : j' = ind <;> simp [h2]
      · have : (i' < k + 1) ↔ (i' < k) := by omega
        simp [h1, this]
  exact key p

theorem bounded_buildDist (genos : List Int) (p : Nat) : Bounded (buildDist genos p) p := by
  intro i j hi hj
  rw [buildDist_eq]
  simp only [hi, hj, and_self, if_true]
  exact ⟨da_nonneg _ _, le_of_lt (da_lt_one _ _)⟩

theorem bounded_rowOnes (M : Nat → Nat → ℚ) (p ind : Nat) (h : Bounded M p) :
    Bounded (rowOnes M p ind) p := by
  intro i j hi hj
  rw [rowOnes_eq]
  by_cases hc : i = ind ∧ j < p
  · simp [hc]
  · simp only [hc, if_false]; exact h i j hi hj

theorem bounded_colOnes (M : Nat → Nat → ℚ) (p ind : Nat) (h : Bounded M p) :
    Bounded (colOnes M p ind) p := by
  intro i j hi hj
  rw [colOnes_eq]
  by_cases hc : i < p ∧ j = ind
  · simp [hc]
  · simp only [hc, if_false]; exact h i j hi hj

theorem bounded_rowCopy (M : Nat → Nat → ℚ) (p ind i : Nat) (hne : i ≠ ind) (hi : i < p)
    (h : Bounded M p) : Bounded (rowCopy M p ind i) p := by
  intro i' j' hi' hj'
  rw [rowCopy_eq M p ind i hne]
  by_cases hc : i' = ind ∧ j' < p
  · simp only [hc, and_self, if_true]; exact h i j' hi hj'
  · simp only [hc, if_false]; exact h i' j' hi' hj'

theorem bounded_colCopy (M : Nat → Nat → ℚ) (p ind i : Nat) (hne : i ≠ ind) (hi : i < p)
    (h : Bounded M p) : Bounded (colCopy M p ind i) p := by
  intro i' j' hi' hj'
  rw [colCopy_eq M p ind i hne]
  by_cases hc : i' < p ∧ j' = ind
  · simp only [hc, and_self, if_true]; exact h i' i hi' hi
  · simp only [hc, if_false]; exact h i' j' hi' hj'

theorem bounded_infiniteModel (M : Nat → Nat → ℚ) (p z0 : Nat) (zeros : List Nat) (zc : Nat)
    (h : Bounded M p) : Bounded (infiniteModel M p z0 zeros zc) p := by
  unfold infiniteModel
  by_cases hz : z0 > 0
  · simp only [hz, if_true]
    induction zc with
    | zero => simpa using h
    | succ zc ih =>
      rw [List.range_succ, List.foldl_append]
      exact bounded_rowOnes _ _ _ ih
  · simp only [hz, if_false]
    induction zc with
    | zero => simpa using h
    | succ zc ih =>
      rw [List.range_succ, List.foldl_append]
      exact bounded_colOnes _ _ _ ih

/-- On a bounded matrix `mindist` lies between `0` and `p`. -/
theorem mindist_bounds (M : Nat → Nat → ℚ) (p : Nat) (hp : 1 ≤ p) (h : Bounded M p) :
    0 ≤ mindist (permuto p).length p (permuto p) (flatten M p) ∧
    mindist (permuto p).length p (permuto p) (flatten M p) ≤ p := by
  have hc := mindist_isCapMin M p hp
  have hcost : ∀ v ∈ permCosts M p, 0 ≤ v ∧ v ≤ p := by
    rintro v ⟨σ, rfl⟩
    constructor
    · exact Finset.sum_nonneg fun k _ => (h _ _ (σ k).2 k.2).1
    · have : ∑ k : Fin p, M (σ k) k ≤ ∑ _k : Fin p, (1 : ℚ) :=
        Finset.sum_le_sum fun k _ => (h _ _ (σ k).2 k.2).2
      simpa using this
  constructor
  · rcases hc.2.2 with h1 | h1
    · rw [h1]; norm_num
    · exact (hcost _ h1).1
  · exact le_trans (hc.2.1 _ ⟨1, rfl⟩) (hcost _ ⟨1, rfl⟩).2

/-! ## The one-side branch -/

theorem strayIdx_getD (A : List Int) (p z : Nat) (hz : z < A.count 0) :
    (strayIdx A p).getD z 0
      = if z + A.count 0 < p then z + A.count 0 else (zeroIdx A).getD z 0 := by
  unfold strayIdx
  simp [List.getD_eq_getElem?_getD, List.getElem?_range hz]

theorem strayIdx_head (A : List Int) (p : Nat) (h1 : 0 < A.count 0) (h2 : A.count 0 < p) :
    (strayIdx A p).getD 0 0 = A.count 0 := by
  rw [strayIdx_getD A p 0 h1, if_pos (by omega)]
  omega

/-- The infinite model reads only the first `zc` recorded indices. -/
theorem infiniteModel_congr (M : Nat → Nat → ℚ) (p z0 : Nat) (zeros zeros1 : List Nat)
    (zc : Nat) (h : ∀ z, z < zc → zeros.getD z 0 = zeros1.getD z 0) :
    infiniteModel M p z0 zeros zc = infiniteModel M p z0 zeros1 zc := by
  unfold infiniteModel
  apply List.foldl_ext
  intro dist z hz
  rw [h z (List.mem_range.1 hz)]

theorem getD_map_range (f : Nat → Nat) (p z : Nat) (hz : z < p) :
    ((List.range p).map f).getD z 0 = f z := by
  simp [List.getD_eq_getElem?_getD, List.getElem?_range hz]

/-- One side missing, infinite model: the rows or columns recorded in
`zero_ind[miss_ind]` are forced to `1`; with genotype 0 deficient the row
`zero_ind[0]` is the one left by the stray writes through `full_ind`. -/
theorem tbd_one_inf (fuel : Nat) (A B : List Int) (p : Nat) (hA : A.length = p)
    (hB : B.length = p) (hA0 : A.count 0 < p) (hB0 : B.count 0 < p)
    (hone : ¬ (0 < A.count 0 ∧ 0 < B.count 0)) (hsome : 0 < A.count 0 ∨ 0 < B.count 0)
    (perm : List Nat) (w : Nat) (loss add : Int) (hl : loss ≠ 1) (ha : add ≠ 1) :
    test_bruvo_dist_fuel (fuel + 1) (A ++ B) p perm w loss add =
      some (mindist w p perm
        (flatten (infiniteModel (buildDist (A ++ B) p) p (A.count 0)
          (if 0 < A.count 0 then strayIdx A p else zeroIdx B)
          (if 0 < A.count 0 then A.count 0 else B.count 0)) p) / p) := by
  obtain ⟨s0, s, h0, h1, hz0, hz1, hR, hL⟩ := scan_pair A B p hA hB hA0 hB0
  rw [test_bruvo_dist_fuel, h0]
  simp only []
  rw [h1]
  simp only [hz0, hz1]
  rw [if_neg hone, if_pos hsome, if_pos ⟨hl, ha⟩]
  by_cases h0 : 0 < A.count 0
  · simp only [h0, if_true, gt_iff_lt, hz0]
    rw [infiniteModel_congr (buildDist (A ++ B) p) p (A.count 0)
      ((List.range p).map fun z => s.cells (2 * p + 0 * p + z)) (strayIdx A p) (A.count 0)
      (fun z hz => by
        rw [getD_map_range _ p z (by omega), hL (by omega) z hz, strayIdx_getD A p z hz])]
  · simp only [h0, if_false, gt_iff_lt, hz1]
    rw [infiniteModel_congr (buildDist (A ++ B) p) p (A.count 0)
      ((List.range p).map fun z => s.cells (2 * p + 1 * p + z)) (zeroIdx B) (B.count 0)
      (fun z hz => by rw [getD_map_range _ p z (by omega), hR z hz])]

/-- One side missing, genome addition and/or genome loss: the index `ind` is
the first cell of `zero_ind[miss_ind]`. -/
theorem tbd_one_model (fuel : Nat) (A B : List Int) (p : Nat) (hA : A.length = p)
    (hB : B.length = p) (hA0 : A.count 0 < p) (hB0 : B.count 0 < p)
    (hone : ¬ (0 < A.count 0 ∧ 0 < B.count 0)) (hsome : 0 < A.count 0 ∨ 0 < B.count 0)
    (perm : List Nat) (w : Nat) (loss add : Int) (hm : ¬ (loss ≠ 1 ∧ add ≠ 1)) :
    test_bruvo_dist_fuel (fuel + 1) (A ++ B) p perm w loss add =
      (if loss = 1 then
          ((List.range p).foldl
            (fun st i =>
              st.bind fun gs : List Int × ℚ =>
                (test_bruvo_dist_fuel fuel
                  (gs.1.set ((if 0 < A.count 0 then 0 else 1) * p
                      + (if 0 < A.count 0 then strayIdx A p else zeroIdx B).getD 0 0)
                    (gs.1.getD ((if 0 < A.count 0 then 1 else 0) * p + i) 0))
                  p perm w loss add).map
                  fun r => (gs.1.set ((if 0 < A.count 0 then 0 else 1) * p
                      + (if 0 < A.count 0 then strayIdx A p else zeroIdx B).getD 0 0)
                    (gs.1.getD ((if 0 < A.count 0 then 1 else 0) * p + i) 0), gs.2 + r * p))
            (some (A ++ B, (0 : ℚ)))).map Prod.snd
        else some 0).map fun genome_loss_sum =>
        ((if add = 1 then
            genomeAdd (buildDist (A ++ B) p) w p perm (A.count 0)
              ((if 0 < A.count 0 then strayIdx A p else zeroIdx B).getD 0 0)
          else 0) / (((p : Int) - 1 : Int) : ℚ) + genome_loss_sum / (p : ℚ))
          / (((p : Int) * (loss + add) : Int) : ℚ) := by
  obtain ⟨s0, s, h0, h1, hz0, hz1, hR, hL⟩ := scan_pair A B p hA hB hA0 hB0
  rw [test_bruvo_dist_fuel, h0]
  simp only []
  rw [h1]
  simp only [hz0, hz1]
  rw [if_neg hone, if_pos hsome, if_neg hm]
  by_cases h0 : 0 < A.count 0
  · have hind : ((List.range p).map fun z => s.cells (2 * p + 0 * p + z)).getD 0 0
        = (strayIdx A p).getD 0 0 := by
      rw [getD_map_range _ p 0 (by omega), hL (by omega) 0 h0, strayIdx_getD A p 0 h0]
    simp only [h0, if_true, gt_iff_lt, hz0, hind]
  · have hB1 : 0 < B.count 0 := by omega
    have hind : ((List.range p).map fun z => s.cells (2 * p + 1 * p + z)).getD 0 0
        = (zeroIdx B).getD 0 0 := by
      rw [getD_map_range _ p 0 (by omega), hR 0 hB1]
    simp only [h0, if_false, gt_iff_lt, one_ne_zero, hz1, hind]

theorem fact_mul_eq_length (p : Nat) (hp : 1 ≤ p) : fact p * p = (permuto p).length := by
  rw [permuto_length_mul p hp, fact_eq]

/-- No-missing: the resolver agrees with the fast path. -/
theorem tbd_none_eq_bruvo (fuel : Nat) (A B : List Int) (p : Nat) (hp : 1 ≤ p)
    (hA : A.length = p) (hB : B.length = p)
    (hA0 : ∀ x ∈ A, x ≠ 0) (hB0 : ∀ x ∈ B, x ≠ 0) (loss add : Int) :
    test_bruvo_dist_fuel (fuel + 1) (A ++ B) p (permuto p) (permuto p).length loss add =
      some (bruvo_dist (A ++ B) p (permuto p) (permuto p).length) := by
  rw [tbd_none fuel A B p hp hA hB ((count_zero_eq_zero_iff A).2 hA0)
    ((count_zero_eq_zero_iff B).2 hB0)]
  obtain ⟨x, hx, he⟩ := bruvo_dist_eq A B p hp hA hB hA0 hB0
  have hm := mindist_isCapMin (buildDist (A ++ B) p) p hp
  rw [permCosts_buildDist A B p hA] at hm
  rw [he, hm.unique hx]

/-! ## Bounds for the imputation models -/

theorem genomeAdd_bounds (M : Nat → Nat → ℚ) (p : Nat) (hp : 1 ≤ p) (z0 ind : Nat)
    (hind : ind < p) (hM : Bounded M p) :
    0 ≤ genomeAdd M (permuto p).length p (permuto p) z0 ind ∧
    genomeAdd M (permuto p).length p (permuto p) z0 ind ≤ ((p : ℚ) - 1) * p := by
  unfold genomeAdd
  have key : ∀ k, k ≤ p →
      Bounded ((List.range k).foldl
        (fun (st : (Nat → Nat → ℚ) × ℚ) i =>
          if i = ind then st
          else
            let dist := if z0 > 0 then rowCopy st.1 p ind i else colCopy st.1 p ind i
            (dist, st.2 + mindist (permuto p).length p (permuto p) (flatten dist p)))
        (M, (0 : ℚ))).1 p ∧
      0 ≤ ((List.range k).foldl
        (fun (st : (Nat → Nat → ℚ) × ℚ) i =>
          if i = ind then st
          else
            let dist := if z0 > 0 then rowCopy st.1 p ind i else colCopy st.1 p ind i
            (dist, st.2 + mindist (permuto p).length p (permuto p) (flatten dist p)))
        (M, (0 : ℚ))).2 ∧
      ((List.range k).foldl
        (fun (st : (Nat → Nat → ℚ) × ℚ) i =>
          if i = ind then st
          else
            let dist := if z0 > 0 then rowCopy st.1 p ind i else colCopy st.1 p ind i
            (dist, st.2 + mindist (permuto p).length p (permuto p) (flatten dist p)))
        (M, (0 : ℚ))).2 ≤ ((if ind < k then k - 1 else k : Nat) : ℚ) * p := by
    intro k
    induction k with
    | zero => intro _; simp [hM]
    | succ k ih =>
      intro hk
      obtain ⟨h1, h2, h3⟩ := ih (by omega)
      rw [List.range_succ, List.foldl_append]
      simp only [List.foldl_cons, List.foldl_nil]
      generalize (List.range k).foldl
        (fun (st : (Nat → Nat → ℚ) × ℚ) i =>
          if i = ind then st
          else
            let dist := if z0 > 0 then rowCopy st.1 p ind i else colCopy st.1 p ind i
            (dist, st.2 + mindist (permuto p).length p (permuto p) (flatten dist p)))
        (M, (0 : ℚ)) = st at h1 h2 h3 ⊢
      by_cases hki : k = ind
      · rw [if_pos hki]
        refine ⟨h1, h2, ?_⟩
        have e1 : (if ind < k then k - 1 else k) = k := by rw [if_neg (by omega)]
        have e2 : (if ind < k + 1 then k + 1 - 1 else k + 1) = k := by
          rw [if_pos (by omega)]; omega
        rw [e2]; rw [e1] at h3; exact h3
      · rw [if_neg hki]
        have hb : Bounded (if z0 > 0 then rowCopy st.1 p ind k else colCopy st.1 p ind k) p := by
          split
          · exact bounded_rowCopy _ _ _ _ hki (by omega) h1
          · exact bounded_colCopy _ _ _ _ hki (by omega) h1
        have hmb := mindist_bounds _ p hp hb
        refine ⟨hb, by simp only []; linarith [hmb.1], ?_⟩
        have e2 : ((if ind < k + 1 then k + 1 - 1 else k + 1 : Nat) : ℚ)
            = ((if ind < k then k - 1 else k : Nat) : ℚ) + 1 := by
          by_cases hlt : ind < k
          · rw [if_pos hlt, if_pos (by omega)]
            have : k + 1 - 1 = (k - 1) + 1 := by omega
            rw [this]; push_cast; ring
          · rw [if_neg hlt, if_neg (by omega)]
            push_cast; ring
        rw [e2]
        simp only []
        linarith [hmb.2]
  obtain ⟨_, h2, h3⟩ := key p (le_refl p)
  refine ⟨h2, ?_⟩
  rw [if_pos hind] at h3
  have : ((p - 1 : Nat) : ℚ) = (p : ℚ) - 1 := by
    rw [Nat.cast_sub hp]; simp
  rw [this] at h3
  exact h3

/-- The loop of the genome loss model, for a resolver `F` on the re-filled pair. -/
theorem loss_fold (inp : List Int) (p c : Nat) (f : Nat → Nat) (hf : ∀ i, i < p → f i ≠ c)
    (F : List Int → Option ℚ) (r : Nat → ℚ)
    (hF : ∀ i, i < p → F (inp.set c (inp.getD (f i) 0)) = some (r i)) (k : Nat) (hk : k ≤ p) :
    ∃ g, g.set c 0 = inp.set c 0 ∧
      (List.range k).foldl
        (fun st i =>
          st.bind fun gs : List Int × ℚ =>
            (F (gs.1.set c (gs.1.getD (f i) 0))).map
              fun r => (gs.1.set c (gs.1.getD (f i) 0), gs.2 + r * p))
        (some (inp, (0 : ℚ)))
      = some (g, ∑ i in Finset.range k, r i * p) := by
  induction k with
  | zero => exact ⟨inp, rfl, by simp⟩
  | succ k ih =>
    obtain ⟨g, hg, hfold⟩ := ih (by omega)
    have hget : g.getD (f k) 0 = inp.getD (f k) 0 := by
      have h1 : (g.set c 0).getD (f k) 0 = (inp.set c 0).getD (f k) 0 := by rw [hg]
      have hne : c ≠ f k := fun e => hf k (by omega) e.symm
      simpa [List.getD_eq_getElem?_getD, List.getElem?_set_ne hne] using h1
    have hset : ∀ x, g.set c x = inp.set c x := by
      intro x
      have : (g.set c 0).set c x = (inp.set c 0).set c x := by rw [hg]
      simpa [List.set_set] using this
    refine ⟨inp.set c (inp.getD (f k) 0), by simp [List.set_set], ?_⟩
    rw [List.range_succ, List.foldl_append, hfold]
    simp only [List.foldl_cons, List.foldl_nil, Option.some_bind, hget, hset,
      hF k (by omega), Option.map_some', Finset.sum_range_succ]

theorem count_set_zero (g : List Int) (ind : Nat) (v : Int) (hind : ind < g.length)
    (h0 : g.getD ind 0 = 0) (hv : v ≠ 0) :
    (g.set ind v).count 0 + 1 = g.count 0 := by
  induction g generalizing ind with
  | nil => simp at hind
  | cons x xs ih =>
    cases ind with
    | zero =>
      have hx : x = 0 := by simpa using h0
      subst hx
      rw [List.set_cons_zero, List.count_cons_self, List.count_cons_of_ne (fun e => hv e.symm)]
    | succ n =>
      have hn : n < xs.length := by simpa using hind
      have h0' : xs.getD n 0 = 0 := by simpa using h0
      have := ih n hn h0'
      rw [List.set_cons_succ, List.count_cons, List.count_cons]
      omega

theorem loss_loop_some (inp : List Int) (p c : Nat) (f : Nat → Nat)
    (hf : ∀ i, i < p → f i ≠ c) (F : List Int → Option ℚ)
    (H : ∀ i, i < p → ∃ r, F (inp.set c (inp.getD (f i) 0)) = some r ∧ 0 ≤ r ∧ r ≤ 1) :
    ∃ L, ((List.range p).foldl
        (fun st i =>
          st.bind fun gs : List Int × ℚ =>
            (F (gs.1.set c (gs.1.getD (f i) 0))).map
              fun r => (gs.1.set c (gs.1.getD (f i) 0), gs.2 + r * p))
        (some (inp, (0 : ℚ)))).map Prod.snd = some L ∧ 0 ≤ L ∧ L ≤ (p : ℚ) * p := by
  have H' : ∀ i, ∃ r, i < p → F (inp.set c (inp.getD (f i) 0)) = some r ∧ 0 ≤ r ∧ r ≤ 1 := by
    intro i
    by_cases hi : i < p
    · obtain ⟨r, hr⟩ := H i hi
      exact ⟨r, fun _ => hr⟩
    · exact ⟨0, fun h => absurd h hi⟩
  choose r hr using H'
  obtain ⟨g, _, hfold⟩ := loss_fold inp p c f hf F r (fun i hi => (hr i hi).1) p (le_refl p)
  refine ⟨∑ i in Finset.range p, r i * p, by rw [hfold]; rfl, ?_, ?_⟩
  · apply Finset.sum_nonneg
    intro i hi
    exact mul_nonneg (hr i (Finset.mem_range.1 hi)).2.1 (Nat.cast_nonneg p)
  · have h1 : ∑ i in Finset.range p, r i * (p : ℚ) ≤ ∑ _i in Finset.range p, (p : ℚ) := by
      apply Finset.sum_le_sum
      intro i hi
      have := (hr i (Finset.mem_range.1 hi)).2.2
      have hp0 : (0 : ℚ) ≤ p := Nat.cast_nonneg p
      nlinarith
    simpa using h1

theorem model_value_bounds (p : Nat) (hp : 2 ≤ p) (G L : ℚ) (loss add : Int)
    (hG0 : 0 ≤ G) (hG1 : G ≤ ((p : ℚ) - 1) * p) (hL0 : 0 ≤ L) (hL1 : L ≤ (p : ℚ) * p)
    (hl : loss = 0 ∨ loss = 1) (ha : add = 0 ∨ add = 1) (hm : ¬ (loss ≠ 1 ∧ add ≠ 1))
    (hGa : add ≠ 1 → G = 0) (hLl : loss ≠ 1 → L = 0) :
    0 ≤ (G / (((p : Int) - 1 : Int) : ℚ) + L / (p : ℚ)) / (((p : Int) * (loss + add) : Int) : ℚ) ∧
    (G / (((p : Int) - 1 : Int) : ℚ) + L / (p : ℚ)) / (((p : Int) * (loss + add) : Int) : ℚ) ≤ 1 := by
  have hp2 : (2 : ℚ) ≤ p := by exact_mod_cast hp
  have hp1 : (0 : ℚ) < (p : ℚ) - 1 := by linarith
  have hp0 : (0 : ℚ) < p := by linarith
  have hG2 : G / ((p : ℚ) - 1) ≤ p := by rw [div_le_iff₀ hp1]; linarith
  have hL2 : L / (p : ℚ) ≤ p := by rw [div_le_iff₀ hp0]; exact hL1
  have hG3 : 0 ≤ G / ((p : ℚ) - 1) := div_nonneg hG0 (le_of_lt hp1)
  have hL3 : 0 ≤ L / (p : ℚ) := div_nonneg hL0 (le_of_lt hp0)
  push_cast
  rcases hl with rfl | rfl <;> rcases ha with rfl | rfl
  · exact absurd ⟨by decide, by decide⟩ hm
  · have := hLl (by decide)
    subst this
    simp only [Int.cast_zero, Int.cast_one, zero_add, mul_one, zero_div, add_zero]
    exact ⟨div_nonneg hG3 (le_of_lt hp0), by rw [div_le_one hp0]; exact hG2⟩
  · have := hGa (by decide)
    subst this
    simp only [Int.cast_zero, Int.cast_one, add_zero, mul_one, zero_div, zero_add]
    exact ⟨div_nonneg hL3 (le_of_lt hp0), by rw [div_le_one hp0]; exact hL2⟩
  · have h2 : (0 : ℚ) < (p : ℚ) * (1 + 1) := by linarith
    simp only [Int.cast_one]
    exact ⟨div_nonneg (by linarith) (le_of_lt h2), by rw [div_le_one h2]; linarith⟩

theorem getD_mem_ne_zero (g : List Int) (i : Nat) (hi : i < g.length)
    (h0 : ∀ x ∈ g, x ≠ 0) : g.getD i 0 ≠ 0 := by
  simp only [List.getD_eq_getElem?_getD, List.getElem?_eq_getElem hi, Option.getD_some]
  exact h0 _ (List.getElem_mem hi)

theorem getD_append_left (A B : List Int) (i : Nat) (hi : i < A.length) :
    (A ++ B).getD (0 * A.length + i) 0 = A.getD i 0 := by
  simp [List.getD_eq_getElem?_getD, List.getElem?_append_left hi]

theorem getD_append_right (A B : List Int) (i : Nat) :
    (A ++ B).getD (1 * A.length + i) 0 = B.getD i 0 := by
  simp [List.getD_eq_getElem?_getD, List.getElem?_append_right]

theorem set_append_left' (A B : List Int) (i : Nat) (v : Int) (hi : i < A.length) :
    (A ++ B).set (0 * A.length + i) v = A.set i v ++ B := by
  simp [List.set_append_left _ _ hi]

theorem set_append_right' (A B : List Int) (i : Nat) (v : Int) :
    (A ++ B).set (1 * A.length + i) v = A ++ B.set i v := by
  rw [List.set_append_right _ _ (by omega)]
  simp

/-- With genotype 0 fully observed and genotype 1 not entirely zero the resolver
returns a value in `[0, 1]`, for every bound above the number of zero alleles. -/
theorem tbd_range (fuel : Nat) : ∀ (A B : List Int) (p : Nat), 1 ≤ p →
    A.length = p → B.length = p → A.count 0 = 0 → B.count 0 < p →
    B.count 0 < fuel →
    ∀ loss add : Int, (loss = 0 ∨ loss = 1) → (add = 0 ∨ add = 1) →
    ∃ v, test_bruvo_dist_fuel fuel (A ++ B) p (permuto p) (permuto p).length loss add = some v
      ∧ 0 ≤ v ∧ v ≤ 1 := by
  induction fuel with
  | zero => intro A B p _ _ _ _ _ h; omega
  | succ fuel ih =>
    intro A B p hp hA hB hAz hB0 hfuel loss add hl ha
    have hp0 : (0 : ℚ) < p := by exact_mod_cast hp
    have hA0 : A.count 0 < p := by omega
    have hboth : ¬ (0 < A.count 0 ∧ 0 < B.count 0) := by omega
    by_cases hB1 : 0 < B.count 0
    · -- genotype 1 deficient
      have hsome : 0 < A.count 0 ∨ 0 < B.count 0 := Or.inr hB1
      have hp2 : 2 ≤ p := by omega
      have hz := zeroIdx_head B hB1
      have hAn := (count_zero_eq_zero_iff A).1 hAz
      by_cases hinf : loss ≠ 1 ∧ add ≠ 1
      · rw [tbd_one_inf fuel A B p hA hB hA0 hB0 hboth hsome _ _ loss add hinf.1 hinf.2]
        have hb := mindist_bounds _ p hp
          (bounded_infiniteModel (buildDist (A ++ B) p) p (A.count 0)
            (if 0 < A.count 0 then strayIdx A p else zeroIdx B)
            (if 0 < A.count 0 then A.count 0 else B.count 0) (bounded_buildDist _ p))
        exact ⟨_, rfl, div_nonneg hb.1 (le_of_lt hp0), by rw [div_le_one hp0]; exact hb.2⟩
      · rw [tbd_one_model fuel A B p hA hB hA0 hB0 hboth hsome _ _ loss add hinf]
        simp only [hAz, lt_irrefl, if_false]
        have hind : (zeroIdx B).getD 0 0 < p := by rw [← hB]; exact hz.1
        have hloss : ∃ L, (if loss = 1 then
              ((List.range p).foldl
                (fun st i =>
                  st.bind fun gs : List Int × ℚ =>
                    (test_bruvo_dist_fuel fuel
                      (gs.1.set (1 * p + (zeroIdx B).getD 0 0) (gs.1.getD (0 * p + i) 0))
                      p (permuto p) (permuto p).length loss add).map
                      fun r => (gs.1.set (1 * p + (zeroIdx B).getD 0 0)
                        (gs.1.getD (0 * p + i) 0), gs.2 + r * p))
                (some (A ++ B, (0 : ℚ)))).map Prod.snd
            else some 0) = some L ∧ 0 ≤ L ∧ L ≤ (p : ℚ) * p ∧ (loss ≠ 1 → L = 0) := by
          by_cases hl1 : loss = 1
          · rw [if_pos hl1]
            obtain ⟨L, h1, h2, h3⟩ := loss_loop_some (A ++ B) p
              (1 * p + (zeroIdx B).getD 0 0) (fun i => 0 * p + i)
              (by intro i hi; show 0 * p + i ≠ 1 * p + (zeroIdx B).getD 0 0; omega)
              (fun g => test_bruvo_dist_fuel fuel g p (permuto p) (permuto p).length loss add)
              (by
                intro i hi
                show ∃ r, test_bruvo_dist_fuel fuel
                  ((A ++ B).set (1 * p + (zeroIdx B).getD 0 0) ((A ++ B).getD (0 * p + i) 0))
                  p (permuto p) (permuto p).length loss add = some r ∧ 0 ≤ r ∧ r ≤ 1
                rw [← hA, getD_append_left _ _ _ (by omega), set_append_right', hA]
                have hv := getD_mem_ne_zero A i (by omega) hAn
                have hcnt := count_set_zero B _ (A.getD i 0) hz.1 hz.2 hv
                exact ih _ _ p hp hA (by simp [hB]) hAz (by omega) (by omega) loss add hl ha)
            exact ⟨L, h1, h2, h3, fun h => absurd hl1 h⟩
          · rw [if_neg hl1]
            exact ⟨0, rfl, le_refl _, by positivity, fun _ => rfl⟩
        obtain ⟨L, hL, hL0, hL1, hLl⟩ := hloss
        rw [hL]
        have hadd : 0 ≤ (if add = 1 then
              genomeAdd (buildDist (A ++ B) p) (permuto p).length p (permuto p) 0
                ((zeroIdx B).getD 0 0)
            else 0) ∧
            (if add = 1 then
              genomeAdd (buildDist (A ++ B) p) (permuto p).length p (permuto p) 0
                ((zeroIdx B).getD 0 0)
            else 0) ≤ ((p : ℚ) - 1) * p := by
          by_cases ha1 : add = 1
          · rw [if_pos ha1]
            exact genomeAdd_bounds _ p hp _ _ hind (bounded_buildDist _ p)
          · rw [if_neg ha1]
            have : (2 : ℚ) ≤ p := by exact_mod_cast hp2
            exact ⟨le_refl _, by nlinarith⟩
        have hGa : add ≠ 1 → (if add = 1 then
              genomeAdd (buildDist (A ++ B) p) (permuto p).length p (permuto p) 0
                ((zeroIdx B).getD 0 0)
            else 0) = 0 := fun h => if_neg h
        have hfin := model_value_bounds p hp2 _ L loss add hadd.1 hadd.2 hL0 hL1 hl ha hinf
          hGa hLl
        exact ⟨_, rfl, hfin.1, hfin.2⟩
    · -- no missing allele
      have hBz : B.count 0 = 0 := by omega
      rw [tbd_none fuel A B p hp hA hB hAz hBz]
      have hb := mindist_bounds _ p hp (bounded_buildDist (A ++ B) p)
      exact ⟨_, rfl, div_nonneg hb.1 (le_of_lt hp0), by rw [div_le_one hp0]; exact hb.2⟩

/-! ## The infinite model with one missing allele -/

theorem sum_split (p : Nat) (m : Fin p) (g : Fin p → ℚ) :
    ∑ k : Fin p, (if (k : Nat) = (m : Nat) then 1 else g k)
      = 1 + ∑ k : {k : Fin p // k ≠ m}, g k := by
  rw [← Finset.add_sum_erase Finset.univ _ (Finset.mem_univ m)]
  simp only [if_true]
  congr 1
  rw [← Finset.sum_subtype (Finset.univ.erase m) (by simp) g]
  apply Finset.sum_congr rfl
  intro k hk
  have hne : k ≠ m := (Finset.mem_erase.1 hk).1
  rw [if_neg (fun e => hne (Fin.ext e))]

theorem permCosts_col (D Fu : List Int) (p : Nat) (m : Fin p) :
    permCosts (fun i j => if j = m.1 then 1 else da (Fu.getD i 0) (D.getD j 0)) p
      = Set.range fun f => 1 + assignCost D Fu p m f := by
  ext v
  simp only [permCosts, Set.mem_range]
  constructor
  · rintro ⟨σ, rfl⟩
    refine ⟨(Function.Embedding.subtype _).trans σ.toEmbedding, ?_⟩
    rw [sum_split p m (fun k => da (Fu.getD (σ k) 0) (D.getD k 0))]
    congr 1
    apply Finset.sum_congr rfl
    intro k _
    rw [da_comm]
    rfl
  · rintro ⟨f, rfl⟩
    classical
    refine ⟨f.toEquivRange.extendSubtype, ?_⟩
    rw [sum_split p m (fun k => da (Fu.getD (f.toEquivRange.extendSubtype k) 0) (D.getD k 0))]
    congr 1
    apply Finset.sum_congr rfl
    intro k _
    rw [Equiv.extendSubtype_apply_of_mem _ k.1 k.2, da_comm]
    rfl

theorem isCapMin_bestAssign (D Fu : List Int) (p : Nat) (m : Fin p) :
    IsCapMin (Set.range fun f => 1 + assignCost D Fu p m f)
      (min 100 (1 + bestAssign D Fu p m)) := by
  refine ⟨min_le_left _ _, ?_, ?_⟩
  · rintro v ⟨f, rfl⟩
    refine le_trans (min_le_right _ _) ?_
    have : bestAssign D Fu p m ≤ assignCost D Fu p m f :=
      Finset.inf'_le _ (Finset.mem_univ f)
    show 1 + bestAssign D Fu p m ≤ 1 + assignCost D Fu p m f
    linarith
  · rcases le_total (100 : ℚ) (1 + bestAssign D Fu p m) with h | h
    · left; exact min_eq_left h
    · right
      rw [min_eq_right h]
      obtain ⟨f, _, hf⟩ := Finset.exists_mem_eq_inf'
        (⟨Function.Embedding.subtype _, Finset.mem_univ _⟩ :
          (Finset.univ : Finset ({k : Fin p // k ≠ m} ↪ Fin p)).Nonempty)
        (assignCost D Fu p m)
      exact ⟨f, by simp only [bestAssign]; rw [hf]⟩

theorem bestAssign_nonneg (D Fu : List Int) (p : Nat) (m : Fin p) :
    0 ≤ bestAssign D Fu p m := by
  unfold bestAssign
  rw [Finset.le_inf'_iff]
  intro f _
  exact Finset.sum_nonneg fun k _ => da_nonneg _ _

theorem bestAssign_lt (D Fu : List Int) (p : Nat) (m : Fin p) :
    1 + bestAssign D Fu p m ≤ p := by
  have h1 : bestAssign D Fu p m ≤ assignCost D Fu p m (Function.Embedding.subtype _) :=
    Finset.inf'_le _ (Finset.mem_univ _)
  have h2 : assignCost D Fu p m (Function.Embedding.subtype _)
      ≤ ∑ _k : {k : Fin p // k ≠ m}, (1 : ℚ) :=
    Finset.sum_le_sum fun k _ => le_of_lt (da_lt_one _ _)
  have h3 : (∑ _k : {k : Fin p // k ≠ m}, (1 : ℚ)) = (p : ℚ) - 1 := by
    simp only [Finset.sum_const, Finset.card_univ, nsmul_eq_mul, mul_one]
    rw [Fintype.card_subtype_compl, Fintype.card_fin]
    simp [Nat.cast_sub (show 1 ≤ p from Nat.one_le_of_lt m.2)]
  linarith

theorem zeroIdx_head_eq (D : List Int) (m : Nat) (hm : m < D.length) (h1 : D.count 0 = 1)
    (h0 : D.getD m 0 = 0) : (zeroIdx D).getD 0 0 = m := by
  have hl : (zeroIdx D).length = 1 := by rw [zeroIdx_length, h1]
  obtain ⟨x, hx⟩ := List.length_eq_one.1 hl
  have hmem : m ∈ zeroIdx D := by
    unfold zeroIdx
    rw [List.mem_filter, List.mem_range]
    exact ⟨hm, by simpa using h0⟩
  rw [hx] at hmem ⊢
  simp at hmem
  simp [hmem]

theorem infiniteModel_one_row (M : Nat → Nat → ℚ) (p z0 : Nat) (hz : z0 > 0)
    (zeros : List Nat) : infiniteModel M p z0 zeros 1 = rowOnes M p (zeros.getD 0 0) := by
  simp [infiniteModel, hz, List.range_succ]

theorem infiniteModel_one_col (M : Nat → Nat → ℚ) (p : Nat) (zeros : List Nat) :
    infiniteModel M p 0 zeros 1 = colOnes M p (zeros.getD 0 0) := by
  simp [infiniteModel, List.range_succ]

theorem permCosts_rowOnes (D Fu : List Int) (p : Nat) (hD : D.length = p) (m : Fin p) :
    permCosts (rowOnes (buildDist (D ++ Fu) p) p m.1) p
      = Set.range fun f => 1 + assignCost D Fu p m f := by
  rw [← permCosts_col, ← permCosts_transpose]
  apply permCosts_congr
  intro i j hi hj
  rw [rowOnes_eq, buildDist_eq]
  have hj2 : j < D.length := by omega
  by_cases hjm : j = m.1
  · simp [hjm, hi]
  · simp only [hjm, false_and, if_false, hi, hj, and_self, if_true]
    rw [da_comm]
    simp [List.getD_eq_getElem?_getD, List.getElem?_append_left hj2,
      List.getElem?_append_right, hD]

theorem permCosts_colOnes (D Fu : List Int) (p : Nat) (hF : Fu.length = p) (m : Fin p) :
    permCosts (colOnes (buildDist (Fu ++ D) p) p m.1) p
      = Set.range fun f => 1 + assignCost D Fu p m f := by
  rw [← permCosts_col]
  apply permCosts_congr
  intro i j hi hj
  rw [colOnes_eq, buildDist_eq]
  have hi2 : i < Fu.length := by omega
  by_cases hjm : j = m.1
  · simp [hjm, hi]
  · simp only [hjm, and_false, if_false, hi, hj, and_self, if_true]
    simp [List.getD_eq_getElem?_getD, List.getElem?_append_left hi2,
      List.getElem?_append_right, hF]

/-- Infinite model, genotype 1 deficient in its allele `m` only. -/
theorem infinite_value_right (fuel : Nat) (D Fu : List Int) (p : Nat) (hp : 2 ≤ p)
    (hD : D.length = p) (hF : Fu.length = p) (m : Fin p) (hD1 : D.count 0 = 1)
    (hm : D.getD m.1 0 = 0) (hF0 : ∀ x ∈ Fu, x ≠ 0) :
    test_bruvo_dist_fuel (fuel + 1) (Fu ++ D) p (permuto p) (permuto p).length 0 0
      = some (min 100 (1 + bestAssign D Fu p m) / p) := by
  have hFz : Fu.count 0 = 0 := (count_zero_eq_zero_iff Fu).2 hF0
  rw [tbd_one_inf fuel Fu D p hF hD (by omega) (by omega) (by omega) (by omega) _ _ 0 0
    (by decide) (by decide)]
  simp only [hFz, lt_irrefl, if_false]
  rw [hD1, infiniteModel_one_col,
    zeroIdx_head_eq D m.1 (by rw [hD]; exact m.2) hD1 hm]
  have hc := mindist_isCapMin (colOnes (buildDist (Fu ++ D) p) p m.1) p (by omega)
  rw [permCosts_colOnes D Fu p hF m] at hc
  rw [hc.unique (isCapMin_bestAssign D Fu p m)]

/-! ## Claims about the generator and the fast path -/

/-- C1, as stated, fails at ploidy 12: `permuto` computes the table size
`fact(per) * per` in `int`; `fact(12) = 479001600` still fits, but the product
wraps to `1453051904`, which is not `12 * 12!`, and from `13` on `fact` itself
wraps (`fact(13) = 1932053504`). -/
theorem permuto_size_wraps :
    fact_int 12 = 479001600 ∧
    permutations_int 12 = 1453051904 ∧
    permutations_int 12 ≠ ((12 * Nat.factorial 12 : Nat) : Int) ∧
    fact_int 13 = 1932053504 ∧
    fact_int 13 ≠ ((Nat.factorial 13 : Nat) : Int) := by
  decide

/-- C1, amended. For every ploidy `1 ≤ p ≤ 11` the `int` size `fact(p) * p`
computed by `permuto` is `p * p!` without wrapping, and the table `permuto p`
has that length; it is the concatenation of its `p!` blocks of length `p`; the
blocks are pairwise distinct, each one is a permutation of `0, …, p-1`, and
every permutation of `0, …, p-1` occurs among them exactly once. -/
theorem permuto_blocks (p : Nat) (hp : 1 ≤ p) (hp11 : p ≤ 11) :
    permutations_int p = ((p * p.factorial : Nat) : Int) ∧
    (permuto p).length = p * p.factorial ∧
    (blocksOf p (permuto p)).flatten = permuto p ∧
    (blocksOf p (permuto p)).length = p.factorial ∧
    (∀ b ∈ blocksOf p (permuto p), b.length = p) ∧
    (blocksOf p (permuto p)).Pairwise (fun b c => b ≠ c) ∧
    (∀ b ∈ blocksOf p (permuto p), b.Perm (List.range p)) ∧
    (∀ b : List Nat, b.Perm (List.range p) →
      (blocksOf p (permuto p)).countP (fun c => c = b) = 1) := by
  have hnd := nodup_blocksOf_permuto p hp
  refine ⟨?_, permuto_length p hp, ?_, ?_, ?_, hnd, ?_, ?_⟩
  · interval_cases p <;> decide
  · rw [blocksOf_permuto p hp, permuto_eq p hp]
    simp [blocksFrom]
  · rw [blocksOf_permuto p hp, List.length_map, arrangements_length p _ hp]
  · intro b hb
    simpa using ((mem_blocksOf_permuto p hp b).1 hb).length_eq
  · intro b hb
    exact (mem_blocksOf_permuto p hp b).1 hb
  · intro b hb
    have := List.count_eq_one_of_mem hnd ((mem_blocksOf_permuto p hp b).2 hb)
    simpa [List.count, BEq.beq] using this

/-- Instance of the amended C1 at ploidy 3. -/
theorem permuto_blocks_witness :
    1 ≤ 3 ∧ 3 ≤ 11 ∧
    (permutations_int 3 = ((3 * Nat.factorial 3 : Nat) : Int) ∧
    (permuto 3).length = 3 * Nat.factorial 3 ∧
    (blocksOf 3 (permuto 3)).flatten = permuto 3 ∧
    (blocksOf 3 (permuto 3)).length = Nat.factorial 3 ∧
    (∀ b ∈ blocksOf 3 (permuto 3), b.length = 3) ∧
    (blocksOf 3 (permuto 3)).Pairwise (fun b c => b ≠ c) ∧
    (∀ b ∈ blocksOf 3 (permuto 3), b.Perm (List.range 3)) ∧
    (∀ b : List Nat, b.Perm (List.range 3) →
      (blocksOf 3 (permuto 3)).countP (fun c => c = b) = 1)) ∧
    blocksOf 3 (permuto 3)
      = [[2, 1, 0], [1, 2, 0], [2, 0, 1], [0, 2, 1], [0, 1, 2], [1, 0, 2]] :=
  ⟨by decide, by decide, permuto_blocks 3 (by decide) (by decide), by decide⟩

/-- C2. For fully observed genotypes `A`, `B` of ploidy `1 ≤ p ≤ 100` (the table
`permuto p` can be built only for `p ≤ 11`, so this covers every ploidy at which
the function can be called with it), `p * bruvo_dist` is the optimum of the
assignment problem, the minimum over all bijections `σ` of
`Σ_k 1 - 2^(-|A[σ k] - B[k]|)`; in particular it is at most the cost of the
identity permutation. -/
theorem bruvo_dist_assignment (p : Nat) (hp : 1 ≤ p) (hp100 : p ≤ 100) (A B : List Int)
    (hA : A.length = p) (hB : B.length = p)
    (hA0 : ∀ x ∈ A, x ≠ 0) (hB0 : ∀ x ∈ B, x ≠ 0) :
    (p : ℚ) * bruvo_dist (A ++ B) p (permuto p) (permuto p).length
        = Finset.univ.inf' Finset.univ_nonempty
            (fun σ : Equiv.Perm (Fin p) => ∑ k : Fin p, da (A.getD (σ k) 0) (B.getD k 0)) ∧
    (p : ℚ) * bruvo_dist (A ++ B) p (permuto p) (permuto p).length
        ≤ ∑ k : Fin p, da (A.getD k 0) (B.getD k 0) := by
  obtain ⟨x, hx, he⟩ := bruvo_dist_eq A B p hp hA hB hA0 hB0
  have hp0 : (p : ℚ) ≠ 0 := by exact_mod_cast (show p ≠ 0 by omega)
  have hpx : (p : ℚ) * (x / p) = x := by field_simp
  rw [he, hpx]
  have hmin := isCapMin_inf p
    (fun σ : Equiv.Perm (Fin p) => ∑ k : Fin p, da (A.getD (σ k) 0) (B.getD k 0))
  have hxe := hx.unique hmin
  refine ⟨?_, ?_⟩
  · rw [hxe]
    apply min_eq_right
    obtain ⟨σ, _, hσ⟩ := Finset.exists_mem_eq_inf' Finset.univ_nonempty
      (fun σ : Equiv.Perm (Fin p) => ∑ k : Fin p, da (A.getD (σ k) 0) (B.getD k 0))
    rw [hσ]
    have hlt := permCosts_lt A B p hp _ ⟨σ, rfl⟩
    have hp100' : (p : ℚ) ≤ 100 := by exact_mod_cast hp100
    exact le_of_lt (lt_of_lt_of_le hlt hp100')
  · exact hx.2.1 _ ⟨1, by simp [costMatrix]⟩

/-- Instance of C2 at the pair `[20,23,24,26]`, `[20,24,26,43]`. -/
theorem bruvo_dist_assignment_witness :
    ((4 : Nat) : ℚ) * bruvo_dist ([20, 23, 24, 26] ++ [20, 24, 26, 43]) 4 (permuto 4)
        (permuto 4).length
        = Finset.univ.inf' Finset.univ_nonempty
            (fun σ : Equiv.Perm (Fin 4) =>
              ∑ k : Fin 4, da ([20, 23, 24, 26].getD (σ k) 0) ([20, 24, 26, 43].getD k 0)) ∧
    ((4 : Nat) : ℚ) * bruvo_dist ([20, 23, 24, 26] ++ [20, 24, 26, 43]) 4 (permuto 4)
        (permuto 4).length
        ≤ ∑ k : Fin 4, da ([20, 23, 24, 26].getD k 0) ([20, 24, 26, 43].getD k 0) :=
  bruvo_dist_assignment 4 (by decide) (by decide) [20, 23, 24, 26] [20, 24, 26, 43] rfl rfl
    (by decide) (by decide)

/-- C3. For fully observed genotypes `A`, `B` of ploidy `p ≥ 1`, `bruvo_dist` on
`(A, B)` equals `bruvo_dist` on `(B, A)`. -/
theorem bruvo_dist_symm (p : Nat) (hp : 1 ≤ p) (A B : List Int)
    (hA : A.length = p) (hB : B.length = p)
    (hA0 : ∀ x ∈ A, x ≠ 0) (hB0 : ∀ x ∈ B, x ≠ 0) :
    bruvo_dist (A ++ B) p (permuto p) (permuto p).length
      = bruvo_dist (B ++ A) p (permuto p) (permuto p).length := by
  obtain ⟨x, hx, he⟩ := bruvo_dist_eq A B p hp hA hB hA0 hB0
  obtain ⟨y, hy, he2⟩ := bruvo_dist_eq B A p hp hB hA hB0 hA0
  rw [permCosts_swap A B p] at hy
  rw [he, he2, hx.unique hy]

/-- Instance of C3 at the pair `[20,23,24,26]`, `[20,24,26,43]`. -/
theorem bruvo_dist_symm_witness :
    bruvo_dist ([20, 23, 24, 26] ++ [20, 24, 26, 43]) 4 (permuto 4) (permuto 4).length
      = bruvo_dist ([20, 24, 26, 43] ++ [20, 23, 24, 26]) 4 (permuto 4) (permuto 4).length :=
  bruvo_dist_symm 4 (by decide) [20, 23, 24, 26] [20, 24, 26, 43] rfl rfl
    (by decide) (by decide)

/-- C4. For a fully observed genotype `A` of ploidy `p ≥ 1`, `bruvo_dist` on
`(A, A)` is exactly `0`. -/
theorem bruvo_dist_self (p : Nat) (hp : 1 ≤ p) (A : List Int)
    (hA : A.length = p) (hA0 : ∀ x ∈ A, x ≠ 0) :
    bruvo_dist (A ++ A) p (permuto p) (permuto p).length = 0 := by
  obtain ⟨x, hx, he⟩ := bruvo_dist_eq A A p hp hA hA hA0 hA0
  have h0 : x ≤ 0 := hx.2.1 0 ⟨1, by simp [costMatrix, da_self]⟩
  have h1 : 0 ≤ x := by
    rcases hx.2.2 with h | h
    · rw [h]; norm_num
    · exact permCosts_nonneg A A p x h
  rw [he, le_antisymm h0 h1]
  simp

/-- Instance of C4 at the genotype `[20,23,24,26]`. -/
theorem bruvo_dist_self_witness :
    bruvo_dist ([20, 23, 24, 26] ++ [20, 23, 24, 26]) 4 (permuto 4) (permuto 4).length = 0 :=
  bruvo_dist_self 4 (by decide) [20, 23, 24, 26] rfl (by decide)

/-- C5. Inside the matrix (`i, j < p`) the entry built by the construction loop
is `1 - 2^(-|a - b|)` for the alleles `a = genos[0][i]`, `b = genos[1][j]`; and
for all integers this value lies in `[0, 1)`, is `0` exactly when `a = b`, and
is strictly larger for a strictly larger `|a - b|`. -/
theorem dist_entry_properties (genos : List Int) (p i j : Nat) (hi : i < p) (hj : j < p)
    (a b a' b' : Int) :
    buildDist genos p i j = da (genos.getD i 0) (genos.getD (p + j) 0) ∧
    da a b = 1 - 1 / (2 : ℚ) ^ (a - b).natAbs ∧
    0 ≤ da a b ∧ da a b < 1 ∧ (da a b = 0 ↔ a = b) ∧
    (|a - b| < |a' - b'| → da a b < da a' b') := by
  refine ⟨?_, da_eq a b, da_nonneg a b, da_lt_one a b, da_eq_zero_iff a b, da_lt_da a b a' b'⟩
  rw [buildDist_eq]
  simp [hi, hj]

/-- Instance of C5: the entry for the alleles `23`, `24` in a ploidy-4 matrix. -/
theorem dist_entry_properties_witness :
    buildDist [20, 23, 24, 26, 20, 24, 26, 43] 4 1 1
        = da ([20, 23, 24, 26, 20, 24, 26, 43].getD 1 0)
            ([20, 23, 24, 26, 20, 24, 26, 43].getD (4 + 1) 0) ∧
    da 23 24 = 1 - 1 / (2 : ℚ) ^ ((23 : Int) - 24).natAbs ∧
    0 ≤ da 23 24 ∧ da 23 24 < 1 ∧ (da 23 24 = 0 ↔ (23 : Int) = 24) ∧
    (|(23 : Int) - 24| < |(20 : Int) - 43| → da 23 24 < da 20 43) :=
  dist_entry_properties [20, 23, 24, 26, 20, 24, 26, 43] 4 1 1 (by decide) (by decide)
    23 24 20 43

/-! ## The exact value of the genome addition loop -/

theorem rowCopy_congr (M N : Nat → Nat → ℚ) (p ind i : Nat) (hne : i ≠ ind)
    (h : ∀ i' j', (i' ≠ ind ∨ p ≤ j') → N i' j' = M i' j') :
    rowCopy N p ind i = rowCopy M p ind i := by
  rw [rowCopy_eq N p ind i hne, rowCopy_eq M p ind i hne]
  funext i' j'
  by_cases hc : i' = ind ∧ j' < p
  · simp only [hc, and_self, if_true]
    exact h i j' (Or.inl hne)
  · simp only [hc, if_false]
    apply h
    by_cases h1 : i' = ind
    · right
      by_contra h2
      exact hc ⟨h1, by omega⟩
    · left; exact h1

theorem colCopy_congr (M N : Nat → Nat → ℚ) (p ind i : Nat) (hne : i ≠ ind)
    (h : ∀ i' j', (j' ≠ ind ∨ p ≤ i') → N i' j' = M i' j') :
    colCopy N p ind i = colCopy M p ind i := by
  rw [colCopy_eq N p ind i hne, colCopy_eq M p ind i hne]
  funext i' j'
  by_cases hc : i' < p ∧ j' = ind
  · simp only [hc, and_self, if_true]
    exact h i' i (Or.inl hne)
  · simp only [hc, if_false]
    apply h
    by_cases h1 : j' = ind
    · right
      by_contra h2
      exact hc ⟨by omega, h1⟩
    · left; exact h1

/-- Genotype 0 deficient: the donor loop adds, for every `i ≠ ind`, `mindist` of the
matrix whose row `ind` is a copy of row `i` of the matrix built from the pair. -/
theorem genomeAdd_rows (M : Nat → Nat → ℚ) (w p : Nat) (perm : List Nat) (z0 ind : Nat)
    (hz : z0 > 0) :
    genomeAdd M w p perm z0 ind
      = ∑ i in Finset.range p,
          if i = ind then 0 else mindist w p perm (flatten (rowCopy M p ind i) p) := by
  unfold genomeAdd
  simp only [hz, if_true]
  have key : ∀ k,
      (∀ i' j', (i' ≠ ind ∨ p ≤ j') →
        ((List.range k).foldl
          (fun (st : (Nat → Nat → ℚ) × ℚ) i =>
            if i = ind then st
            else (rowCopy st.1 p ind i,
              st.2 + mindist w p perm (flatten (rowCopy st.1 p ind i) p)))
          (M, (0 : ℚ))).1 i' j' = M i' j') ∧
      ((List.range k).foldl
          (fun (st : (Nat → Nat → ℚ) × ℚ) i =>
            if i = ind then st
            else (rowCopy st.1 p ind i,
              st.2 + mindist w p perm (flatten (rowCopy st.1 p ind i) p)))
          (M, (0 : ℚ))).2
        = ∑ i in Finset.range k,
            if i = ind then 0 else mindist w p perm (flatten (rowCopy M p ind i) p) := by
    intro k
    induction k with
    | zero => simp
    | succ k ih =>
      obtain ⟨h1, h2⟩ := ih
      rw [List.range_succ, List.foldl_append, Finset.sum_range_succ]
      simp only [List.foldl_cons, List.foldl_nil]
      generalize (List.range k).foldl
          (fun (st : (Nat → Nat → ℚ) × ℚ) i =>
            if i = ind then st
            else (rowCopy st.1 p ind i,
              st.2 + mindist w p perm (flatten (rowCopy st.1 p ind i) p)))
          (M, (0 : ℚ)) = st at h1 h2 ⊢
      by_cases hk : k = ind
      · simp only [hk, if_true, add_zero]
        exact ⟨h1, by rw [h2, hk]⟩
      · simp only [hk, if_false]
        have hc := rowCopy_congr M st.1 p ind k hk h1
        rw [hc, h2]
        refine ⟨?_, rfl⟩
        intro i' j' hij
        rw [rowCopy_eq M p ind k hk]
        have : ¬ (i' = ind ∧ j' < p) := by
          rintro ⟨e1, e2⟩
          rcases hij with h | h
          · exact h e1
          · omega
        simp only [this, if_false]
  exact (key p).2

/-- Genotype 1 deficient: the same with columns. -/
theorem genomeAdd_cols (M : Nat → Nat → ℚ) (w p : Nat) (perm : List Nat) (ind : Nat) :
    genomeAdd M w p perm 0 ind
      = ∑ i in Finset.range p,
          if i = ind then 0 else mindist w p perm (flatten (colCopy M p ind i) p) := by
  unfold genomeAdd
  simp only [gt_iff_lt, lt_irrefl, if_false]
  have key : ∀ k,
      (∀ i' j', (j' ≠ ind ∨ p ≤ i') →
        ((List.range k).foldl
          (fun (st : (Nat → Nat → ℚ) × ℚ) i =>
            if i = ind then st
            else (colCopy st.1 p ind i,
              st.2 + mindist w p perm (flatten (colCopy st.1 p ind i) p)))
          (M, (0 : ℚ))).1 i' j' = M i' j') ∧
      ((List.range k).foldl
          (fun (st : (Nat → Nat → ℚ) × ℚ) i =>
            if i = ind then st
            else (colCopy st.1 p ind i,
              st.2 + mindist w p perm (flatten (colCopy st.1 p ind i) p)))
          (M, (0 : ℚ))).2
        = ∑ i in Finset.range k,
            if i = ind then 0 else mindist w p perm (flatten (colCopy M p ind i) p) := by
    intro k
    induction k with
    | zero => simp
    | succ k ih =>
      obtain ⟨h1, h2⟩ := ih
      rw [List.range_succ, List.foldl_append, Finset.sum_range_succ]
      simp only [List.foldl_cons, List.foldl_nil]
      generalize (List.range k).foldl
          (fun (st : (Nat → Nat → ℚ) × ℚ) i =>
            if i = ind then st
            else (colCopy st.1 p ind i,
              st.2 + mindist w p perm (flatten (colCopy st.1 p ind i) p)))
          (M, (0 : ℚ)) = st at h1 h2 ⊢
      by_cases hk : k = ind
      · simp only [hk, if_true, add_zero]
        exact ⟨h1, by rw [h2, hk]⟩
      · simp only [hk, if_false]
        have hc := colCopy_congr M st.1 p ind k hk h1
        rw [hc, h2]
        refine ⟨?_, rfl⟩
        intro i' j' hij
        rw [colCopy_eq M p ind k hk]
        have : ¬ (i' < p ∧ j' = ind) := by
          rintro ⟨e1, e2⟩
          rcases hij with h | h
          · exact h e2
          · omega
        simp only [this, if_false]
  exact (key p).2

/-! ## A genotype with exactly one missing allele -/

theorem zeroIdx_eq_singleton (D : List Int) (m : Nat) (hm : m < D.length)
    (h1 : D.count 0 = 1) (h0 : D.getD m 0 = 0) : zeroIdx D = [m] := by
  have hl : (zeroIdx D).length = 1 := by rw [zeroIdx_length, h1]
  obtain ⟨x, hx⟩ := List.length_eq_one.1 hl
  have hmem : m ∈ zeroIdx D := by
    unfold zeroIdx
    rw [List.mem_filter, List.mem_range]
    exact ⟨hm, by simpa using h0⟩
  rw [hx] at hmem ⊢
  simp at hmem
  rw [hmem]

theorem one_zero_others (D : List Int) (m : Nat) (hm : m < D.length)
    (h1 : D.count 0 = 1) (h0 : D.getD m 0 = 0) (i : Nat) (hi : i < D.length) (hne : i ≠ m) :
    D.getD i 0 ≠ 0 := by
  intro hz
  have hmem : i ∈ zeroIdx D := by
    unfold zeroIdx
    rw [List.mem_filter, List.mem_range]
    exact ⟨hi, by simpa using hz⟩
  rw [zeroIdx_eq_singleton D m hm h1 h0] at hmem
  simp at hmem
  exact hne hmem

theorem set_observed (D : List Int) (m : Nat) (v : Int) (hm : m < D.length)
    (h1 : D.count 0 = 1) (h0 : D.getD m 0 = 0) (hv : v ≠ 0) : ∀ x ∈ D.set m v, x ≠ 0 := by
  have hc := count_set_zero D m v hm h0 hv
  exact (count_zero_eq_zero_iff _).1 (by omega)

theorem getD_set (D : List Int) (m i : Nat) (v : Int) (hm : m < D.length) :
    (D.set m v).getD i 0 = if i = m then v else D.getD i 0 := by
  simp only [List.getD_eq_getElem?_getD, List.getElem?_set]
  by_cases h : m = i
  · subst h; simp [hm]
  · have h2 : ¬ i = m := fun e => h e.symm
    simp [h, h2]

theorem sum_skip (p m : Nat) (f : Nat → ℚ) :
    ∑ i in Finset.range p, (if i = m then 0 else f i) = ∑ i in (Finset.range p).erase m, f i := by
  rw [← Finset.filter_ne', Finset.sum_filter]
  apply Finset.sum_congr rfl
  intro i _
  by_cases h : i = m <;> simp [h]

/-- Column `m` overwritten by column `i`: the matrix of the pair in which the
missing allele of genotype 1 is replaced by its allele `i`. -/
theorem mindist_colCopy (D Fu : List Int) (p m i : Nat) (hp : 1 ≤ p) (hD : D.length = p)
    (hF : Fu.length = p) (hm : m < p) (hi : i < p) (hne : i ≠ m) (hD1 : D.count 0 = 1)
    (hm0 : D.getD m 0 = 0) (hF0 : ∀ x ∈ Fu, x ≠ 0) :
    mindist (permuto p).length p (permuto p) (flatten (colCopy (buildDist (Fu ++ D) p) p m i) p)
      = p * bruvo_dist (Fu ++ D.set m (D.getD i 0)) p (permuto p) (permuto p).length := by
  have hv := one_zero_others D m (by omega) hD1 hm0 i (by omega) hne
  obtain ⟨x, hx, he⟩ := bruvo_dist_eq Fu (D.set m (D.getD i 0)) p hp hF (by simp [hD])
    hF0 (set_observed D m _ (by omega) hD1 hm0 hv)
  have hc := mindist_isCapMin (colCopy (buildDist (Fu ++ D) p) p m i) p hp
  have hcost : permCosts (colCopy (buildDist (Fu ++ D) p) p m i) p
      = permCosts (costMatrix Fu (D.set m (D.getD i 0))) p := by
    apply permCosts_congr
    intro i' j' hi' hj'
    rw [colCopy_eq _ p m i hne, buildDist_eq]
    simp only [costMatrix, getD_set D m j' _ (by omega)]
    have hi3 : i' < Fu.length := by omega
    by_cases h : j' = m
    · simp [h, hi', hi, List.getD_eq_getElem?_getD, List.getElem?_append_left hi3,
        List.getElem?_append_right, hF]
    · simp [h, hj', hi', List.getD_eq_getElem?_getD, List.getElem?_append_left hi3,
        List.getElem?_append_right, hF]
  rw [hcost] at hc
  rw [he, hc.unique hx]
  have hp0 : (p : ℚ) ≠ 0 := by exact_mod_cast (show p ≠ 0 by omega)
  field_simp

/-- The loss loop when genotype 1 misses its allele `m` only. -/
theorem loss_sum_right (f : Nat) (D Fu : List Int) (p m : Nat) (hp : 1 ≤ p)
    (hD : D.length = p) (hF : Fu.length = p) (hm : m < p) (hD1 : D.count 0 = 1)
    (hm0 : D.getD m 0 = 0) (hF0 : ∀ x ∈ Fu, x ≠ 0) (loss add : Int) :
    ((List.range p).foldl
      (fun st i =>
        st.bind fun gs : List Int × ℚ =>
          (test_bruvo_dist_fuel (f + 1) (gs.1.set (1 * p + m) (gs.1.getD (0 * p + i) 0))
            p (permuto p) (permuto p).length loss add).map
            fun r => (gs.1.set (1 * p + m) (gs.1.getD (0 * p + i) 0), gs.2 + r * p))
      (some (Fu ++ D, (0 : ℚ)))).map Prod.snd
    = some (∑ i in Finset.range p,
        bruvo_dist (Fu ++ D.set m (Fu.getD i 0)) p (permuto p) (permuto p).length * p) := by
  obtain ⟨g, _, hfold⟩ := loss_fold (Fu ++ D) p (1 * p + m) (fun i => 0 * p + i)
    (by intro i hi; show 0 * p + i ≠ 1 * p + m; omega)
    (fun g => test_bruvo_dist_fuel (f + 1) g p (permuto p) (permuto p).length loss add)
    (fun i => bruvo_dist (Fu ++ D.set m (Fu.getD i 0)) p (permuto p) (permuto p).length)
    (by
      intro i hi
      simp only []
      rw [← hF, getD_append_left _ _ _ (by omega), set_append_right', hF]
      exact tbd_none_eq_bruvo f _ _ p hp hF (by simp [hD]) hF0
        (set_observed D m _ (by omega) hD1 hm0 (getD_mem_ne_zero Fu i (by omega) hF0))
        loss add)
    p (le_refl p)
  rw [hfold]
  rfl

/-! ## The value of the addition and loss models with one missing allele -/

/-- Genotype 1 misses its allele `m` only, genotype 0 is fully observed, and at
least one of the two flags is `1`. -/
theorem model_value_right (f : Nat) (D Fu : List Int) (p m : Nat) (hp : 2 ≤ p)
    (hD : D.length = p) (hF : Fu.length = p) (hm : m < p) (hD1 : D.count 0 = 1)
    (hm0 : D.getD m 0 = 0) (hF0 : ∀ x ∈ Fu, x ≠ 0) (loss add : Int)
    (hmodel : ¬ (loss ≠ 1 ∧ add ≠ 1)) :
    test_bruvo_dist_fuel (f + 2) (Fu ++ D) p (permuto p) (permuto p).length loss add
      = some (((if add = 1 then
            ∑ i in (Finset.range p).erase m,
              mindist (permuto p).length p (permuto p)
                (flatten (colCopy (buildDist (Fu ++ D) p) p m i) p)
          else 0) / (((p : Int) - 1 : Int) : ℚ)
        + (if loss = 1 then
            ∑ i in Finset.range p,
              bruvo_dist (Fu ++ D.set m (Fu.getD i 0)) p (permuto p) (permuto p).length * p
          else 0) / (p : ℚ))
        / (((p : Int) * (loss + add) : Int) : ℚ)) := by
  have hFz : Fu.count 0 = 0 := (count_zero_eq_zero_iff Fu).2 hF0
  rw [tbd_one_model (f + 1) Fu D p hF hD (by omega) (by omega) (by omega) (by omega) _ _
    loss add hmodel]
  simp only [hFz, lt_irrefl, if_false]
  rw [zeroIdx_head_eq D m (by omega) hD1 hm0, genomeAdd_cols, sum_skip]
  by_cases hl : loss = 1
  · rw [if_pos hl, if_pos hl,
      loss_sum_right f D Fu p m (by omega) hD hF hm hD1 hm0 hF0 loss add]
    rfl
  · rw [if_neg hl, if_neg hl]
    rfl

theorem sum_mindist_cols (D Fu : List Int) (p m : Nat) (hp : 1 ≤ p) (hD : D.length = p)
    (hF : Fu.length = p) (hm : m < p) (hD1 : D.count 0 = 1)
    (hm0 : D.getD m 0 = 0) (hF0 : ∀ x ∈ Fu, x ≠ 0) :
    ∑ i in (Finset.range p).erase m,
        mindist (permuto p).length p (permuto p)
          (flatten (colCopy (buildDist (Fu ++ D) p) p m i) p)
      = p * ∑ i in (Finset.range p).erase m,
          bruvo_dist (Fu ++ D.set m (D.getD i 0)) p (permuto p) (permuto p).length := by
  rw [Finset.mul_sum]
  apply Finset.sum_congr rfl
  intro i hi
  rw [Finset.mem_erase, Finset.mem_range] at hi
  exact mindist_colCopy D Fu p m i hp hD hF hm hi.2 hi.1 hD1 hm0 hF0

/-! ## Nesting of the recursive calls -/

theorem depthBound_lt (A B : List Int) (p : Nat) (hp : 1 ≤ p) (hA : A.length = p)
    (hB : B.length = p) : depthBound A B < p := by
  unfold depthBound
  have h1 : A.count 0 ≤ A.length := List.count_le_length 0 A
  have h2 : B.count 0 ≤ B.length := List.count_le_length 0 B
  by_cases ht : A.count 0 = A.length ∨ B.count 0 = B.length
  · rw [if_pos ht]; omega
  · rw [if_neg ht]
    rw [not_or] at ht
    by_cases hb : 0 < A.count 0 ∧ 0 < B.count 0
    · rw [if_pos hb]
      have := max_le (show A.count 0 ≤ p - 1 by omega) (show B.count 0 ≤ p - 1 by omega)
      have := le_min hb.1 hb.2
      omega
    · rw [if_neg hb]
      have := max_le (show A.count 0 ≤ p - 1 by omega) (show B.count 0 ≤ p - 1 by omega)
      omega

/-! ## The genome loss loop without its carried genotype table -/

/-- The loop of the genome loss model only ever overwrites cell `c`, so each
recursive call is made on the input with cell `c` refilled. -/
theorem loss_fold_free (inp : List Int) (p c : Nat) (f : Nat → Nat)
    (hf : ∀ i, i < p → f i ≠ c) (F : List Int → Option ℚ) (k : Nat) (hk : k ≤ p) :
    ((List.range k).foldl
        (fun st i =>
          st.bind fun gs : List Int × ℚ =>
            (F (gs.1.set c (gs.1.getD (f i) 0))).map
              fun r => (gs.1.set c (gs.1.getD (f i) 0), gs.2 + r * p))
        (some (inp, (0 : ℚ)))).map Prod.snd
      = (List.range k).foldl
          (fun acc i => acc.bind fun s : ℚ =>
            (F (inp.set c (inp.getD (f i) 0))).map fun r => s + r * p)
          (some 0) := by
  have key : ∀ k, k ≤ p →
      ((List.range k).foldl
          (fun st i =>
            st.bind fun gs : List Int × ℚ =>
              (F (gs.1.set c (gs.1.getD (f i) 0))).map
                fun r => (gs.1.set c (gs.1.getD (f i) 0), gs.2 + r * p))
          (some (inp, (0 : ℚ))) = none ∧
        (List.range k).foldl
          (fun acc i => acc.bind fun s : ℚ =>
            (F (inp.set c (inp.getD (f i) 0))).map fun r => s + r * p)
          (some 0) = none) ∨
      ∃ g s, g.set c 0 = inp.set c 0 ∧
        (List.range k).foldl
          (fun st i =>
            st.bind fun gs : List Int × ℚ =>
              (F (gs.1.set c (gs.1.getD (f i) 0))).map
                fun r => (gs.1.set c (gs.1.getD (f i) 0), gs.2 + r * p))
          (some (inp, (0 : ℚ))) = some (g, s) ∧
        (List.range k).foldl
          (fun acc i => acc.bind fun s : ℚ =>
            (F (inp.set c (inp.getD (f i) 0))).map fun r => s + r * p)
          (some 0) = some s := by
    intro k
    induction k with
    | zero => intro _; exact Or.inr ⟨inp, 0, rfl, rfl, rfl⟩
    | succ k ih =>
      intro hk
      rcases ih (by omega) with ⟨h1, h2⟩ | ⟨g, s, hg, h1, h2⟩
      · left
        rw [List.range_succ, List.foldl_append, List.foldl_append, h1, h2]
        exact ⟨rfl, rfl⟩
      · have hget : g.getD (f k) 0 = inp.getD (f k) 0 := by
          have h3 : (g.set c 0).getD (f k) 0 = (inp.set c 0).getD (f k) 0 := by rw [hg]
          have hne : c ≠ f k := fun e => hf k (by omega) e.symm
          simpa [List.getD_eq_getElem?_getD, List.getElem?_set_ne hne] using h3
        have hset : ∀ x, g.set c x = inp.set c x := by
          intro x
          have : (g.set c 0).set c x = (inp.set c 0).set c x := by rw [hg]
          simpa [List.set_set] using this
        rw [List.range_succ, List.foldl_append, List.foldl_append, h1, h2]
        simp only [List.foldl_cons, List.foldl_nil, Option.some_bind, hget, hset]
        cases hF : F (inp.set c (inp.getD (f k) 0)) with
        | none => left; exact ⟨rfl, rfl⟩
        | some r =>
          right
          exact ⟨inp.set c (inp.getD (f k) 0), s + r * p, by simp [List.set_set], rfl, rfl⟩
  rcases key k hk with ⟨h1, h2⟩ | ⟨g, s, _, h1, h2⟩
  · rw [h1, h2]; rfl
  · rw [h1, h2]; rfl

theorem count_set (g : List Int) (k : Nat) (v a : Int) (hk : k < g.length) :
    (g.set k v).count a + (if a = g.getD k 0 then 1 else 0)
      = g.count a + (if a = v then 1 else 0) := by
  induction g generalizing k with
  | nil => simp at hk
  | cons x xs ih =>
    cases k with
    | zero =>
      simp only [List.set_cons_zero, List.getD_cons_zero, List.count_cons, beq_iff_eq,
        @eq_comm _ a v, @eq_comm _ a x]
      omega
    | succ k =>
      have := ih k (by simpa using hk)
      simp only [List.set_cons_succ, List.getD_cons_succ, List.count_cons]
      omega

/-- Once a recursive call of the loss loop does not return, neither does the loop. -/
theorem loss_acc_none (G : Nat → Option ℚ) (p : Nat) (l : List Nat) :
    l.foldl (fun acc i => acc.bind fun s : ℚ => (G i).map fun r => s + r * p) none = none := by
  induction l with
  | nil => rfl
  | cons x xs ih => simpa using ih

theorem loss_acc_stuck (G : Nat → Option ℚ) (p : Nat) (l : List Nat) (i : Nat) (hi : i ∈ l)
    (hG : G i = none) (init : Option ℚ) :
    l.foldl (fun acc i => acc.bind fun s : ℚ => (G i).map fun r => s + r * p) init = none := by
  induction l generalizing init with
  | nil => simp at hi
  | cons x xs ih =>
    rw [List.foldl_cons]
    rcases List.mem_cons.1 hi with h | h
    · subst h
      have : (init.bind fun s : ℚ => (G i).map fun r => s + r * p) = none := by
        rw [hG]; cases init <;> rfl
      rw [this]
      exact loss_acc_none G p xs
    · exact ih h _

/-- Genome loss with genotype 0 deficient: the loop refills cell `z0` of genotype
0, where `z0` is its number of zeros; when that cell holds an observed allele
the refilled pair has as many zeros as before, and no bound on the nesting of
calls lets the resolver return. -/
theorem loss_left_none (fuel : Nat) : ∀ (A B : List Int) (p : Nat) (perm : List Nat) (w : Nat)
    (add : Int), A.length = p → B.length = p → 0 < A.count 0 → A.count 0 < p →
    B.count 0 = 0 → A.getD (A.count 0) 0 ≠ 0 →
    test_bruvo_dist_fuel fuel (A ++ B) p perm w 1 add = none := by
  induction fuel with
  | zero => intros; rfl
  | succ fuel ih =>
    intro A B p perm w add hA hB hA1 hA2 hBz hcell
    have hBn := (count_zero_eq_zero_iff B).1 hBz
    have hv := getD_mem_ne_zero B 0 (by omega) hBn
    rw [tbd_one_model fuel A B p hA hB hA2 (by omega) (by omega) (Or.inl hA1) perm w 1 add
      (by simp)]
    simp only [hA1, if_true]
    rw [strayIdx_head A p hA1 hA2,
      loss_fold_free (A ++ B) p (0 * p + A.count 0) (fun i => 1 * p + i)
        (fun i _ => by show 1 * p + i ≠ 0 * p + A.count 0; omega)
        (fun g => test_bruvo_dist_fuel fuel g p perm w 1 add) p (le_refl p)]
    have harg : (A ++ B).set (0 * p + A.count 0) ((A ++ B).getD (1 * p + 0) 0)
        = A.set (A.count 0) (B.getD 0 0) ++ B := by
      rw [← hA, getD_append_right, set_append_left' _ _ _ _ (by omega)]
    have hcnt : (A.set (A.count 0) (B.getD 0 0)).count 0 = A.count 0 := by
      have := count_set A (A.count 0) (B.getD 0 0) 0 (by omega)
      rw [if_neg (fun e => hcell e.symm), if_neg (fun e => hv e.symm)] at this
      omega
    have hnone : test_bruvo_dist_fuel fuel
        ((A ++ B).set (0 * p + A.count 0) ((A ++ B).getD (1 * p + 0) 0)) p perm w 1 add
        = none := by
      rw [harg]
      apply ih _ _ p perm w add (by simp [hA]) hB (by omega) (by omega) hBz
      rw [hcnt, getD_set A _ _ _ (by omega), if_pos rfl]
      exact hv
    rw [loss_acc_stuck
      (fun i => test_bruvo_dist_fuel fuel
        ((A ++ B).set (0 * p + A.count 0) ((A ++ B).getD (1 * p + i) 0)) p perm w 1 add)
      p (List.range p) 0 (List.mem_range.2 (by omega)) hnone]
    rfl

/-- Above the bound `depthBound` the outcome of the resolver (a value, or no
return) does not depend on the nesting allowance. -/
theorem tbd_stable (n : Nat) : ∀ (A B : List Int) (p : Nat) (perm : List Nat) (w : Nat)
    (loss add : Int), 1 ≤ p → A.length = p → B.length = p → depthBound A B ≤ n →
    ∃ r : Option ℚ, ∀ fuel, n < fuel →
      test_bruvo_dist_fuel fuel (A ++ B) p perm w loss add = r := by
  induction n with
  | zero =>
    intro A B p perm w loss add hp hA hB hd
    have h1 : A.count 0 ≤ A.length := List.count_le_length 0 A
    have h2 : B.count 0 ≤ B.length := List.count_le_length 0 B
    unfold depthBound at hd
    by_cases ht : A.count 0 = A.length ∨ B.count 0 = B.length
    · refine ⟨some 100, fun fuel hf => ?_⟩
      obtain ⟨f, rfl⟩ : ∃ f, fuel = f + 1 := ⟨fuel - 1, by omega⟩
      exact tbd_total f A B p hp hA hB
        (ht.imp (count_zero_eq_length_iff A).1 (count_zero_eq_length_iff B).1) perm w loss add
    · rw [if_neg ht] at hd
      rw [not_or] at ht
      have hb : ¬ (0 < A.count 0 ∧ 0 < B.count 0) := by
        intro hb; rw [if_pos hb] at hd; omega
      rw [if_neg hb] at hd
      have hAz : A.count 0 = 0 := by
        rcases Nat.lt_or_ge 0 (A.count 0) with h | h
        · have hBz : B.count 0 = 0 := by omega
          rw [hBz] at hd; simp at hd; omega
        · omega
      have hBz : B.count 0 = 0 := by
        rw [hAz] at hd; simp at hd; exact hd
      refine ⟨some (mindist w p perm (flatten (buildDist (A ++ B) p) p) / p),
        fun fuel hf => ?_⟩
      obtain ⟨f, rfl⟩ : ∃ f, fuel = f + 1 := ⟨fuel - 1, by omega⟩
      exact tbd_none f A B p hp hA hB hAz hBz perm w loss add
  | succ n ih =>
    intro A B p perm w loss add hp hA hB hd
    have h1 : A.count 0 ≤ A.length := List.count_le_length 0 A
    have h2 : B.count 0 ≤ B.length := List.count_le_length 0 B
    unfold depthBound at hd
    by_cases ht : A.count 0 = A.length ∨ B.count 0 = B.length
    · refine ⟨some 100, fun fuel hf => ?_⟩
      obtain ⟨f, rfl⟩ : ∃ f, fuel = f + 1 := ⟨fuel - 1, by omega⟩
      exact tbd_total f A B p hp hA hB
        (ht.imp (count_zero_eq_length_iff A).1 (count_zero_eq_length_iff B).1) perm w loss add
    · rw [if_neg ht] at hd
      rw [not_or] at ht
      have hA0 : A.count 0 < p := by omega
      have hB0 : B.count 0 < p := by omega
      by_cases hb : 0 < A.count 0 ∧ 0 < B.count 0
      · -- both sides missing: one call on the reduced pair
        rw [if_pos hb] at hd
        have hm1 : min (A.count 0) (B.count 0) ≤ A.count 0 := min_le_left _ _
        have hm2 : min (A.count 0) (B.count 0) ≤ B.count 0 := min_le_right _ _
        have hm0 : 0 < min (A.count 0) (B.count 0) := lt_min hb.1 hb.2
        have hred : depthBound (removeZeros (min (A.count 0) (B.count 0)) A)
            (removeZeros (min (A.count 0) (B.count 0)) B) ≤ n := by
          unfold depthBound
          rw [removeZeros_count, removeZeros_count, removeZeros_length _ _ hm1,
            removeZeros_length _ _ hm2]
          have hnt : ¬ (A.count 0 - min (A.count 0) (B.count 0)
                = A.length - min (A.count 0) (B.count 0) ∨
              B.count 0 - min (A.count 0) (B.count 0)
                = B.length - min (A.count 0) (B.count 0)) := by omega
          rw [if_neg hnt]
          rcases le_total (A.count 0) (B.count 0) with hle | hle
          · rw [min_eq_left hle] at *
            rw [max_eq_right hle] at hd
            have hnb : ¬ (0 < A.count 0 - A.count 0 ∧ 0 < B.count 0 - A.count 0) := by omega
            rw [if_neg hnb]
            have e1 : max (A.count 0 - A.count 0) (B.count 0 - A.count 0)
                = B.count 0 - A.count 0 := by rw [Nat.sub_self]; exact Nat.zero_max _
            have e2 : min (A.count 0 - A.count 0) (B.count 0 - A.count 0) = 0 := by
              rw [Nat.sub_self]; exact Nat.zero_min _
            rw [e1, e2]; omega
          · rw [min_eq_right hle] at *
            rw [max_eq_left hle] at hd
            have hnb : ¬ (0 < A.count 0 - B.count 0 ∧ 0 < B.count 0 - B.count 0) := by omega
            rw [if_neg hnb]
            have e1 : max (A.count 0 - B.count 0) (B.count 0 - B.count 0)
                = A.count 0 - B.count 0 := by rw [Nat.sub_self]; exact Nat.max_zero _
            have e2 : min (A.count 0 - B.count 0) (B.count 0 - B.count 0) = 0 := by
              rw [Nat.sub_self]; exact Nat.min_zero _
            rw [e1, e2]; omega
        obtain ⟨v, hv⟩ := ih _ _ (p - min (A.count 0) (B.count 0))
          (permuto (p - min (A.count 0) (B.count 0)))
          (fact (p - min (A.count 0) (B.count 0)) * (p - min (A.count 0) (B.count 0)))
          loss add (by omega)
          (by rw [removeZeros_length _ _ hm1, hA])
          (by rw [removeZeros_length _ _ hm2, hB]) hred
        refine ⟨v, fun fuel hf => ?_⟩
        obtain ⟨f, rfl⟩ : ∃ f, fuel = f + 1 := ⟨fuel - 1, by omega⟩
        rw [tbd_both f A B p hA hB hA0 hB0 hb.1 hb.2]
        exact hv f (by omega)
      · rw [if_neg hb] at hd
        by_cases hsome : 0 < A.count 0 ∨ 0 < B.count 0
        · by_cases hinf : loss ≠ 1 ∧ add ≠ 1
          · refine ⟨some (mindist w p perm
                (flatten (infiniteModel (buildDist (A ++ B) p) p (A.count 0)
                  (if 0 < A.count 0 then strayIdx A p else zeroIdx B)
                  (if 0 < A.count 0 then A.count 0 else B.count 0)) p) / p),
                fun fuel hf => ?_⟩
            obtain ⟨f, rfl⟩ : ∃ f, fuel = f + 1 := ⟨fuel - 1, by omega⟩
            exact tbd_one_inf f A B p hA hB hA0 hB0 hb hsome perm w loss add hinf.1 hinf.2
          · by_cases hl : loss = 1
            · subst hl
              by_cases hstuck : 0 < A.count 0 ∧ A.getD (A.count 0) 0 ≠ 0
              · -- genotype 0 deficient and the refilled cell observed: no return
                exact ⟨none, fun fuel _ =>
                  loss_left_none fuel A B p perm w add hA hB hstuck.1 hA0 (by omega) hstuck.2⟩
              · -- the recursive calls of the loss loop have one zero less
                have hne : ∀ i, i < p → (if 0 < A.count 0 then 1 else 0) * p + i
                    ≠ (if 0 < A.count 0 then 0 else 1) * p
                      + (if 0 < A.count 0 then strayIdx A p else zeroIdx B).getD 0 0 := by
                  intro i hi
                  by_cases h0 : 0 < A.count 0
                  · simp only [h0, if_true, strayIdx_head A p h0 hA0]; omega
                  · simp only [h0, if_false]; omega
                have hrec : ∀ i, ∃ r : Option ℚ, i < p → ∀ fuel, n < fuel →
                    test_bruvo_dist_fuel fuel
                      ((A ++ B).set ((if 0 < A.count 0 then 0 else 1) * p
                          + (if 0 < A.count 0 then strayIdx A p else zeroIdx B).getD 0 0)
                        ((A ++ B).getD ((if 0 < A.count 0 then 1 else 0) * p + i) 0))
                      p perm w 1 add = r := by
                  intro i
                  by_cases hi : i < p
                  · by_cases h0 : 0 < A.count 0
                    · have hBz : B.count 0 = 0 := by omega
                      have hBn := (count_zero_eq_zero_iff B).1 hBz
                      have hcell : A.getD (A.count 0) 0 = 0 := by
                        by_contra hc; exact hstuck ⟨h0, hc⟩
                      have hv := getD_mem_ne_zero B i (by omega) hBn
                      have hcnt := count_set_zero A (A.count 0) (B.getD i 0) (by omega) hcell hv
                      have hdb : depthBound (A.set (A.count 0) (B.getD i 0)) B ≤ n := by
                        unfold depthBound
                        rw [List.length_set, hBz]
                        have hnt : ¬ ((A.set (A.count 0) (B.getD i 0)).count 0
                            = A.length ∨ 0 = B.length) := by omega
                        rw [if_neg hnt, if_neg (by omega)]
                        rw [hBz] at hd
                        simp only [Nat.max_zero, Nat.min_zero, Nat.sub_zero, zero_add] at hd ⊢
                        omega
                      obtain ⟨r, hr⟩ := ih (A.set (A.count 0) (B.getD i 0)) B p perm w
                        1 add hp (by simp [hA]) hB hdb
                      refine ⟨r, fun _ fuel hf => ?_⟩
                      simp only [h0, if_true, strayIdx_head A p h0 hA0]
                      rw [← hA, getD_append_right, set_append_left' _ _ _ _ (by omega), hA]
                      exact hr fuel hf
                    · have hAz : A.count 0 = 0 := by omega
                      have hAn := (count_zero_eq_zero_iff A).1 hAz
                      have hB1 : 0 < B.count 0 := by omega
                      have hz := zeroIdx_head B hB1
                      have hv := getD_mem_ne_zero A i (by omega) hAn
                      have hcnt := count_set_zero B _ (A.getD i 0) hz.1 hz.2 hv
                      have hdb : depthBound A (B.set ((zeroIdx B).getD 0 0) (A.getD i 0))
                          ≤ n := by
                        unfold depthBound
                        rw [List.length_set, hAz]
                        have hnt : ¬ (0 = A.length ∨
                            (B.set ((zeroIdx B).getD 0 0) (A.getD i 0)).count 0
                              = B.length) := by
                          omega
                        rw [if_neg hnt, if_neg (by omega)]
                        rw [hAz] at hd
                        simp only [Nat.zero_max, Nat.zero_min, Nat.sub_zero, zero_add] at hd ⊢
                        omega
                      obtain ⟨r, hr⟩ := ih A (B.set ((zeroIdx B).getD 0 0) (A.getD i 0)) p
                        perm w 1 add hp hA (by simp [hB]) hdb
                      refine ⟨r, fun _ fuel hf => ?_⟩
                      simp only [h0, if_false]
                      rw [← hA, getD_append_left _ _ _ (by omega), set_append_right', hA]
                      exact hr fuel hf
                  · exact ⟨none, fun h => absurd h hi⟩
                choose r hr using hrec
                refine ⟨((List.range p).foldl
                    (fun acc i => acc.bind fun s : ℚ => (r i).map fun v => s + v * p)
                    (some 0)).map fun genome_loss_sum =>
                    ((if add = 1 then
                        genomeAdd (buildDist (A ++ B) p) w p perm (A.count 0)
                          ((if 0 < A.count 0 then strayIdx A p else zeroIdx B).getD 0 0)
                      else 0) / (((p : Int) - 1 : Int) : ℚ) + genome_loss_sum / (p : ℚ))
                      / (((p : Int) * (1 + add) : Int) : ℚ), fun fuel hf => ?_⟩
                obtain ⟨f, rfl⟩ : ∃ f, fuel = f + 1 := ⟨fuel - 1, by omega⟩
                rw [tbd_one_model f A B p hA hB hA0 hB0 hb hsome perm w 1 add hinf,
                  if_pos rfl,
                  loss_fold_free (A ++ B) p
                    ((if 0 < A.count 0 then 0 else 1) * p
                      + (if 0 < A.count 0 then strayIdx A p else zeroIdx B).getD 0 0)
                    (fun i => (if 0 < A.count 0 then 1 else 0) * p + i) hne
                    (fun g => test_bruvo_dist_fuel f g p perm w 1 add) p (le_refl p)]
                congr 1
                apply List.foldl_ext
                intro acc i hi
                rw [hr i (List.mem_range.1 hi) f (by omega)]
            · -- genome addition only: no recursive call
              have ha : add = 1 := by
                by_contra ha; exact hinf ⟨hl, ha⟩
              refine ⟨some (((if add = 1 then
                    genomeAdd (buildDist (A ++ B) p) w p perm (A.count 0)
                      ((if 0 < A.count 0 then strayIdx A p else zeroIdx B).getD 0 0)
                  else 0) / (((p : Int) - 1 : Int) : ℚ) + (0 : ℚ) / (p : ℚ))
                  / (((p : Int) * (loss + add) : Int) : ℚ)), fun fuel hf => ?_⟩
              obtain ⟨f, rfl⟩ : ∃ f, fuel = f + 1 := ⟨fuel - 1, by omega⟩
              rw [tbd_one_model f A B p hA hB hA0 hB0 hb hsome perm w loss add hinf,
                if_neg hl]
              rfl
        · have hAz : A.count 0 = 0 := by omega
          have hBz : B.count 0 = 0 := by omega
          refine ⟨some (mindist w p perm (flatten (buildDist (A ++ B) p) p) / p),
            fun fuel hf => ?_⟩
          obtain ⟨f, rfl⟩ : ∃ f, fuel = f + 1 := ⟨fuel - 1, by omega⟩
          exact tbd_none f A B p hp hA hB hAz hBz perm w loss add

/-! ## The cursor of the generator -/

theorem permuto_state_fst (c per : Nat) : (permuto_state c per).1 = permuto per := by
  unfold permuto_state permuto
  by_cases h : per = 0
  · simp [h]
  · simp [h]

theorem permuto_state_snd (c p : Nat) (hp : 1 ≤ p) :
    (permuto_state c p).2 = p * p.factorial := by
  have hlen : ∀ t ∈ (arrangements p (List.range p)).map fun t => ([] ++ t).reverse,
      t.length = p := by
    intro t ht
    simp only [List.mem_map] at ht
    obtain ⟨u, hu, rfl⟩ := ht
    simpa using arrangements_length_mem p (List.range p) (by simp) u hu
  have hbl : (blocksFrom [] p (List.range p)).length = p.factorial * p := by
    unfold blocksFrom
    rw [← List.flatMap_id, length_flatMap_const _ _ p (by simpa using hlen)]
    simp [arrangements_length p _ hp]
  have h := permuteAux_eq p 0 (p - 1) [] (List.range p)
    (List.replicate (fact p * p) 0) 0 rfl (by simp) (by omega) hp
    (by rw [hbl, fact_eq]; simp)
  unfold permuto_state permute
  have e : p - 1 + 1 - 0 = p := by omega
  simp only [e, if_neg (show p ≠ 0 by omega)]
  simp only [List.nil_append] at h
  rw [h, hbl]
  simp [Nat.mul_comm]

/-! ## The first block of the table -/

theorem arrangements_first (d : Nat) (s : List Nat) (hd : 1 ≤ d) (hs : s.length = d) :
    (arrangements d s).head? = some s := by
  induction d generalizing s with
  | zero => omega
  | succ d ih =>
    rw [arrangements]
    by_cases h0 : d = 0
    · simp [h0]
    · rw [if_neg h0, List.range_succ_eq_map]
      simp only [List.flatMap_cons, swap_self_zero]
      have hst : s.tail.length = d := by simp [hs]
      have h1 := ih s.tail (by omega) hst
      cases hs2 : s with
      | nil => rw [hs2] at hs; simp at hs
      | cons x xs =>
        rw [hs2] at h1
        simp only [List.tail_cons] at h1
        simp only [List.tail_cons, List.headD_cons]
        cases ha : arrangements d xs with
        | nil => rw [ha] at h1; simp at h1
        | cons t ts =>
          rw [ha] at h1
          simp only [List.head?_cons, Option.some.injEq] at h1
          simp [h1]

theorem permuto_first_block (p : Nat) (hp : 1 ≤ p) :
    (blocksOf p (permuto p)).head? = some (List.range p).reverse := by
  rw [blocksOf_permuto p hp, List.head?_map, arrangements_first p _ hp (by simp)]
  rfl

/-! ## The fast path and missing data -/

theorem zero_cell (A B : List Int) (p : Nat) (hA : A.length = p) (hB : B.length = p)
    (h : ∃ x ∈ A ++ B, x = 0) :
    (List.range (2 * p)).any (fun counter => (A ++ B).getD counter 0 == 0) = true := by
  obtain ⟨x, hx, rfl⟩ := h
  obtain ⟨c, hc, hcx⟩ := List.mem_iff_getElem.1 hx
  rw [List.any_eq_true]
  refine ⟨c, List.mem_range.2 (by simp [hA, hB] at hc; omega), ?_⟩
  simp [List.getD_eq_getElem?_getD, List.getElem?_eq_getElem hc, hcx]

theorem bruvo_dist_missing (A B : List Int) (p : Nat) (hA : A.length = p) (hB : B.length = p)
    (h : ∃ x ∈ A ++ B, x = 0) (perm : List Nat) (w : Nat) :
    bruvo_dist (A ++ B) p perm w = 100 := by
  unfold bruvo_dist
  simp only [zero_cell A B p hA hB h, if_true]

theorem bruvo_dist_bounds (A B : List Int) (p : Nat) (hp : 1 ≤ p) (hA : A.length = p)
    (hB : B.length = p) (hA0 : ∀ x ∈ A, x ≠ 0) (hB0 : ∀ x ∈ B, x ≠ 0) :
    0 ≤ bruvo_dist (A ++ B) p (permuto p) (permuto p).length ∧
    bruvo_dist (A ++ B) p (permuto p) (permuto p).length < 1 := by
  obtain ⟨x, hx, he⟩ := bruvo_dist_eq A B p hp hA hB hA0 hB0
  have hp0 : (0 : ℚ) < p := by exact_mod_cast hp
  rw [he]
  constructor
  · apply div_nonneg _ (le_of_lt hp0)
    rcases hx.2.2 with h | h
    · rw [h]; norm_num
    · exact permCosts_nonneg A B p x h
  · rw [div_lt_one hp0]
    exact lt_of_le_of_lt (hx.2.1 _ ⟨1, rfl⟩) (permCosts_lt A B p hp _ ⟨1, rfl⟩)

/-! ## The infinite model with any number of missing alleles -/

theorem mem_take_succ (zeros : List Nat) (zc i : Nat) (hzc : zc < zeros.length) :
    i ∈ zeros.take (zc + 1) ↔ i ∈ zeros.take zc ∨ i = zeros.getD zc 0 := by
  rw [List.take_succ, List.mem_append]
  simp [List.getD_eq_getElem?_getD, List.getElem?_eq_getElem hzc, eq_comm]

theorem infiniteModel_rows (M : Nat → Nat → ℚ) (p z0 : Nat) (hz : z0 > 0) (zeros : List Nat)
    (zc : Nat) (hzc : zc ≤ zeros.length) (i j : Nat) (hj : j < p) :
    infiniteModel M p z0 zeros zc i j = if i ∈ zeros.take zc then 1 else M i j := by
  unfold infiniteModel
  simp only [hz, if_true]
  induction zc with
  | zero => simp
  | succ zc ih =>
    rw [List.range_succ, List.foldl_append]
    simp only [List.foldl_cons, List.foldl_nil]
    rw [rowOnes_eq]
    simp only [hj, and_true]
    rw [ih (by omega)]
    by_cases h1 : i = zeros.getD zc 0
    · simp [h1, mem_take_succ zeros zc _ (by omega)]
    · simp only [h1, if_false, mem_take_succ zeros zc i (by omega), or_false]

theorem infiniteModel_cols (M : Nat → Nat → ℚ) (p : Nat) (zeros : List Nat)
    (zc : Nat) (hzc : zc ≤ zeros.length) (i j : Nat) (hi : i < p) :
    infiniteModel M p 0 zeros zc i j = if j ∈ zeros.take zc then 1 else M i j := by
  unfold infiniteModel
  simp only [gt_iff_lt, lt_irrefl, if_false]
  induction zc with
  | zero => simp
  | succ zc ih =>
    rw [List.range_succ, List.foldl_append]
    simp only [List.foldl_cons, List.foldl_nil]
    rw [colOnes_eq]
    simp only [hi, true_and]
    rw [ih (by omega)]
    by_cases h1 : j = zeros.getD zc 0
    · simp [h1, mem_take_succ zeros zc _ (by omega)]
    · simp only [h1, if_false, mem_take_succ zeros zc j (by omega), or_false]

theorem mem_zeroIdx (D : List Int) (i : Nat) :
    i ∈ zeroIdx D ↔ i < D.length ∧ D.getD i 0 = 0 := by
  unfold zeroIdx
  rw [List.mem_filter, List.mem_range]
  simp

/-- On the generated table `mindist` depends only on the entries inside the
`p × p` matrix. -/
theorem mindist_congr (M N : Nat → Nat → ℚ) (p : Nat) (hp : 1 ≤ p)
    (h : ∀ i j, i < p → j < p → M i j = N i j) :
    mindist (permuto p).length p (permuto p) (flatten M p)
      = mindist (permuto p).length p (permuto p) (flatten N p) := by
  have h1 := mindist_isCapMin M p hp
  have h2 := mindist_isCapMin N p hp
  rw [permCosts_congr M N p h] at h1
  exact h1.unique h2

/-- Infinite model, genotype 1 deficient: every column of a missing allele is `1`. -/
theorem infinite_all_right (f : Nat) (D Fu : List Int) (p : Nat) (hp : 1 ≤ p)
    (hD : D.length = p) (hF : Fu.length = p) (hD1 : 0 < D.count 0) (hD2 : D.count 0 < p)
    (hF0 : ∀ x ∈ Fu, x ≠ 0) :
    test_bruvo_dist_fuel (f + 1) (Fu ++ D) p (permuto p) (permuto p).length 0 0
      = some (mindist (permuto p).length p (permuto p)
          (flatten (fun i j => if D.getD j 0 = 0 then 1
            else da (Fu.getD i 0) (D.getD j 0)) p) / p) := by
  have hFz : Fu.count 0 = 0 := (count_zero_eq_zero_iff Fu).2 hF0
  rw [tbd_one_inf f Fu D p hF hD (by omega) hD2 (by omega) (Or.inr hD1) _ _ 0 0
    (by decide) (by decide)]
  simp only [hFz, lt_irrefl, if_false]
  congr 2
  apply mindist_congr _ _ p hp
  intro i j hi hj
  rw [infiniteModel_cols _ p _ _ (by rw [zeroIdx_length]) i j hi, buildDist_eq]
  have hl : (zeroIdx D).take (D.count 0) = zeroIdx D := by
    rw [← zeroIdx_length]; exact List.take_length _
  have hj2 : j < D.length := by omega
  have hi2 : i < Fu.length := by omega
  rw [hl]
  by_cases hz : D.getD j 0 = 0
  · rw [if_pos ((mem_zeroIdx D j).2 ⟨hj2, hz⟩), if_pos hz]
  · rw [if_neg (fun hm => hz ((mem_zeroIdx D j).1 hm).2), if_neg hz]
    simp [hi, hj, List.getD_eq_getElem?_getD, List.getElem?_append_left hi2,
      List.getElem?_append_right, hF]

/-! ## `mindist` on an arbitrary table of whole blocks -/

/-- The loop of `mindist` over a table of whole blocks with entries below `p`,
for a matrix given by its two-dimensional view: block `blk` contributes
`Σ_k M k (blk k)`. -/
theorem mindist_blocks_eq (M : Nat → Nat → ℚ) (p : Nat) (hp : 1 ≤ p) (T : List Nat) (m : Nat)
    (hT : T.length = m * p) (hlt : ∀ v ∈ T, v < p) :
    mindist T.length p T (flatten M p)
      = capMin ((blocksOf p T).map fun blk => ∑ k in Finset.range p, M k (blk.getD k 0)) := by
  rw [mindist_eq (flatten M p) p hp T m hT]
  congr 1
  apply List.map_congr_left
  intro blk hblk
  unfold blockCost
  apply Finset.sum_congr rfl
  intro k hk
  have hk2 := Finset.mem_range.1 hk
  have hv : blk.getD k 0 < p := by
    simp only [blocksOf, List.mem_map, List.mem_range] at hblk
    obtain ⟨b, hb, rfl⟩ := hblk
    by_cases hkk : k < ((T.drop (b * p)).take p).length
    · simp only [List.getD_eq_getElem?_getD, List.getElem?_eq_getElem hkk, Option.getD_some]
      exact hlt _ (List.mem_of_mem_drop (List.mem_of_mem_take (List.getElem_mem hkk)))
    · rw [List.getD_eq_default _ _ (by omega)]; omega
  exact flatten_cell M p _ k hv

/-! ## The arguments of the recursive calls -/

theorem removeZeros_filter (n : Nat) (g : List Int) :
    (removeZeros n g).filter (fun x => x ≠ 0) = g.filter (fun x => x ≠ 0) := by
  induction g generalizing n with
  | nil => simp [removeZeros]
  | cons x xs ih =>
    rw [removeZeros]
    by_cases hx : x = 0
    · subst hx
      by_cases hn : n > 0
      · rw [if_pos ⟨rfl, hn⟩, ih (n - 1), List.filter_cons_of_neg (by simp)]
      · rw [if_neg (fun h => hn h.2), List.filter_cons_of_neg (by simp),
          List.filter_cons_of_neg (by simp), ih n]
    · rw [if_neg (fun h => hx h.1), List.filter_cons_of_pos (by simpa using hx),
        List.filter_cons_of_pos (by simpa using hx), ih n]

/-- The pair handed to the recursive call of the both-sides branch. -/
theorem new_geno_eq (A B : List Int) (p m : Nat) (hA : A.length = p) (hB : B.length = p) :
    dropZeros (A ++ B) p 1 m (dropZeros (A ++ B) p 0 m [])
      = removeZeros m A ++ removeZeros m B := by
  rw [dropZeros_eq, dropZeros_eq, geno_left A B p hA, geno_right A B p hA hB]
  simp

/-- The outcome on the reduced pair does not depend on the nesting allowance. -/
theorem tbd_both_top (A B : List Int) (p : Nat) (hA : A.length = p)
    (hB : B.length = p) (hA0 : A.count 0 < p) (hB0 : B.count 0 < p)
    (hA1 : 0 < A.count 0) (hB1 : 0 < B.count 0)
    (perm : List Nat) (w : Nat) (loss add : Int) :
    test_bruvo_dist (A ++ B) p perm w loss add =
      test_bruvo_dist
        (removeZeros (min (A.count 0) (B.count 0)) A ++
          removeZeros (min (A.count 0) (B.count 0)) B)
        (p - min (A.count 0) (B.count 0))
        (permuto (p - min (A.count 0) (B.count 0)))
        (permuto (p - min (A.count 0) (B.count 0))).length loss add := by
  have hm1 : min (A.count 0) (B.count 0) ≤ A.count 0 := min_le_left _ _
  have hm2 : min (A.count 0) (B.count 0) ≤ B.count 0 := min_le_right _ _
  have hp' : 1 ≤ p - min (A.count 0) (B.count 0) := by omega
  have hlA := removeZeros_length _ _ hm1
  have hlB := removeZeros_length _ _ hm2
  unfold test_bruvo_dist
  rw [tbd_both (2 * p) A B p hA hB hA0 hB0 hA1 hB1, fact_mul_eq_length _ hp']
  have hdb := depthBound_lt _ _ (p - min (A.count 0) (B.count 0)) hp'
    (by rw [hlA, hA]) (by rw [hlB, hB])
  obtain ⟨v, hv⟩ := tbd_stable _ _ _ (p - min (A.count 0) (B.count 0))
    (permuto (p - min (A.count 0) (B.count 0)))
    (permuto (p - min (A.count 0) (B.count 0))).length loss add hp'
    (by rw [hlA, hA]) (by rw [hlB, hB]) (le_refl _)
  rw [hv (2 * p) (by omega), hv (2 * (p - min (A.count 0) (B.count 0)) + 1) (by omega)]

/-! ## Two evaluations of the embedding -/

/-- The fast path on the pair `[20,23,24,26]`, `[20,24,26,43]`: three alleles
match exactly and `23` is paired with `43`, so the value is `(1 - 2^(-20)) / 4`. -/
theorem bruvo_dist_example :
    bruvo_dist [20, 23, 24, 26, 20, 24, 26, 43] 4 (permuto 4) (permuto 4).length
      = 1048575 / 4194304 := by
  decide!

/-- The call `single_bruvo(c(20,23,24,0,20,24,26,43), permuto(4), 4, 0, 0)` of the
comment in the source, the deficient genotype first: the scan leaves index `1`
in `zero_ind[0][0]`, row `1` is forced to `1`, and the value is
`(2 - 2^(-26)) / 4`. -/
theorem single_bruvo_example :
    single_bruvo [20, 23, 24, 0, 20, 24, 26, 43] (permuto 4) 4 0 0
      = some (134217727 / 268435456) := by
  decide!

/-! ## Claims about the resolver -/

/-- C6. For fully observed genotypes of ploidy `p ≥ 1` and the table `permuto p`,
the resolver `test_bruvo_dist` returns, for all values of the flags, the value
of the fast path `bruvo_dist`. -/
theorem test_bruvo_dist_no_missing (p : Nat) (hp : 1 ≤ p) (A B : List Int)
    (hA : A.length = p) (hB : B.length = p)
    (hA0 : ∀ x ∈ A, x ≠ 0) (hB0 : ∀ x ∈ B, x ≠ 0) (loss add : Int) :
    test_bruvo_dist (A ++ B) p (permuto p) (permuto p).length loss add
      = some (bruvo_dist (A ++ B) p (permuto p) (permuto p).length) :=
  tbd_none_eq_bruvo (2 * p) A B p hp hA hB hA0 hB0 loss add

/-- Instance of C6 at the pair `[20,23,24,26]`, `[20,24,26,43]`, both flags set. -/
theorem test_bruvo_dist_no_missing_witness :
    test_bruvo_dist ([20, 23, 24, 26] ++ [20, 24, 26, 43]) 4 (permuto 4) (permuto 4).length 1 1
      = some (bruvo_dist ([20, 23, 24, 26] ++ [20, 24, 26, 43]) 4 (permuto 4)
          (permuto 4).length) :=
  test_bruvo_dist_no_missing 4 (by decide) [20, 23, 24, 26] [20, 24, 26, 43] rfl rfl
    (by decide) (by decide) 1 1

/-- C7. For ploidy `p ≥ 1`, every table and all flags: when all alleles of
genotype 0 are `0`, or all alleles of genotype 1 are `0`, `test_bruvo_dist`
returns the marker `100` (not divided by `p`). -/
theorem test_bruvo_dist_total_missing (p : Nat) (hp : 1 ≤ p) (A B : List Int)
    (hA : A.length = p) (hB : B.length = p)
    (h : (∀ x ∈ A, x = 0) ∨ (∀ x ∈ B, x = 0))
    (perm : List Nat) (w : Nat) (loss add : Int) :
    test_bruvo_dist (A ++ B) p perm w loss add = some 100 :=
  tbd_total (2 * p) A B p hp hA hB h perm w loss add

/-- Instance of C7: genotype 1 entirely missing, an arbitrary table. -/
theorem test_bruvo_dist_total_missing_witness :
    test_bruvo_dist ([20, 23, 24, 26] ++ [0, 0, 0, 0]) 4 [7, 7] 2 1 0 = some 100 :=
  test_bruvo_dist_total_missing 4 (by decide) [20, 23, 24, 26] [0, 0, 0, 0] rfl rfl
    (Or.inr (by decide)) [7, 7] 2 1 0

/-- C8 fails on the pair `[0,20]`, `[20,24]` of ploidy 2 with `loss = 1`: neither
genotype is entirely zero, yet for either value of `add` and whatever the
allowed nesting of calls, `test_bruvo_dist` returns no value. The scan leaves
index `1` in `zero_ind[0][0]` (written through `full_ind`), the loss loop
refills `genos[0][1]`, the zero at index `0` stays, and every nested call
repeats this. -/
theorem test_bruvo_dist_no_value :
    (∃ x ∈ ([0, 20] : List Int), x ≠ 0) ∧ (∃ x ∈ ([20, 24] : List Int), x ≠ 0) ∧
    (∀ (fuel : Nat) (add : Int),
      test_bruvo_dist_fuel fuel ([0, 20] ++ [20, 24]) 2 (permuto 2) (permuto 2).length 1 add
        = none) ∧
    test_bruvo_dist ([0, 20] ++ [20, 24]) 2 (permuto 2) (permuto 2).length 1 0 = none ∧
    test_bruvo_dist ([0, 20] ++ [20, 24]) 2 (permuto 2) (permuto 2).length 1 1 = none :=
  ⟨by decide, by decide,
    fun fuel add => loss_left_none fuel [0, 20] [20, 24] 2 _ _ add rfl rfl (by decide)
      (by decide) (by decide) (by decide),
    loss_left_none _ [0, 20] [20, 24] 2 _ _ 0 rfl rfl (by decide) (by decide) (by decide)
      (by decide),
    loss_left_none _ [0, 20] [20, 24] 2 _ _ 1 rfl rfl (by decide) (by decide) (by decide)
      (by decide)⟩

/-- C9. For `p ≥ 2` and `1 ≤ k < p`: when each genotype of the pair has exactly
`k` zero alleles, `test_bruvo_dist` (any table, any flags) returns the value of
`bruvo_dist` at ploidy `p - k`, with the table `permuto (p - k)`, on the two
genotypes with their zeros deleted and the other alleles kept in order. -/
theorem test_bruvo_dist_both_missing (p k : Nat) (hk : 1 ≤ k) (hkp : k < p) (A B : List Int)
    (hA : A.length = p) (hB : B.length = p) (hAk : A.count 0 = k) (hBk : B.count 0 = k)
    (perm : List Nat) (w : Nat) (loss add : Int) :
    test_bruvo_dist (A ++ B) p perm w loss add
      = some (bruvo_dist (A.filter (fun x => x ≠ 0) ++ B.filter (fun x => x ≠ 0)) (p - k)
          (permuto (p - k)) (permuto (p - k)).length) := by
  unfold test_bruvo_dist
  rw [tbd_both (2 * p) A B p hA hB (by omega) (by omega) (by omega) (by omega)]
  rw [hAk, hBk, min_self]
  have hA' := removeZeros_all A k (by omega)
  have hB' := removeZeros_all B k (by omega)
  have hlA := removeZeros_length k A (by omega)
  have hlB := removeZeros_length k B (by omega)
  rw [hA'] at hlA
  rw [hB'] at hlB
  rw [hA', hB', fact_mul_eq_length (p - k) (by omega)]
  obtain ⟨f, hf⟩ : ∃ f, 2 * p = f + 1 := ⟨2 * p - 1, by omega⟩
  rw [hf]
  exact tbd_none_eq_bruvo f _ _ (p - k) (by omega) (by rw [hlA, hA]) (by rw [hlB, hB])
    (fun x hx => by simpa using (List.mem_filter.1 hx).2)
    (fun x hx => by simpa using (List.mem_filter.1 hx).2) loss add

/-- Instance of C9: two ploidy-4 genotypes, each missing one allele, at
different positions. -/
theorem test_bruvo_dist_both_missing_witness :
    test_bruvo_dist ([20, 23, 24, 0] ++ [0, 24, 26, 43]) 4 (permuto 4) (permuto 4).length 0 0
      = some (bruvo_dist (([20, 23, 24, 0] : List Int).filter (fun x => x ≠ 0) ++
            ([0, 24, 26, 43] : List Int).filter (fun x => x ≠ 0)) (4 - 1)
          (permuto (4 - 1)) (permuto (4 - 1)).length) :=
  test_bruvo_dist_both_missing 4 1 (by decide) (by decide) [20, 23, 24, 0] [0, 24, 26, 43]
    rfl rfl (by decide) (by decide) (permuto 4) (permuto 4).length 0 0

/-- C10 fails on its own pair `[20,23,24,0]`, `[20,24,26,43]` when the deficient
genotype is passed first: the claimed value is `(1 + c) / 4 = 15/32` with
`c = 7/8` the best assignment of `20, 23, 24`, and the resolver returns it when
the deficient genotype is passed second; passed first, the scan leaves index
`1` in `zero_ind[0][0]` (written through `full_ind`), the row of the observed
allele `23` is forced to `1` in place of the row of the missing allele, and the
result is `134217727/268435456`. -/
theorem infinite_model_wrong_row :
    test_bruvo_dist ([20, 23, 24, 0] ++ [20, 24, 26, 43]) 4 (permuto 4) (permuto 4).length 0 0
      = some (134217727 / 268435456) ∧
    (1 + bestAssign [20, 23, 24, 0] [20, 24, 26, 43] 4 3) / (4 : ℚ) = 15 / 32 ∧
    test_bruvo_dist ([20, 24, 26, 43] ++ [20, 23, 24, 0]) 4 (permuto 4) (permuto 4).length 0 0
      = some (15 / 32) := by
  have h2 : test_bruvo_dist ([20, 24, 26, 43] ++ [20, 23, 24, 0]) 4 (permuto 4)
      (permuto 4).length 0 0 = some (15 / 32) := by
    decide!
  refine ⟨by decide!, ?_, h2⟩
  have hv := infinite_value_right (2 * 4) [20, 23, 24, 0] [20, 24, 26, 43] 4 (by decide)
    rfl rfl 3 (by decide) (by decide) (by decide)
  have hb := bestAssign_lt [20, 23, 24, 0] [20, 24, 26, 43] 4 3
  unfold test_bruvo_dist at h2
  rw [hv] at h2
  have h3 := Option.some.inj h2
  rw [min_eq_right (le_trans hb (by norm_num))] at h3
  simpa using h3

/-! ## Claims about the addition and loss models -/

/-- C11 fails on the pair `[20,23,24,0]`, `[20,24,26,43]` with `add = 1`,
`loss = 0` when the deficient genotype is passed first: the claimed value is the
mean `15379109/33554432` of `bruvo_dist` over the three pairs in which the
missing allele is replaced by `20`, `23`, `24`, and the resolver returns it when
the deficient genotype is passed second; passed first, the scan leaves index
`1` in `zero_ind[0][0]` (written through `full_ind`), the donor rows overwrite
the row of the observed allele `23`, and the result is
`16813365264383/35184372088832`. -/
theorem genome_addition_wrong_row :
    test_bruvo_dist ([20, 23, 24, 0] ++ [20, 24, 26, 43]) 4 (permuto 4) (permuto 4).length 0 1
      = some (16813365264383 / 35184372088832) ∧
    (bruvo_dist ([20, 23, 24, 20] ++ [20, 24, 26, 43]) 4 (permuto 4) (permuto 4).length
      + bruvo_dist ([20, 23, 24, 23] ++ [20, 24, 26, 43]) 4 (permuto 4) (permuto 4).length
      + bruvo_dist ([20, 23, 24, 24] ++ [20, 24, 26, 43]) 4 (permuto 4) (permuto 4).length) / 3
      = 15379109 / 33554432 ∧
    test_bruvo_dist ([20, 24, 26, 43] ++ [20, 23, 24, 0]) 4 (permuto 4) (permuto 4).length 0 1
      = some (15379109 / 33554432) := by
  refine ⟨by decide!, ?_, by decide!⟩
  have h1 : bruvo_dist ([20, 23, 24, 20] ++ [20, 24, 26, 43]) 4 (permuto 4) (permuto 4).length
      = 15728639 / 33554432 := by decide!
  have h2 : bruvo_dist ([20, 23, 24, 23] ++ [20, 24, 26, 43]) 4 (permuto 4) (permuto 4).length
      = 1966079 / 4194304 := by decide!
  have h3 : bruvo_dist ([20, 23, 24, 24] ++ [20, 24, 26, 43]) 4 (permuto 4) (permuto 4).length
      = 1835007 / 4194304 := by decide!
  rw [h1, h2, h3]
  norm_num

/-- C12 fails on the pair `[20,23,24,0]`, `[20,24,26,43]` with `loss = 1`,
`add = 0` when the deficient genotype is passed first: the claimed value is the
mean `46137327/134217728` of `bruvo_dist` over the four pairs in which the
missing allele is replaced by `20`, `24`, `26`, `43`, and the resolver returns
it when the deficient genotype is passed second; passed first, the scan leaves
index `1` in `zero_ind[0][0]` (written through `full_ind`), the loss loop
refills `genos[0][1]`, the zero at index `3` stays, and whatever the allowed
nesting of calls no value is returned. -/
theorem genome_loss_no_return :
    (∀ fuel : Nat,
      test_bruvo_dist_fuel fuel ([20, 23, 24, 0] ++ [20, 24, 26, 43]) 4 (permuto 4)
        (permuto 4).length 1 0 = none) ∧
    (bruvo_dist ([20, 23, 24, 20] ++ [20, 24, 26, 43]) 4 (permuto 4) (permuto 4).length
      + bruvo_dist ([20, 23, 24, 24] ++ [20, 24, 26, 43]) 4 (permuto 4) (permuto 4).length
      + bruvo_dist ([20, 23, 24, 26] ++ [20, 24, 26, 43]) 4 (permuto 4) (permuto 4).length
      + bruvo_dist ([20, 23, 24, 43] ++ [20, 24, 26, 43]) 4 (permuto 4) (permuto 4).length) / 4
      = 46137327 / 134217728 ∧
    test_bruvo_dist ([20, 24, 26, 43] ++ [20, 23, 24, 0]) 4 (permuto 4) (permuto 4).length 1 0
      = some (46137327 / 134217728) := by
  refine ⟨fun fuel => loss_left_none fuel [20, 23, 24, 0] [20, 24, 26, 43] 4 _ _ 0 rfl rfl
    (by decide) (by decide) (by decide) (by decide), ?_, by decide!⟩
  have h1 : bruvo_dist ([20, 23, 24, 20] ++ [20, 24, 26, 43]) 4 (permuto 4) (permuto 4).length
      = 15728639 / 33554432 := by decide!
  have h2 : bruvo_dist ([20, 23, 24, 24] ++ [20, 24, 26, 43]) 4 (permuto 4) (permuto 4).length
      = 1835007 / 4194304 := by decide!
  have h3 : bruvo_dist ([20, 23, 24, 26] ++ [20, 24, 26, 43]) 4 (permuto 4) (permuto 4).length
      = 1048575 / 4194304 := by decide!
  have h4 : bruvo_dist ([20, 23, 24, 43] ++ [20, 24, 26, 43]) 4 (permuto 4) (permuto 4).length
      = 7 / 32 := by decide!
  rw [h1, h2, h3, h4]
  norm_num

/-- C13 fails on its own pair `[20,23,24,0]`, `[20,24,26,43]` when the deficient
genotype is passed first: with `loss = 1` and `add = 1`, whatever the allowed
nesting of calls, no value is returned (the loss loop refills `genos[0][1]` and
the zero at index `3` stays), and the run with `loss = 1`, `add = 0` returns
none either, while the run with `loss = 0`, `add = 1` returns
`16813365264383/35184372088832`; with the deficient genotype passed second the
three runs return `107653763/268435456`, `46137327/134217728` and
`15379109/33554432`, the first being the average of the other two. -/
theorem combined_model_no_return :
    (∀ fuel : Nat,
      test_bruvo_dist_fuel fuel ([20, 23, 24, 0] ++ [20, 24, 26, 43]) 4 (permuto 4)
        (permuto 4).length 1 1 = none) ∧
    test_bruvo_dist ([20, 23, 24, 0] ++ [20, 24, 26, 43]) 4 (permuto 4) (permuto 4).length 1 1
      = none ∧
    test_bruvo_dist ([20, 23, 24, 0] ++ [20, 24, 26, 43]) 4 (permuto 4) (permuto 4).length 1 0
      = none ∧
    test_bruvo_dist ([20, 24, 26, 43] ++ [20, 23, 24, 0]) 4 (permuto 4) (permuto 4).length 1 1
      = some (107653763 / 268435456) ∧
    (107653763 / 268435456 : ℚ) = (46137327 / 134217728 + 15379109 / 33554432) / 2 := by
  refine ⟨fun fuel => loss_left_none fuel [20, 23, 24, 0] [20, 24, 26, 43] 4 _ _ 1 rfl rfl
    (by decide) (by decide) (by decide) (by decide),
    loss_left_none _ [20, 23, 24, 0] [20, 24, 26, 43] 4 _ _ 1 rfl rfl
      (by decide) (by decide) (by decide) (by decide),
    loss_left_none _ [20, 23, 24, 0] [20, 24, 26, 43] 4 _ _ 0 rfl rfl
      (by decide) (by decide) (by decide) (by decide), by decide!, by norm_num⟩

/-! ## Claims about the sentinel, the cursor and the selectors -/

/-- C14. For ploidy `p ≥ 1` and the table `permuto p`, `bruvo_dist` returns `100`
(not divided by `p`) when at least one of the `2p` input alleles is `0`, and a
value in `[0, 1]` otherwise; so `100` is returned exactly when an allele is
missing. -/
theorem bruvo_dist_missing_marker (p : Nat) (hp : 1 ≤ p) (A B : List Int)
    (hA : A.length = p) (hB : B.length = p) :
    ((∃ x ∈ A ++ B, x = 0) →
      bruvo_dist (A ++ B) p (permuto p) (permuto p).length = 100) ∧
    ((∀ x ∈ A ++ B, x ≠ 0) →
      0 ≤ bruvo_dist (A ++ B) p (permuto p) (permuto p).length ∧
      bruvo_dist (A ++ B) p (permuto p) (permuto p).length ≤ 1) ∧
    (bruvo_dist (A ++ B) p (permuto p) (permuto p).length = 100 ↔ ∃ x ∈ A ++ B, x = 0) := by
  have h1 : (∃ x ∈ A ++ B, x = 0) →
      bruvo_dist (A ++ B) p (permuto p) (permuto p).length = 100 :=
    fun h => bruvo_dist_missing A B p hA hB h _ _
  have h2 : (∀ x ∈ A ++ B, x ≠ 0) →
      0 ≤ bruvo_dist (A ++ B) p (permuto p) (permuto p).length ∧
      bruvo_dist (A ++ B) p (permuto p) (permuto p).length ≤ 1 := by
    intro h
    have hb := bruvo_dist_bounds A B p hp hA hB
      (fun x hx => h x (List.mem_append_left _ hx))
      (fun x hx => h x (List.mem_append_right _ hx))
    exact ⟨hb.1, le_of_lt hb.2⟩
  refine ⟨h1, h2, ?_, h1⟩
  intro h100
  by_contra hnot
  have hall : ∀ x ∈ A ++ B, x ≠ 0 := fun x hx hx0 => hnot ⟨x, hx, hx0⟩
  have := (h2 hall).2
  rw [h100] at this
  norm_num at this

/-- Instance of C14 at the pair `[20,23,24,0]`, `[20,24,26,43]`. -/
theorem bruvo_dist_missing_marker_witness :
    ((∃ x ∈ ([20, 23, 24, 0] : List Int) ++ [20, 24, 26, 43], x = 0) →
      bruvo_dist ([20, 23, 24, 0] ++ [20, 24, 26, 43]) 4 (permuto 4) (permuto 4).length = 100) ∧
    ((∀ x ∈ ([20, 23, 24, 0] : List Int) ++ [20, 24, 26, 43], x ≠ 0) →
      0 ≤ bruvo_dist ([20, 23, 24, 0] ++ [20, 24, 26, 43]) 4 (permuto 4) (permuto 4).length ∧
      bruvo_dist ([20, 23, 24, 0] ++ [20, 24, 26, 43]) 4 (permuto 4) (permuto 4).length ≤ 1) ∧
    (bruvo_dist ([20, 23, 24, 0] ++ [20, 24, 26, 43]) 4 (permuto 4) (permuto 4).length = 100
      ↔ ∃ x ∈ ([20, 23, 24, 0] : List Int) ++ [20, 24, 26, 43], x = 0) :=
  bruvo_dist_missing_marker 4 (by decide) [20, 23, 24, 0] [20, 24, 26, 43] rfl rfl

/-- Without the reset of `permuto`, `permute` started from a cursor left by an
earlier call writes at an offset: from cursor `2`, ploidy 2, the first block
lands in cells `2, 3` and the second outside the buffer. -/
theorem permute_cursor_example :
    (permute [0, 1] 0 1 [0, 0, 0, 0] 2).c = [0, 0, 1, 0] ∧ permuto 2 = [1, 0, 0, 1] := by
  decide

/-- C15. With the cursor `perm_count` as explicit state, for ploidy `p ≥ 1` and
any two values `c1`, `c2` of the cursor before the call, `permuto p` returns
the same table (the one of the cursor-free `permuto`); the call leaves the
cursor at `p * p!`, and a second call started from that, or from the cursor left
by a generation for any other ploidy `r`, returns the same table again. -/
theorem permuto_deterministic (p : Nat) (hp : 1 ≤ p) (c1 c2 : Nat) :
    (permuto_state c1 p).1 = (permuto_state c2 p).1 ∧
    (permuto_state c1 p).1 = permuto p ∧
    (permuto_state c1 p).2 = p * p.factorial ∧
    (permuto_state (permuto_state c1 p).2 p).1 = (permuto_state c1 p).1 ∧
    (∀ r, (permuto_state (permuto_state c1 r).2 p).1 = (permuto_state c1 p).1) := by
  refine ⟨?_, permuto_state_fst c1 p, permuto_state_snd c1 p hp, ?_, ?_⟩
  · rw [permuto_state_fst, permuto_state_fst]
  · rw [permuto_state_fst, permuto_state_fst]
  · intro r
    rw [permuto_state_fst, permuto_state_fst]

/-- Instance of C15 at ploidy 3, cursors `0` and `18`. -/
theorem permuto_deterministic_witness :
    (permuto_state 0 3).1 = (permuto_state 18 3).1 ∧
    (permuto_state 0 3).1 = permuto 3 ∧
    (permuto_state 0 3).2 = 3 * Nat.factorial 3 ∧
    (permuto_state (permuto_state 0 3).2 3).1 = (permuto_state 0 3).1 ∧
    (∀ r, (permuto_state (permuto_state 0 r).2 3).1 = (permuto_state 0 3).1) :=
  permuto_deterministic 3 (by decide) 0 18

/-- C16, as stated, fails on the one-block table `[1, 2, 0]` at ploidy 3 with
the matrix of the pair `[1,2,3]`, `[2,3,1]`: the sum `Σ_k matrix[perm[k]][k]`
of that block is `0`, and `mindist` returns `7/4`, the sum `Σ_k matrix[k][perm[k]]`. -/
theorem mindist_not_bruvo_sum :
    mindist 3 3 [1, 2, 0] (flatten (buildDist [1, 2, 3, 2, 3, 1] 3) 3)
      ≠ buildDist [1, 2, 3, 2, 3, 1] 3 1 0 + buildDist [1, 2, 3, 2, 3, 1] 3 2 1
        + buildDist [1, 2, 3, 2, 3, 1] 3 0 2 := by
  decide!

/-- C16, amended. For `p ≥ 1`, a `p × p` matrix passed as its row-major array
and a table of whole blocks with entries in `[0, p)`, `mindist` returns the
smaller of `100` and the minimum over the blocks of `Σ_k matrix[k][perm[k]]`
(the transposed reading of the `dist[perm[k]][k]` of `bruvo_dist`); on the
table `permuto p` this equals the running minimum that the selection loop of
`bruvo_dist` forms. -/
theorem mindist_blocks (p : Nat) (hp : 1 ≤ p) (M : Nat → Nat → ℚ) (T : List Nat) (m : Nat)
    (hT : T.length = m * p) (hlt : ∀ v ∈ T, v < p) :
    mindist T.length p T (flatten M p) ≤ 100 ∧
    (∀ blk ∈ blocksOf p T,
      mindist T.length p T (flatten M p) ≤ ∑ k in Finset.range p, M k (blk.getD k 0)) ∧
    (mindist T.length p T (flatten M p) = 100 ∨
      ∃ blk ∈ blocksOf p T,
        mindist T.length p T (flatten M p) = ∑ k in Finset.range p, M k (blk.getD k 0)) ∧
    mindist (permuto p).length p (permuto p) (flatten M p)
      = ((List.range (outerIters (permuto p).length p)).foldl
          (fun s _ => bruvoBlock M p (permuto p) s)
          { counter := 0, res := 0, minn := 100 }).minn := by
  have h := capMin_isCapMin
    ((blocksOf p T).map fun blk => ∑ k in Finset.range p, M k (blk.getD k 0))
  rw [← mindist_blocks_eq M p hp T m hT hlt] at h
  refine ⟨h.1, ?_, ?_, ?_⟩
  · intro blk hblk
    exact h.2.1 _ (List.mem_map.2 ⟨blk, hblk, rfl⟩)
  · rcases h.2.2 with h1 | h1
    · left; exact h1
    · right
      obtain ⟨blk, hblk, he⟩ := List.mem_map.1 h1
      exact ⟨blk, hblk, he.symm⟩
  · exact (mindist_isCapMin M p hp).unique (bruvo_select_isCapMin M p hp)

/-- Instance of the amended C16 at the one-block table `[1, 2, 0]`. -/
theorem mindist_blocks_witness :
    mindist ([1, 2, 0] : List Nat).length 3 [1, 2, 0]
        (flatten (buildDist [1, 2, 3, 2, 3, 1] 3) 3) ≤ 100 ∧
    (∀ blk ∈ blocksOf 3 [1, 2, 0],
      mindist ([1, 2, 0] : List Nat).length 3 [1, 2, 0]
        (flatten (buildDist [1, 2, 3, 2, 3, 1] 3) 3)
        ≤ ∑ k in Finset.range 3, buildDist [1, 2, 3, 2, 3, 1] 3 k (blk.getD k 0)) ∧
    (mindist ([1, 2, 0] : List Nat).length 3 [1, 2, 0]
        (flatten (buildDist [1, 2, 3, 2, 3, 1] 3) 3) = 100 ∨
      ∃ blk ∈ blocksOf 3 [1, 2, 0],
        mindist ([1, 2, 0] : List Nat).length 3 [1, 2, 0]
          (flatten (buildDist [1, 2, 3, 2, 3, 1] 3) 3)
          = ∑ k in Finset.range 3, buildDist [1, 2, 3, 2, 3, 1] 3 k (blk.getD k 0)) ∧
    mindist (permuto 3).length 3 (permuto 3) (flatten (buildDist [1, 2, 3, 2, 3, 1] 3) 3)
      = ((List.range (outerIters (permuto 3).length 3)).foldl
          (fun s _ => bruvoBlock (buildDist [1, 2, 3, 2, 3, 1] 3) 3 (permuto 3) s)
          { counter := 0, res := 0, minn := 100 }).minn :=
  mindist_blocks 3 (by decide) (buildDist [1, 2, 3, 2, 3, 1] 3) [1, 2, 0] 1 rfl (by decide)

/-- C17, as stated, fails at ploidy 2: the first block of `permuto 2` is
`[1, 0]`, not the identity arrangement `[0, 1]`. -/
theorem first_block_not_identity :
    (blocksOf 2 (permuto 2)).head? ≠ some [0, 1] := by
  decide

/-- C17, amended. At the base case (`i == n`) `permute` writes the current
arrangement of the working array in reverse order (`c[--ind] = a[j]`) into the
`n + 1` cells that follow the cursor and advances the cursor by `n + 1`;
consequently for every `p ≥ 1` the first block of `permuto p` is
`[p-1, …, 1, 0]`. -/
theorem permute_base_case (n : Nat) (a c : List Nat) (perm_count : Nat)
    (ha : a.length = n + 1) (hc : perm_count + (n + 1) ≤ c.length) (p : Nat) (hp : 1 ≤ p) :
    permute a n n c perm_count
      = { a := a
          c := c.take perm_count ++ a.reverse ++ c.drop (perm_count + (n + 1))
          perm_count := perm_count + (n + 1) } ∧
    (blocksOf p (permuto p)).head? = some (List.range p).reverse := by
  refine ⟨?_, permuto_first_block p hp⟩
  unfold permute
  have e : n + 1 - n = 1 := by omega
  rw [e]
  simp only [permuteAux, if_true]
  rw [writeBlock_eq a c n perm_count ha hc]

/-- Instance of the amended C17: the arrangement `[0, 1, 2]` written from
cursor `3` into a buffer of six cells, and the first block at ploidy 3. -/
theorem permute_base_case_witness :
    permute [0, 1, 2] 2 2 [9, 9, 9, 9, 9, 9] 3
      = { a := [0, 1, 2]
          c := ([9, 9, 9, 9, 9, 9] : List Nat).take 3 ++ ([0, 1, 2] : List Nat).reverse
            ++ ([9, 9, 9, 9, 9, 9] : List Nat).drop (3 + (2 + 1))
          perm_count := 3 + (2 + 1) } ∧
    (blocksOf 3 (permuto 3)).head? = some (List.range 3).reverse :=
  permute_base_case 2 [0, 1, 2] [9, 9, 9, 9, 9, 9] 3 rfl (by decide) 3 (by decide)

/-! ## Claims about several missing alleles and the recursion -/

/-- C18, as stated, fails on `[20,24,26]` against `[20,0,0]`: the resolver
returns `2/3` (both columns of missing alleles forced to `1`), not the value
`33554431/50331648` for the matrix in which only the column of the first
missing index `1` is forced. -/
theorem infinite_model_not_first_only :
    test_bruvo_dist ([20, 24, 26] ++ [20, 0, 0]) 3 (permuto 3) (permuto 3).length 0 0
      = some (2 / 3) ∧
    mindist (permuto 3).length 3 (permuto 3)
        (flatten (colOnes (buildDist ([20, 24, 26] ++ [20, 0, 0]) 3) 3 1) 3) / 3
      = 33554431 / 50331648 ∧
    test_bruvo_dist ([20, 24, 26] ++ [20, 0, 0]) 3 (permuto 3) (permuto 3).length 0 0
      ≠ some (mindist (permuto 3).length 3 (permuto 3)
          (flatten (colOnes (buildDist ([20, 24, 26] ++ [20, 0, 0]) 3) 3 1) 3) / 3) := by
  refine ⟨by decide!, by decide!, by decide!⟩

/-- C18, amended. One side missing, infinite model (`loss = add = 0`), table
`permuto p`: when the deficient genotype `D`, passed as genotype 1, has one or
more zero alleles (but not all) and genotype 0 `Fu` is fully observed, every
recorded missing position is resolved: `test_bruvo_dist` returns `mindist / p`
of the matrix in which the column of every missing allele is forced to `1`, the
other entries being `1 - 2^(-|x - y|)`. -/
theorem test_bruvo_dist_infinite_all (p : Nat) (hp : 1 ≤ p) (D Fu : List Int)
    (hD : D.length = p) (hF : Fu.length = p) (hD1 : 0 < D.count 0) (hD2 : D.count 0 < p)
    (hF0 : ∀ x ∈ Fu, x ≠ 0) :
    test_bruvo_dist (Fu ++ D) p (permuto p) (permuto p).length 0 0
      = some (mindist (permuto p).length p (permuto p)
          (flatten (fun i j => if D.getD j 0 = 0 then 1
            else da (Fu.getD i 0) (D.getD j 0)) p) / p) :=
  infinite_all_right (2 * p) D Fu p hp hD hF hD1 hD2 hF0

/-- Instance of the amended C18 at `D = [20,0,0]`, `Fu = [20,24,26]`. -/
theorem test_bruvo_dist_infinite_all_witness :
    test_bruvo_dist ([20, 24, 26] ++ [20, 0, 0]) 3 (permuto 3) (permuto 3).length 0 0
      = some (mindist (permuto 3).length 3 (permuto 3)
          (flatten (fun i j => if ([20, 0, 0] : List Int).getD j 0 = 0 then 1
            else da (([20, 24, 26] : List Int).getD i 0)
              (([20, 0, 0] : List Int).getD j 0)) 3) / (3 : Nat)) :=
  test_bruvo_dist_infinite_all 3 (by decide) [20, 0, 0] [20, 24, 26] rfl rfl
    (by decide) (by decide) (by decide)

/-- C19, as stated, fails on `[20,0,24]` against `[0,0,26]` (`z0 = 1`, `z1 = 2`):
the reduced genotype of the side with fewer missing entries is `[20, 24]`; it
keeps both observed alleles, none is removed. -/
theorem reduction_keeps_observed :
    (dropZeros ([20, 0, 24] ++ [0, 0, 26]) 3 1 1
        (dropZeros ([20, 0, 24] ++ [0, 0, 26]) 3 0 1 [])).take 2 = [20, 24] ∧
    ((dropZeros ([20, 0, 24] ++ [0, 0, 26]) 3 1 1
        (dropZeros ([20, 0, 24] ++ [0, 0, 26]) 3 0 1 [])).take 2).countP (fun x => x ≠ 0)
      ≠ ([20, 0, 24] : List Int).countP (fun x => x ≠ 0) - min 1 2 := by
  decide

/-- C19, amended. In the both-sides-missing case (`z0 > 0` and `z1 > 0` zero
alleles, neither side fully missing) the reduced ploidy is
`p - (max(z0,z1) - |z0 - z1|) = p - min(z0,z1)`; the reduced pair is built by
removing the first `min(z0,z1)` zero alleles of each genotype, every non-missing
allele being kept in order; and `test_bruvo_dist` returns the result of the
resolver on that reduced pair with the same flags and the table generated for
the reduced ploidy. -/
theorem both_sides_reduction (p : Nat) (A B : List Int)
    (hA : A.length = p) (hB : B.length = p)
    (hA1 : 0 < A.count 0) (hB1 : 0 < B.count 0) (hA0 : A.count 0 < p) (hB0 : B.count 0 < p)
    (perm : List Nat) (w : Nat) (loss add : Int) :
    p - (max (A.count 0) (B.count 0) - ((A.count 0 : Int) - (B.count 0 : Int)).natAbs)
      = p - min (A.count 0) (B.count 0) ∧
    dropZeros (A ++ B) p 1 (min (A.count 0) (B.count 0))
        (dropZeros (A ++ B) p 0 (min (A.count 0) (B.count 0)) [])
      = removeZeros (min (A.count 0) (B.count 0)) A
        ++ removeZeros (min (A.count 0) (B.count 0)) B ∧
    (removeZeros (min (A.count 0) (B.count 0)) A).length = p - min (A.count 0) (B.count 0) ∧
    (removeZeros (min (A.count 0) (B.count 0)) B).length = p - min (A.count 0) (B.count 0) ∧
    (removeZeros (min (A.count 0) (B.count 0)) A).filter (fun x => x ≠ 0)
      = A.filter (fun x => x ≠ 0) ∧
    (removeZeros (min (A.count 0) (B.count 0)) B).filter (fun x => x ≠ 0)
      = B.filter (fun x => x ≠ 0) ∧
    (removeZeros (min (A.count 0) (B.count 0)) A).count 0
      = A.count 0 - min (A.count 0) (B.count 0) ∧
    (removeZeros (min (A.count 0) (B.count 0)) B).count 0
      = B.count 0 - min (A.count 0) (B.count 0) ∧
    test_bruvo_dist (A ++ B) p perm w loss add
      = test_bruvo_dist
          (removeZeros (min (A.count 0) (B.count 0)) A
            ++ removeZeros (min (A.count 0) (B.count 0)) B)
          (p - min (A.count 0) (B.count 0))
          (permuto (p - min (A.count 0) (B.count 0)))
          (permuto (p - min (A.count 0) (B.count 0))).length loss add := by
  have hm1 : min (A.count 0) (B.count 0) ≤ A.count 0 := min_le_left _ _
  have hm2 : min (A.count 0) (B.count 0) ≤ B.count 0 := min_le_right _ _
  refine ⟨?_, new_geno_eq A B p _ hA hB, ?_, ?_, removeZeros_filter _ A,
    removeZeros_filter _ B, removeZeros_count _ A, removeZeros_count _ B,
    tbd_both_top A B p hA hB hA0 hB0 hA1 hB1 perm w loss add⟩
  · rcases le_total (A.count 0) (B.count 0) with h | h
    · rw [max_eq_right h, min_eq_left h]; omega
    · rw [max_eq_left h, min_eq_right h]; omega
  · rw [removeZeros_length _ _ hm1, hA]
  · rw [removeZeros_length _ _ hm2, hB]

/-- Instance of the amended C19 at `A = [20,0,24]`, `B = [0,0,26]`. -/
theorem both_sides_reduction_witness :
    3 - (max (([20, 0, 24] : List Int).count 0) (([0, 0, 26] : List Int).count 0)
        - (((([20, 0, 24] : List Int).count 0 : Nat) : Int)
          - ((([0, 0, 26] : List Int).count 0 : Nat) : Int)).natAbs)
      = 3 - min (([20, 0, 24] : List Int).count 0) (([0, 0, 26] : List Int).count 0) ∧
    dropZeros ([20, 0, 24] ++ [0, 0, 26]) 3 1
        (min (([20, 0, 24] : List Int).count 0) (([0, 0, 26] : List Int).count 0))
        (dropZeros ([20, 0, 24] ++ [0, 0, 26]) 3 0
          (min (([20, 0, 24] : List Int).count 0) (([0, 0, 26] : List Int).count 0)) [])
      = removeZeros (min (([20, 0, 24] : List Int).count 0) (([0, 0, 26] : List Int).count 0))
          [20, 0, 24]
        ++ removeZeros (min (([20, 0, 24] : List Int).count 0) (([0, 0, 26] : List Int).count 0))
          [0, 0, 26] ∧
    (removeZeros (min (([20, 0, 24] : List Int).count 0) (([0, 0, 26] : List Int).count 0))
        [20, 0, 24]).length
      = 3 - min (([20, 0, 24] : List Int).count 0) (([0, 0, 26] : List Int).count 0) ∧
    (removeZeros (min (([20, 0, 24] : List Int).count 0) (([0, 0, 26] : List Int).count 0))
        [0, 0, 26]).length
      = 3 - min (([20, 0, 24] : List Int).count 0) (([0, 0, 26] : List Int).count 0) ∧
    (removeZeros (min (([20, 0, 24] : List Int).count 0) (([0, 0, 26] : List Int).count 0))
        [20, 0, 24]).filter (fun x => x ≠ 0)
      = ([20, 0, 24] : List Int).filter (fun x => x ≠ 0) ∧
    (removeZeros (min (([20, 0, 24] : List Int).count 0) (([0, 0, 26] : List Int).count 0))
        [0, 0, 26]).filter (fun x => x ≠ 0)
      = ([0, 0, 26] : List Int).filter (fun x => x ≠ 0) ∧
    (removeZeros (min (([20, 0, 24] : List Int).count 0) (([0, 0, 26] : List Int).count 0))
        [20, 0, 24]).count 0
      = ([20, 0, 24] : List Int).count 0
        - min (([20, 0, 24] : List Int).count 0) (([0, 0, 26] : List Int).count 0) ∧
    (removeZeros (min (([20, 0, 24] : List Int).count 0) (([0, 0, 26] : List Int).count 0))
        [0, 0, 26]).count 0
      = ([0, 0, 26] : List Int).count 0
        - min (([20, 0, 24] : List Int).count 0) (([0, 0, 26] : List Int).count 0) ∧
    test_bruvo_dist ([20, 0, 24] ++ [0, 0, 26]) 3 (permuto 3) (permuto 3).length 1 1
      = test_bruvo_dist
          (removeZeros (min (([20, 0, 24] : List Int).count 0) (([0, 0, 26] : List Int).count 0))
              [20, 0, 24]
            ++ removeZeros
              (min (([20, 0, 24] : List Int).count 0) (([0, 0, 26] : List Int).count 0))
              [0, 0, 26])
          (3 - min (([20, 0, 24] : List Int).count 0) (([0, 0, 26] : List Int).count 0))
          (permuto (3 - min (([20, 0, 24] : List Int).count 0)
            (([0, 0, 26] : List Int).count 0)))
          (permuto (3 - min (([20, 0, 24] : List Int).count 0)
            (([0, 0, 26] : List Int).count 0))).length 1 1 :=
  both_sides_reduction 3 [20, 0, 24] [0, 0, 26] rfl rfl (by decide) (by decide) (by decide)
    (by decide) (permuto 3) (permuto 3).length 1 1

/-- C20 fails on the pair `[20,23,24,0]`, `[20,24,26,43]` with `loss = 1`: for
every table, either value of `add` and whatever the allowed nesting of calls,
`test_bruvo_dist` returns no value. The scan leaves index `1` in
`zero_ind[0][0]` (written through `full_ind`), so the genome-loss re-invocations
are made on `[20,x,24,0]`, `[20,24,26,43]` for `x = 20, 24, 26, 43`: pairs with
one zero allele, as many as before. -/
theorem test_bruvo_dist_not_terminating :
    (∀ (fuel : Nat) (perm : List Nat) (w : Nat) (add : Int),
      test_bruvo_dist_fuel fuel ([20, 23, 24, 0] ++ [20, 24, 26, 43]) 4 perm w 1 add = none) ∧
    test_bruvo_dist ([20, 23, 24, 0] ++ [20, 24, 26, 43]) 4 (permuto 4) (permuto 4).length 1 0
      = none ∧
    ([20, 24, 26, 43] : List Int).map
        (fun x => ((([20, 23, 24, 0] ++ [20, 24, 26, 43] : List Int).set 1 x).count 0))
      = [1, 1, 1, 1] ∧
    ([20, 23, 24, 0] ++ [20, 24, 26, 43] : List Int).count 0 = 1 :=
  ⟨fun fuel perm w add => loss_left_none fuel [20, 23, 24, 0] [20, 24, 26, 43] 4 perm w add
    rfl rfl (by decide) (by decide) (by decide) (by decide),
   loss_left_none _ [20, 23, 24, 0] [20, 24, 26, 43] 4 _ _ 0
    rfl rfl (by decide) (by decide) (by decide) (by decide),
   by decide, by decide⟩

/-! ## The reduced ploidy of the both-sides branch -/

theorem reduction_eq (p z0 z1 : Int) : reduction p z0 z1 = p - min z0 z1 := by
  unfold reduction
  simp only [if_true, one_ne_zero, if_false]
  rcases lt_trichotomy z0 z1 with h | h | h
  · have ha : |z0 - z1| = z1 - z0 := by rw [abs_of_neg (by omega)]; omega
    rw [ha, if_neg (show ¬ (z1 - z0 = 0) by omega), if_pos h, if_neg one_ne_zero,
      min_eq_left (le_of_lt h)]
    omega
  · subst h
    simp
  · have ha : |z0 - z1| = z0 - z1 := abs_of_pos (by omega)
    rw [ha, if_neg (show ¬ (z0 - z1 = 0) by omega), if_neg (show ¬ z0 < z1 by omega),
      if_pos rfl, min_eq_right (le_of_lt h)]
    omega

theorem zerosOf_all (c : Nat → Int) (p : Nat) (h : ∀ j, j < p → c j = 0) :
    (zerosOf c p).length = p := by
  unfold zerosOf
  rw [List.filter_eq_self.2 (fun j hj => by simpa using h j (List.mem_range.1 hj))]
  simp

/-- The scan of genotype 0 whose `p ≥ 1` cells are all zero leaves by the early
`return minn`. -/
theorem scan_all_zero_left (inp : List Int) (p : Nat) (hp : 0 < p)
    (h : ∀ j, j < p → inp.getD (0 * p + j) 0 = 0) : scanGeno inp p 0 scanInit = none := by
  rw [scanGeno_eq inp p 0 scanInit rfl (Nat.zero_le p), if_pos ⟨zerosOf_all _ p h, hp⟩]

/-- The state after a completed scan of genotype 0. -/
theorem scan_left_state (inp : List Int) (p : Nat) (s0 : ScanState)
    (h0 : scanGeno inp p 0 scanInit = some s0) :
    s0.zerocatch 0 = (zerosOf (fun j => inp.getD (0 * p + j) 0) p).length ∧
    s0.zerocatch 1 = 0 ∧ s0.full_count ≤ p ∧
    ¬ ((zerosOf (fun j => inp.getD (0 * p + j) 0) p).length = p ∧ 0 < p) := by
  rw [scanGeno_eq inp p 0 scanInit rfl (Nat.zero_le p)] at h0
  by_cases hc : (zerosOf (fun j => inp.getD (0 * p + j) 0) p).length = p ∧ 0 < p
  · rw [if_pos hc] at h0
    exact absurd h0 (by simp)
  · rw [if_neg hc] at h0
    have e := Option.some.inj h0
    subst e
    have hle := zerosOf_add_fullOf (fun j => inp.getD (0 * p + j) 0) p
    refine ⟨by simp, by simp [scanInit], ?_, hc⟩
    show scanInit.full_count + _ ≤ p
    simp only [scanInit]
    omega

/-- The scan of genotype 1 whose `p ≥ 1` cells are all zero leaves by the early
`return minn`. -/
theorem scan_all_zero_right (inp : List Int) (p : Nat) (hp : 0 < p)
    (h : ∀ j, j < p → inp.getD (1 * p + j) 0 = 0) (s0 : ScanState)
    (h0 : scanGeno inp p 0 scanInit = some s0) : scanGeno inp p 1 s0 = none := by
  obtain ⟨_, hz, hfc, _⟩ := scan_left_state inp p s0 h0
  rw [scanGeno_eq inp p 1 s0 hz hfc, if_pos ⟨zerosOf_all _ p h, hp⟩]

/-- Two completed scans: a side that met a zero counted fewer than `p` of them. -/
theorem scan_some (inp : List Int) (p : Nat) (s0 s : ScanState)
    (h0 : scanGeno inp p 0 scanInit = some s0) (h1 : scanGeno inp p 1 s0 = some s) :
    (0 < s.zerocatch 0 → s.zerocatch 0 ≤ p - 1 ∧ 0 < p) ∧
    (0 < s.zerocatch 1 → s.zerocatch 1 ≤ p - 1 ∧ 0 < p) := by
  obtain ⟨hz0, hz, hfc, hc0⟩ := scan_left_state inp p s0 h0
  rw [scanGeno_eq inp p 1 s0 hz hfc] at h1
  have hle0 := zerosOf_length_le (fun j => inp.getD (0 * p + j) 0) p
  have hle1 := zerosOf_length_le (fun j => inp.getD (1 * p + j) 0) p
  by_cases hc : (zerosOf (fun j => inp.getD (1 * p + j) 0) p).length = p ∧ 0 < p
  · rw [if_pos hc] at h1
    exact absurd h1 (by simp)
  · rw [if_neg hc] at h1
    have e := Option.some.inj h1
    subst e
    constructor
    · intro hpos
      simp only [zero_ne_one, if_false] at hpos ⊢
      rw [hz0] at hpos ⊢
      have hp : 0 < p := by omega
      refine ⟨?_, hp⟩
      by_contra hgt
      exact hc0 ⟨by omega, hp⟩
    · intro hpos
      simp only [if_true] at hpos ⊢
      have hp : 0 < p := by omega
      refine ⟨?_, hp⟩
      by_contra hgt
      exact hc ⟨by omega, hp⟩

/-- A side whose scan left early makes the resolver return `100`. -/
theorem tbd_missing_side (fuel : Nat) (inp : List Int) (p : Nat) (perm : List Nat) (w : Nat)
    (loss add : Int)
    (h : scanGeno inp p 0 scanInit = none ∨
      ∀ s0, scanGeno inp p 0 scanInit = some s0 → scanGeno inp p 1 s0 = none) :
    test_bruvo_dist_fuel (fuel + 1) inp p perm w loss add = some 100 := by
  rw [test_bruvo_dist_fuel]
  rcases h with h | h
  · rw [h]
  · cases h0 : scanGeno inp p 0 scanInit with
    | none => rfl
    | some s0 =>
      simp only []
      rw [h s0 h0]

/-- The both-sides branch on any input: the nested call is made with ploidy
`p - min(z0, z1)`. -/
theorem tbd_reduce (fuel : Nat) (inp : List Int) (p : Nat) (s0 s : ScanState) (z0 z1 : Nat)
    (h0 : scanGeno inp p 0 scanInit = some s0) (h1 : scanGeno inp p 1 s0 = some s)
    (e0 : s.zerocatch 0 = z0) (e1 : s.zerocatch 1 = z1)
    (hz0 : 0 < z0) (hz1 : 0 < z1) (perm : List Nat) (w : Nat) (loss add : Int) :
    test_bruvo_dist_fuel (fuel + 1) inp p perm w loss add
      = test_bruvo_dist_fuel fuel
          (dropZeros inp p 1 (min z0 z1) (dropZeros inp p 0 (min z0 z1) []))
          (p - min z0 z1) (permuto (p - min z0 z1))
          (fact (p - min z0 z1) * (p - min z0 z1)) loss add := by
  rw [test_bruvo_dist_fuel, h0]
  simp only []
  rw [h1]
  simp only [e0, e1]
  rw [if_pos ⟨hz0, hz1⟩]
  rcases Nat.lt_trichotomy z0 z1 with hlt | heq | hgt
  · have hd : ((z0 : Int) - (z1 : Int)).natAbs = z1 - z0 := by omega
    have hd0 : z1 - z0 ≠ 0 := by omega
    have hm : min z0 z1 = z0 := by omega
    have hr : p - (z1 - (z1 - z0)) = p - z0 := by omega
    simp only [hd, hd0, if_false, hlt, if_true, one_ne_zero, hm, hr, e0, e1]
  · subst heq
    simp [e0, e1]
  · have hd : ((z0 : Int) - (z1 : Int)).natAbs = z0 - z1 := by omega
    have hd0 : z0 - z1 ≠ 0 := by omega
    have hnlt : ¬ z0 < z1 := by omega
    have hm : min z0 z1 = z1 := by omega
    have hr : p - (z0 - (z0 - z1)) = p - z1 := by omega
    simp only [hd, hd0, if_false, hnlt, if_true, one_ne_zero, hm, hr, e0, e1]

/-! ## Claims about the reduced ploidy, symmetry and reordering -/

/-- C21. In `test_bruvo_dist`, for any input and ploidy: a genotype whose `p ≥ 1`
cells are all zero makes the call return `100` before the both-sides branch; and
whenever both scans complete with `z0 > 0` and `z1 > 0` zeros (the both-sides
branch), `z0, z1 ≤ p - 1`, the reduced ploidy `reduction` computed in `int`
arithmetic satisfies `1 ≤ reduction ≤ p - 1` and `reduction = p - min(z0, z1)`,
so the sizes `2 * reduction` and `fact(reduction) * reduction` are positive, and
the nested call is made with that ploidy. -/
theorem reduction_in_range (inp : List Int) (p : Nat) :
    (∀ (fuel : Nat) (perm : List Nat) (w : Nat) (loss add : Int),
      0 < p →
      ((∀ j, j < p → inp.getD (0 * p + j) 0 = 0) ∨ (∀ j, j < p → inp.getD (1 * p + j) 0 = 0)) →
      test_bruvo_dist_fuel (fuel + 1) inp p perm w loss add = some 100) ∧
    (∀ (s0 s : ScanState) (z0 z1 : Nat),
      scanGeno inp p 0 scanInit = some s0 → scanGeno inp p 1 s0 = some s →
      s.zerocatch 0 = z0 → s.zerocatch 1 = z1 →
      0 < z0 → 0 < z1 →
      z0 ≤ p - 1 ∧ z1 ≤ p - 1 ∧
      1 ≤ reduction p z0 z1 ∧ reduction p z0 z1 ≤ (p : Int) - 1 ∧
      reduction p z0 z1 = (p : Int) - min (z0 : Int) (z1 : Int) ∧
      0 < 2 * reduction p z0 z1 ∧
      0 < fact (reduction p z0 z1).toNat * (reduction p z0 z1).toNat ∧
      ∀ (fuel : Nat) (perm : List Nat) (w : Nat) (loss add : Int),
        test_bruvo_dist_fuel (fuel + 1) inp p perm w loss add
          = test_bruvo_dist_fuel fuel
              (dropZeros inp p 1 (min z0 z1) (dropZeros inp p 0 (min z0 z1) []))
              (reduction p z0 z1).toNat (permuto (reduction p z0 z1).toNat)
              (fact (reduction p z0 z1).toNat * (reduction p z0 z1).toNat) loss add) := by
  refine ⟨?_, ?_⟩
  · intro fuel perm w loss add hp h
    apply tbd_missing_side fuel inp p perm w loss add
    rcases h with h | h
    · exact Or.inl (scan_all_zero_left inp p hp h)
    · exact Or.inr (fun s0 h0 => scan_all_zero_right inp p hp h s0 h0)
  · intro s0 s z0 z1 h0 h1 e0 e1 hz0 hz1
    have hb := scan_some inp p s0 s h0 h1
    rw [e0, e1] at hb
    have b0 := hb.1 hz0
    have b1 := hb.2 hz1
    have hr := reduction_eq p z0 z1
    have hn : (reduction p z0 z1).toNat = p - min z0 z1 := by
      rw [hr]; omega
    have hpos : 0 < p - min z0 z1 := by omega
    refine ⟨b0.1, b1.1, by rw [hr]; omega, by rw [hr]; omega, hr, by rw [hr]; omega, ?_, ?_⟩
    · rw [hn, fact_eq]
      exact Nat.mul_pos (Nat.factorial_pos _) hpos
    · intro fuel perm w loss add
      rw [hn]
      exact tbd_reduce fuel inp p s0 s z0 z1 h0 h1 e0 e1 hz0 hz1 perm w loss add

/-- Instance of C21 at the input `[20,0,24, 0,0,26]`, ploidy 3: one and two
zeros, reduced ploidy 2. -/
theorem reduction_in_range_witness :
    ∃ s0 s : ScanState,
      scanGeno [20, 0, 24, 0, 0, 26] 3 0 scanInit = some s0 ∧
      scanGeno [20, 0, 24, 0, 0, 26] 3 1 s0 = some s ∧
      s.zerocatch 0 = 1 ∧ s.zerocatch 1 = 2 ∧
      (1 : Nat) ≤ 3 - 1 ∧ (2 : Nat) ≤ 3 - 1 ∧
      1 ≤ reduction (3 : Nat) (1 : Nat) (2 : Nat) ∧
      reduction (3 : Nat) (1 : Nat) (2 : Nat) ≤ ((3 : Nat) : Int) - 1 ∧
      reduction (3 : Nat) (1 : Nat) (2 : Nat)
        = ((3 : Nat) : Int) - min ((1 : Nat) : Int) ((2 : Nat) : Int) ∧
      0 < 2 * reduction (3 : Nat) (1 : Nat) (2 : Nat) ∧
      0 < fact (reduction (3 : Nat) (1 : Nat) (2 : Nat)).toNat
        * (reduction (3 : Nat) (1 : Nat) (2 : Nat)).toNat ∧
      ∀ (fuel : Nat) (perm : List Nat) (w : Nat) (loss add : Int),
        test_bruvo_dist_fuel (fuel + 1) [20, 0, 24, 0, 0, 26] 3 perm w loss add
          = test_bruvo_dist_fuel fuel
              (dropZeros [20, 0, 24, 0, 0, 26] 3 1 (min 1 2)
                (dropZeros [20, 0, 24, 0, 0, 26] 3 0 (min 1 2) []))
              (reduction (3 : Nat) (1 : Nat) (2 : Nat)).toNat
              (permuto (reduction (3 : Nat) (1 : Nat) (2 : Nat)).toNat)
              (fact (reduction (3 : Nat) (1 : Nat) (2 : Nat)).toNat
                * (reduction (3 : Nat) (1 : Nat) (2 : Nat)).toNat) loss add := by
  have hs : ((scanGeno [20, 0, 24, 0, 0, 26] 3 0 scanInit).bind
      (scanGeno [20, 0, 24, 0, 0, 26] 3 1)).map (fun s => (s.zerocatch 0, s.zerocatch 1))
      = some (1, 2) := by decide
  obtain ⟨s, hs1, hs2⟩ := Option.map_eq_some'.1 hs
  obtain ⟨s0, h0, h1⟩ := Option.bind_eq_some.1 hs1
  have e0 : s.zerocatch 0 = 1 := congrArg Prod.fst hs2
  have e1 : s.zerocatch 1 = 2 := congrArg Prod.snd hs2
  exact ⟨s0, s, h0, h1, e0, e1,
    (reduction_in_range [20, 0, 24, 0, 0, 26] 3).2 s0 s 1 2 h0 h1 e0 e1 (by decide) (by decide)⟩

/-- C22 fails on the pair `[20,23,24,0]`, `[20,24,26,43]`: in the infinite model
(`loss = add = 0`) the resolver returns `134217727/268435456` with the deficient
genotype first and `15/32` with it second; with `loss = 1` it returns no value
with the deficient genotype first and `46137327/134217728` with it second. With
the deficient genotype first the scan leaves index `1` in `zero_ind[0][0]`
(written through `full_ind`). -/
theorem test_bruvo_dist_not_symm :
    test_bruvo_dist ([20, 23, 24, 0] ++ [20, 24, 26, 43]) 4 (permuto 4) (permuto 4).length 0 0
      = some (134217727 / 268435456) ∧
    test_bruvo_dist ([20, 24, 26, 43] ++ [20, 23, 24, 0]) 4 (permuto 4) (permuto 4).length 0 0
      = some (15 / 32) ∧
    test_bruvo_dist ([20, 23, 24, 0] ++ [20, 24, 26, 43]) 4 (permuto 4) (permuto 4).length 1 0
      = none ∧
    test_bruvo_dist ([20, 24, 26, 43] ++ [20, 23, 24, 0]) 4 (permuto 4) (permuto 4).length 1 0
      = some (46137327 / 134217728) := by
  refine ⟨by decide!, by decide!, ?_, by decide!⟩
  exact loss_left_none _ [20, 23, 24, 0] [20, 24, 26, 43] 4 _ _ 0 rfl rfl
    (by decide) (by decide) (by decide) (by decide)

/-- C23 fails on the reordering `[20,0,23,24]` of `[20,23,24,0]`, against
`[20,24,26,43]`: in the infinite model (`loss = add = 0`) the resolver returns
`15/32` with the zero listed at index `1` and `134217727/268435456` with the
zero listed at index `3`; with `loss = 1` it returns `46137327/134217728` for
the first listing and no value for the second. The scan leaves index `1` in
`zero_ind[0][0]` (written through `full_ind`) wherever the zero is listed. -/
theorem test_bruvo_dist_not_reorder :
    List.Perm ([20, 0, 23, 24] : List Int) [20, 23, 24, 0] ∧
    test_bruvo_dist ([20, 0, 23, 24] ++ [20, 24, 26, 43]) 4 (permuto 4) (permuto 4).length 0 0
      = some (15 / 32) ∧
    test_bruvo_dist ([20, 23, 24, 0] ++ [20, 24, 26, 43]) 4 (permuto 4) (permuto 4).length 0 0
      = some (134217727 / 268435456) ∧
    test_bruvo_dist ([20, 0, 23, 24] ++ [20, 24, 26, 43]) 4 (permuto 4) (permuto 4).length 1 0
      = some (46137327 / 134217728) ∧
    (∀ fuel : Nat,
      test_bruvo_dist_fuel fuel ([20, 23, 24, 0] ++ [20, 24, 26, 43]) 4 (permuto 4)
        (permuto 4).length 1 0 = none) := by
  refine ⟨by decide, by decide!, by decide!, by decide!, fun fuel => ?_⟩
  exact loss_left_none fuel [20, 23, 24, 0] [20, 24, 26, 43] 4 _ _ 0 rfl rfl
    (by decide) (by decide) (by decide) (by decide)

end Poppr
